import Mathlib

/-!
# CustomKeybinds: binds, devices and the bind manager

A shallow embedding of `src/src/Keybinds.cpp` and `src/include/Keybinds.hpp`.

* `std::string` is a list of characters (`Str`).
* `int` is an `Int` within `[-2^31, 2^31)`, `unsigned int` a `Nat` below `2^32`;
  conversions between the two wrap modulo `2^32`.
* `Bind*` is a value of the closed sum `Bind` (keyboard chord or controller
  button); a null pointer is `none`.
* `std::unordered_map` is an association list; that its keys are pairwise
  distinct is the invariant `BindManager.bindsDistinct`. The order of the
  list is the order in which the map is traversed; the C++ standard leaves
  that order unspecified, so a key that is new to the map is put at the end
  and no statement below depends on where it lands among several keys.
* member functions of `BindManager` that mutate the manager take the state
  and return the new one.
* `InvokeBindEvent(...).post()` is a function `post` that gives the answer
  of the subscribers of the event; the functions that post events return the
  list of the events posted. Subscribers do not call back into the manager.
* the `float` times of the repeat entries are rational numbers of seconds.
-/

namespace keybinds

/-! ## Strings and formatted integer input/output -/

abbrev Str := List Char

/-- The decimal digit `d` as a character. -/
def digitChar (d : Nat) : Char := Char.ofNat (48 + d)

/-- Decimal digits of `n`, most significant first; `fuel` bounds the number of digits. -/
def natDigits : Nat → Nat → Str
  | 0, _ => []
  | fuel + 1, n =>
    if n < 10 then [digitChar n] else natDigits fuel (n / 10) ++ [digitChar (n % 10)]

/-- Decimal form of a natural number. -/
def natToStr (n : Nat) : Str := natDigits (n + 1) n

/-- `std::to_string(int)`. -/
def to_string (i : Int) : Str :=
  if i < 0 then '-' :: natToStr i.natAbs else natToStr i.natAbs

/-- `std::isspace` in the "C" locale. -/
def isSpace (c : Char) : Bool :=
  c = ' ' || c = '\t' || c = '\n' || c = '\x0b' || c = '\x0c' || c = '\r'

/-- A decimal digit. -/
def isDigit (c : Char) : Bool := decide (48 ≤ c.toNat) && decide (c.toNat ≤ 57)

/-- Value of a run of decimal digits. -/
def digitsVal (ds : Str) : Nat := ds.foldl (fun a c => 10 * a + (c.toNat - 48)) 0

/-- The optional sign of a number: whether it is negative, and the rest. -/
def readSign : Str → Bool × Str
  | '-' :: r => (true, r)
  | '+' :: r => (false, r)
  | s => (false, s)

/-- `std::istream::operator>>(int&)` on a fresh `std::stringstream`: skip
leading white space, read an optional sign and a non-empty run of digits.
`none` is a stream with `failbit` set (no digits, or a value that does not fit
an `int`); otherwise the value and the unread rest of the stream. -/
def readInt (s : Str) : Option (Int × Str) :=
  let signed := readSign (s.dropWhile isSpace)
  let ds := signed.2.takeWhile isDigit
  let rest := signed.2.dropWhile isDigit
  if ds = [] then none
  else
    let v : Int := if signed.1 then -(digitsVal ds : Int) else (digitsVal ds : Int)
    if v < -2147483648 ∨ 2147483647 < v then none else some (v, rest)

/-! ## Key codes and modifiers -/

/-- The enumerators of `cocos2d::enumKeyCodes` that the source names in the
functions embedded here. The enumeration is declared by the cocos2d headers,
outside this repository, so its values are parameters. -/
structure KeyCodes where
  KEY_None : Int
  KEY_Unknown : Int
  CONTROLLER_A : Int
  CONTROLLER_Right : Int

/-- An `int`. -/
def isInt32 (i : Int) : Prop := -2147483648 ≤ i ∧ i ≤ 2147483647

instance (i : Int) : Decidable (isInt32 i) :=
  inferInstanceAs (Decidable (-2147483648 ≤ i ∧ i ≤ 2147483647))

/-- `static_cast<int>(Modifier)`: the underlying `unsigned int` read as `int`. -/
def modifierToInt (m : Nat) : Int :=
  if m % 4294967296 < 2147483648 then (m % 4294967296 : Nat) else (m % 4294967296 : Nat) - 4294967296

/-- `static_cast<Modifier>(int)`. -/
def intToModifier (i : Int) : Nat := (i % 4294967296).toNat

/-- `keybinds::keyIsController`. -/
def keyIsController (kc : KeyCodes) (key : Int) : Bool :=
  decide (kc.CONTROLLER_A ≤ key) && decide (key ≤ kc.CONTROLLER_Right)

/-! ## Binds -/

/-- `keybinds::Keybind`: a key code and a modifier mask. -/
structure Keybind where
  m_key : Int
  m_modifiers : Nat
  deriving DecidableEq, Repr

/-- `keybinds::ControllerBind`: a controller button code. -/
structure ControllerBind where
  m_button : Int
  deriving DecidableEq, Repr

/-- `keybinds::Bind` with its two subclasses. -/
inductive Bind where
  | keybind (k : Keybind)
  | controller (c : ControllerBind)
  deriving DecidableEq, Repr

/-- `Keybind::create`. -/
def Keybind.create (kc : KeyCodes) (key : Int) (modifiers : Nat) : Option Keybind :=
  if key = kc.KEY_None ∨ key = kc.KEY_Unknown ∨ keyIsController kc key = true then none
  else some { m_key := key, m_modifiers := modifiers }

/-- `Keybind::getKey`. -/
def Keybind.getKey (b : Keybind) : Int := b.m_key

/-- `Keybind::getModifiers`. -/
def Keybind.getModifiers (b : Keybind) : Nat := b.m_modifiers

/-- `ControllerBind::create`. -/
def ControllerBind.create (kc : KeyCodes) (button : Int) : Option ControllerBind :=
  if ¬ (keyIsController kc button = true) then none
  else some { m_button := button }

/-- `ControllerBind::getButton`. -/
def ControllerBind.getButton (b : ControllerBind) : Int := b.m_button

/-- Modelled from the spec: the device identifiers, which the source writes
`"keyboard"_spr` and `"controller"_spr` with a literal suffix defined
outside `src/`; the spec names them "keyboard" and "controller". -/
def keyboardID : Str := "keyboard".toList

/-- Modelled from the spec: see `keyboardID`. -/
def controllerID : Str := "controller".toList

/-- `Bind::getDeviceID` as overridden by `Keybind` and `ControllerBind`. -/
def Bind.getDeviceID : Bind → Str
  | .keybind _ => keyboardID
  | .controller _ => controllerID

/-- `Keybind::isEqual` and `ControllerBind::isEqual`: the other bind has the
same dynamic type and the same fields. -/
def Bind.isEqual : Bind → Bind → Bool
  | .keybind a, .keybind o => decide (a.m_key = o.m_key) && decide (a.m_modifiers = o.m_modifiers)
  | .controller a, .controller o => decide (a.m_button = o.m_button)
  | _, _ => false

/-! ## Devices -/

/-- `keybinds::Device`: identifier, decoder and encoder. -/
structure Device where
  getID : Str
  loadBind : Str → Option Bind
  saveBind : Bind → Str

/-- `KeyboardDevice::loadBind`. A failed first extraction leaves the stream
failed, so `ss.get()` yields end-of-file, which is not `'|'`. -/
def KeyboardDevice.loadBind (kc : KeyCodes) (data : Str) : Option Bind :=
  match readInt data with
  | none => none
  | some (mods, afterMods) =>
    match afterMods with
    | '|' :: afterBar =>
      match readInt afterBar with
      | none => none
      | some (key, _) => (Keybind.create kc key (intToModifier mods)).map Bind.keybind
    | _ => none

/-- `KeyboardDevice::saveBind`. The source casts the bind to `Keybind*`
unchecked; the encoder is only meaningful on keyboard binds and the model
gives the empty string on any other. -/
def KeyboardDevice.saveBind : Bind → Str
  | .keybind key => to_string (modifierToInt key.getModifiers) ++ "|".toList ++ to_string key.getKey
  | .controller _ => []

/-- `ControllerDevice::loadBind`. -/
def ControllerDevice.loadBind (kc : KeyCodes) (data : Str) : Option Bind :=
  match readInt data with
  | none => none
  | some (key, _) => (ControllerBind.create kc key).map Bind.controller

/-- `ControllerDevice::saveBind`; the cast to `ControllerBind*` is unchecked
as in `KeyboardDevice.saveBind`. -/
def ControllerDevice.saveBind : Bind → Str
  | .controller b => to_string b.getButton
  | .keybind _ => []

/-- `KeyboardDevice::get()`. -/
def KeyboardDevice (kc : KeyCodes) : Device where
  getID := keyboardID
  loadBind := KeyboardDevice.loadBind kc
  saveBind := KeyboardDevice.saveBind

/-- `ControllerDevice::get()`. -/
def ControllerDevice (kc : KeyCodes) : Device where
  getID := controllerID
  loadBind := ControllerDevice.loadBind kc
  saveBind := ControllerDevice.saveBind

/-- Key codes used to evaluate the definitions on concrete inputs. -/
def sampleKeyCodes : KeyCodes where
  KEY_None := 0
  KEY_Unknown := -1
  CONTROLLER_A := 1001
  CONTROLLER_Right := 1027

/-! ## Categories -/

/-- `keybinds::Category`: a path with `/` between its segments. -/
structure Category where
  m_value : Str
  deriving DecidableEq, Repr

/-- `std::string::find_last_of(char)`: index of the last occurrence. -/
def find_last_of : Str → Char → Option Nat
  | [], _ => none
  | x :: xs, c =>
    match find_last_of xs c with
    | some i => some (i + 1)
    | none => if x = c then some 0 else none

/-- `Category::getParent`. -/
def Category.getParent (c : Category) : Option Category :=
  if c.m_value.contains '/' then
    some ⟨c.m_value.take ((find_last_of c.m_value '/').getD c.m_value.length)⟩
  else none

/-- `Category::hasParent`: `m_value.starts_with(parent.m_value)`. -/
def Category.hasParent (c parent : Category) : Bool :=
  parent.m_value.isPrefixOf c.m_value

/-- `Category::PLAY`. -/
def Category.PLAY : Category := ⟨"Play".toList⟩

/-- `Category::EDITOR`. -/
def Category.EDITOR : Category := ⟨"Editor".toList⟩

/-- `Category::GLOBAL`. -/
def Category.GLOBAL : Category := ⟨"Global".toList⟩

/-! ## Actions -/

/-- `keybinds::RepeatOptions` with its default member initialisers. -/
structure RepeatOptions where
  enabled : Bool := true
  rate : Nat := 300
  delay : Nat := 500
  deriving DecidableEq, Repr

/-- `keybinds::BindableAction`; the owning `Mod*` is left out. -/
structure BindableAction where
  m_id : Str
  m_name : Str
  m_description : Str
  m_defaults : List Bind
  m_category : Category
  m_repeatable : Bool
  deriving DecidableEq, Repr

/-- `BindableAction::getID`. -/
def BindableAction.getID (a : BindableAction) : Str := a.m_id

/-- `BindableAction::getDefaults`. -/
def BindableAction.getDefaults (a : BindableAction) : List Bind := a.m_defaults

/-- `BindableAction::getCategory`. -/
def BindableAction.getCategory (a : BindableAction) : Category := a.m_category

/-- `BindableAction::isRepeatable`. -/
def BindableAction.isRepeatable (a : BindableAction) : Bool := a.m_repeatable

/-- `BindManager::ActionData`; the member `repeat` is named `repeatOptions`. -/
structure ActionData where
  definition : BindableAction
  repeatOptions : RepeatOptions
  deriving DecidableEq, Repr

/-! ## Association lists for `std::unordered_map` -/

section Maps
variable {κ ν : Type}

/-- `m.contains(k)` / `m.count(k)`, the keys compared with `eqv`. -/
def mapContains (eqv : κ → κ → Bool) (m : List (κ × ν)) (k : κ) : Bool :=
  m.any (fun e => eqv e.1 k)

/-- `m.find(k)`: the value stored under `k`, if any. -/
def mapFind (eqv : κ → κ → Bool) (m : List (κ × ν)) (k : κ) : Option ν :=
  (m.find? (fun e => eqv e.1 k)).map Prod.snd

/-- `m.erase(k)`. -/
def mapErase (eqv : κ → κ → Bool) (m : List (κ × ν)) (k : κ) : List (κ × ν) :=
  m.filter (fun e => !(eqv e.1 k))

/-- `f(m[k])` for an `f` that edits the value in place: `operator[]` default
constructs the value (`dflt`) when the key is absent. -/
def mapUpdate (eqv : κ → κ → Bool) (k : κ) (f : ν → ν) (dflt : ν) :
    List (κ × ν) → List (κ × ν)
  | [] => [(k, f dflt)]
  | e :: rest =>
    if eqv e.1 k then (e.1, f e.2) :: rest else e :: mapUpdate eqv k f dflt rest

/-- `m.insert({k, v})`: no effect when the key is present. -/
def mapInsert (eqv : κ → κ → Bool) (m : List (κ × ν)) (k : κ) (v : ν) : List (κ × ν) :=
  if mapContains eqv m k then m else m ++ [(k, v)]

end Maps

/-- Equality of `std::string` keys. -/
def strEq (a b : Str) : Bool := decide (a = b)

/-- `ranges::indexOf`: the index of the first element that satisfies `p`. -/
def indexOf {α : Type} (p : α → Bool) : List α → Option Nat
  | [] => none
  | x :: xs => if p x then some 0 else (indexOf p xs).map (fun i => i + 1)

/-- `v.insert(v.begin() + i, x)`. -/
def insertAt {α : Type} (v : List α) (i : Nat) (x : α) : List α :=
  v.take i ++ x :: v.drop i

/-! ## Persisted values -/

/-- JSON values of the save container (the `json` library of the host). -/
inductive Json where
  | null
  | bool (b : Bool)
  | int (i : Int)
  | str (s : Str)
  | arr (a : List Json)
  | obj (o : List (Str × Json))

/-- `json::Object::operator[]`: a missing key yields a null value. -/
def jsonGet (o : List (Str × Json)) (key : Str) : Json :=
  (mapFind strEq o key).getD Json.null

/-- `Mod::getSavedValue<json::Object>(key)` over the saved values `saved`:
a default-constructed (empty) object when nothing usable is stored. -/
def getSavedValue (saved : Str → Option Json) (key : Str) : List (Str × Json) :=
  match saved key with
  | some (.obj o) => o
  | _ => []

/-! ## The bind manager -/

/-- `BindManager::DevicelessActions`. -/
abbrev DevicelessActions := List (Str × List Str)

/-- The data members of `keybinds::BindManager`. The remaining time of a
repeat entry is a rational number of seconds. -/
structure BindManager where
  m_binds : List (Bind × List Str)
  m_devicelessBinds : List (Str × DevicelessActions)
  m_devices : List (Str × Device)
  m_actions : List (Str × ActionData)
  m_categories : List Category
  m_repeating : List (Str × Rat)

namespace BindManager

/-- `BindManager::stopAllRepeats`. -/
def stopAllRepeats (s : BindManager) : BindManager :=
  { s with m_repeating := [] }

/-- `BindManager::addBindTo`. -/
def addBindTo (s : BindManager) (action : Str) (bind : Bind) : BindManager :=
  let s := s.stopAllRepeats
  { s with m_binds := mapUpdate Bind.isEqual bind (fun l => l ++ [action]) [] s.m_binds }

/-- `BindManager::removeBindFrom`. -/
def removeBindFrom (s : BindManager) (action : Str) (bind : Bind) : BindManager :=
  let s := s.stopAllRepeats
  let binds := mapUpdate Bind.isEqual bind (fun l => l.filter (fun a => !(strEq a action))) [] s.m_binds
  if (mapFind Bind.isEqual binds bind).getD [] = [] then
    { s with m_binds := mapErase Bind.isEqual binds bind }
  else
    { s with m_binds := binds }

/-- `BindManager::removeAllBindsFrom`. -/
def removeAllBindsFrom (s : BindManager) (action : Str) : BindManager :=
  let s := s.stopAllRepeats
  { s with m_binds := s.m_binds.map (fun e => (e.1, e.2.filter (fun a => !(strEq a action)))) }

/-- `BindManager::getBindsFor`. -/
def getBindsFor (s : BindManager) (action : Str) : List Bind :=
  (s.m_binds.filter (fun e => e.2.any (fun a => strEq a action))).map Prod.fst

/-- `BindManager::getBindable`. -/
def getBindable (s : BindManager) (action : Str) : Option BindableAction :=
  (s.m_actions.find? (fun e => strEq e.1 action)).map (fun e => e.2.definition)

/-- `BindManager::getAllBindables`. -/
def getAllBindables (s : BindManager) : List BindableAction :=
  s.m_actions.map (fun e => e.2.definition)

/-- `BindManager::getBindablesIn`. -/
def getBindablesIn (s : BindManager) (category : Category) (sub : Bool) : List BindableAction :=
  (s.m_actions.filter (fun e =>
    if sub then e.2.definition.getCategory.hasParent category
    else decide (e.2.definition.getCategory = category))).map (fun e => e.2.definition)

/-- `BindManager::getBindablesFor`. -/
def getBindablesFor (s : BindManager) (bind : Bind) : List BindableAction :=
  if mapContains Bind.isEqual s.m_binds bind then
    ((mapFind Bind.isEqual s.m_binds bind).getD []).filterMap (fun bindable => s.getBindable bindable)
  else []

/-- `BindManager::getAllCategories`. -/
def getAllCategories (s : BindManager) : List Category := s.m_categories

/-- The scan of `addCategory` for the insertion point: `it` counts the
entries passed, `foundParent` is the flag of the source. -/
def scanInsertPos (category : Category) : List Category → Bool → Nat → Nat
  | [], _, it => it
  | cat :: rest, foundParent, it =>
    if cat.hasParent category then scanInsertPos category rest true (it + 1)
    else if foundParent then it
    else scanInsertPos category rest foundParent (it + 1)

/-- `BindManager::addCategory` with a bound on the depth of the recursion
into the parent categories. -/
def addCategoryAux : Nat → BindManager → Category → BindManager
  | 0, s, _ => s.stopAllRepeats
  | fuel + 1, s, category =>
    let s := s.stopAllRepeats
    if ¬ (category ∈ s.m_categories) then
      let s :=
        match category.getParent with
        | some parent => addCategoryAux fuel s parent
        | none => s
      { s with m_categories :=
          insertAt s.m_categories (scanInsertPos category s.m_categories false 0) category }
    else s

/-- `BindManager::addCategory`: each parent is a strictly shorter path, so
the length of the path bounds the recursion. -/
def addCategory (s : BindManager) (category : Category) : BindManager :=
  addCategoryAux (category.m_value.length + 1) s category

/-- `BindManager::removeBindable`. -/
def removeBindable (s : BindManager) (action : Str) : BindManager :=
  let s := s.stopAllRepeats
  let s := s.removeAllBindsFrom action
  { s with m_actions := s.m_actions.filter (fun act => !(strEq act.1 action)) }

/-- `BindManager::removeCategory`. -/
def removeCategory (s : BindManager) (category : Category) : BindManager :=
  let s := s.stopAllRepeats
  let s := (s.getBindablesIn category true).foldl (fun s bindable => s.removeBindable bindable.getID) s
  { s with m_categories := s.m_categories.filter (fun cat => !(cat.hasParent category)) }

/-- `BindManager::resetBindsToDefault`. -/
def resetBindsToDefault (s : BindManager) (action : Str) : BindManager :=
  let s := s.stopAllRepeats
  let s := s.removeAllBindsFrom action
  match s.getBindable action with
  | some bindable => bindable.getDefaults.foldl (fun s d => s.addBindTo action d) s
  | none => s

/-- `BindManager::hasDefaultBinds`: same length and equal bind by bind. -/
def hasDefaultBinds (s : BindManager) (action : Str) : Bool :=
  match s.getBindable action with
  | some bindable =>
    let binds := s.getBindsFor action
    let defs := bindable.getDefaults
    if binds.length = defs.length then (binds.zip defs).all (fun p => p.1.isEqual p.2)
    else false
  | none => false

/-- `BindManager::setRepeatOptionsFor`. -/
def setRepeatOptionsFor (s : BindManager) (action : Str) (options : RepeatOptions) : BindManager :=
  let s := s.stopAllRepeats
  { s with m_actions :=
      s.m_actions.map (fun e => if strEq e.1 action then (e.1, { e.2 with repeatOptions := options }) else e) }

/-- `m_devicelessBinds[id][action].push_back(data)`. -/
def pushDeviceless (s : BindManager) (id action data : Str) : BindManager :=
  let push : DevicelessActions → DevicelessActions :=
    fun actions => mapUpdate strEq action (fun l => l ++ [data]) [] actions
  { s with m_devicelessBinds := mapUpdate strEq id push [] s.m_devicelessBinds }

/-- `BindManager::detachDevice`. The source walks `m_binds` and each action
list while `removeBindFrom` edits them; the model walks the entries as they
are when the loop starts. The two agree on a manager where no bind of the
device is assigned to an action: there the loop body, `detachLoopBody`, is
never reached and only the device entry is erased. Where the body is reached
the source edits the containers it is walking, and what it does then is not
what the model does. -/
def detachDevice (s : BindManager) (device : Device) : BindManager :=
  let s := s.m_binds.foldl (fun s e =>
    if e.1.getDeviceID = device.getID then
      e.2.foldl (fun s action =>
        (s.pushDeviceless device.getID action (device.saveBind e.1)).removeBindFrom action e.1) s
    else s) s
  { s with m_devices := mapErase strEq s.m_devices device.getID }

/-- `BindManager::attachDevice`. `addBindTo` leaves `m_devicelessBinds`
alone, so the lists are cleared after all pending strings are resolved. -/
def attachDevice (s : BindManager) (device : Device) : BindManager :=
  let s := s.detachDevice device
  let s := { s with m_devices := mapInsert strEq s.m_devices device.getID device }
  let s := s.m_devicelessBinds.foldl (fun s e =>
    if e.1 ≠ device.getID then s
    else e.2.foldl (fun s ab =>
      ab.2.foldl (fun s data =>
        match device.loadBind data with
        | some nbind => s.addBindTo ab.1 nbind
        | none => s) s) s) s
  { s with m_devicelessBinds :=
      s.m_devicelessBinds.map (fun e =>
        if e.1 ≠ device.getID then e else (e.1, e.2.map (fun ab => (ab.1, []))) ) }

/-- `BindManager::parseBindSave`: split at the first `':'`. -/
def parseBindSave (str : Str) : Str × Str :=
  if str.contains ':' then (str.takeWhile (fun c => c ≠ ':'), (str.dropWhile (fun c => c ≠ ':')).drop 1)
  else ([], [])

/-- `BindManager::loadBindFromSaveString`. -/
def loadBindFromSaveString (s : BindManager) (data : Str) : Option Bind :=
  let p := parseBindSave data
  match mapFind strEq s.m_devices p.1 with
  | none => none
  | some device => device.loadBind p.2

/-- The loop of `loadActionBinds` over the `"binds"` array. `false` is an
exception thrown by `as_string`; the state is the one reached by then. -/
def loadBindEntries (s : BindManager) (action : Str) : List Json → Bool × BindManager
  | [] => (true, s)
  | .str data :: rest =>
    match s.loadBindFromSaveString data with
    | some b => loadBindEntries (s.addBindTo action b) action rest
    | none =>
      let p := parseBindSave data
      if p.1.length ≠ 0 then loadBindEntries (s.pushDeviceless p.1 action p.2) action rest
      else loadBindEntries s action rest
  | _ :: _ => (false, s)

/-- `size_t` from the `int` of `as_int`. -/
def intToSize (i : Int) : Nat := (i % 18446744073709551616).toNat

/-- `BindManager::loadActionBinds` over the saved values `saved`: every
`as_...` accessor throws on a value of another type and the handler returns
`false`. -/
def loadActionBinds (saved : Str → Option Json) (s : BindManager) (action : Str) :
    Bool × BindManager :=
  let value := getSavedValue saved action
  match jsonGet value "binds".toList with
  | .arr binds =>
    match loadBindEntries s action binds with
    | (false, s) => (false, s)
    | (true, s) =>
      if mapContains strEq value "repeat".toList then
        match jsonGet value "repeat".toList with
        | .obj rep =>
          match jsonGet rep "enabled".toList, jsonGet rep "rate".toList, jsonGet rep "delay".toList with
          | .bool enabled, .int rate, .int delay =>
            (true, s.setRepeatOptionsFor action
              { enabled := enabled, rate := intToSize rate, delay := intToSize delay })
          | _, _, _ => (false, s)
        | _ => (false, s)
      else (true, s)
  | _ => (false, s)

/-- `BindManager::registerBindable`. -/
def registerBindable (saved : Str → Option Json) (s : BindManager) (action : BindableAction)
    (after : Str) : Bool × BindManager :=
  let s := s.stopAllRepeats
  if s.m_actions.any (fun act => strEq act.1 action.getID) then (false, s)
  else
    let entry : Str × ActionData := (action.getID, { definition := action, repeatOptions := {} })
    let s :=
      match indexOf (fun a => strEq a.1 after) s.m_actions with
      | some ix => { s with m_actions := insertAt s.m_actions (ix + 1) entry }
      | none => { s with m_actions := s.m_actions ++ [entry] }
    let s := s.addCategory action.getCategory
    match loadActionBinds saved s action.getID with
    | (false, s) => (true, action.getDefaults.foldl (fun s d => s.addBindTo action.getID d) s)
    | (true, s) => (true, s)

/-- The manager before its constructor body runs: all members empty. -/
def empty : BindManager where
  m_binds := []
  m_devicelessBinds := []
  m_devices := []
  m_actions := []
  m_categories := []
  m_repeating := []

/-- `BindManager::BindManager()`. -/
def new (kc : KeyCodes) : BindManager :=
  (((empty.addCategory Category.GLOBAL).addCategory Category.PLAY).addCategory Category.EDITOR).attachDevice
    (KeyboardDevice kc)

end BindManager

/-! ## Save strings and saving -/

/-- `BindManager::getBindSaveString`. -/
def BindManager.getBindSaveString (s : BindManager) (bind : Bind) : Str :=
  let dev := bind.getDeviceID
  if mapContains strEq s.m_devices dev then
    match mapFind strEq s.m_devices dev with
    | some device => dev ++ ":".toList ++ device.saveBind bind
    | none => []
  else []

/-- `BindManager::getRepeatOptionsFor`: the options of the first entry of
`m_actions` that has the id and is repeatable. -/
def BindManager.getRepeatOptionsFor (s : BindManager) (action : Str) : Option RepeatOptions :=
  (s.m_actions.find? (fun e => strEq e.1 action && e.2.definition.isRepeatable)).map
    (fun e => e.2.repeatOptions)

/-- The strings `device + ":" + bind` that `saveActionBinds` collects from
`m_devicelessBinds` for an action. -/
def BindManager.devicelessSaveStrings (s : BindManager) (action : Str) : List Str :=
  s.m_devicelessBinds.flatMap (fun e =>
    if mapContains strEq e.2 action then
      ((mapFind strEq e.2 action).getD []).map (fun bind => e.1 ++ ":".toList ++ bind)
    else [])

/-- The local `obj` that `BindManager::saveActionBinds` builds: the
`"binds"` array, and the `"repeat"` object when the action has repeat options. -/
def BindManager.saveObject (s : BindManager) (action : Str) : List (Str × Json) :=
  let binds : List Json :=
    ((s.getBindsFor action).map (fun bind => Json.str (s.getBindSaveString bind))) ++
      (s.devicelessSaveStrings action).map Json.str
  let obj : List (Str × Json) := [("binds".toList, Json.arr binds)]
  match s.getRepeatOptionsFor action with
  | some opts =>
    obj ++ [("repeat".toList, Json.obj
      [("enabled".toList, Json.bool opts.enabled), ("rate".toList, Json.int opts.rate),
        ("delay".toList, Json.int opts.delay)])]
  | none => obj

/-- `BindManager::saveActionBinds` over the saved values `saved`. The source
builds `obj` and returns: it has no call that puts `obj` into the save
container, so the saved values are the ones before the call. -/
def BindManager.saveActionBinds (saved : Str → Option Json) (s : BindManager) (action : Str) :
    Str → Option Json :=
  let _obj := s.saveObject action
  saved

/-- `BindManager::save`. -/
def BindManager.save (saved : Str → Option Json) (s : BindManager) : Str → Option Json :=
  s.getAllBindables.foldl (fun saved bindable => s.saveActionBinds saved bindable.getID) saved

/-- The body of the inner loop of `BindManager::detachDevice`, for one
action of the action list of `bind`. -/
def BindManager.detachLoopBody (s : BindManager) (device : Device) (bind : Bind) (action : Str) :
    BindManager :=
  (s.pushDeviceless device.getID action (device.saveBind bind)).removeBindFrom action bind

/-- The strings of `m_devicelessBinds[id][action]`, over all entries stored
under these keys. -/
def BindManager.pendingFor (s : BindManager) (id action : Str) : List Str :=
  ((s.m_devicelessBinds.filter (fun e => strEq e.1 id)).flatMap (fun e =>
    (e.2.filter (fun ab => strEq ab.1 action)).flatMap (fun ab => ab.2)))

/-! ## Dispatch and repeat -/

/-- `geode::ListenerResult`. -/
inductive ListenerResult where
  | Propagate
  | Stop
  deriving DecidableEq, Repr

/-- `keybinds::InvokeBindEvent`. -/
structure InvokeBindEvent where
  m_id : Str
  m_down : Bool
  deriving DecidableEq, Repr

/-- `keybinds::PressBindEvent`. -/
structure PressBindEvent where
  m_bind : Bind
  m_down : Bool
  deriving DecidableEq, Repr

/-- `PressBindEvent::getBind`. -/
def PressBindEvent.getBind (e : PressBindEvent) : Bind := e.m_bind

/-- `PressBindEvent::isDown`. -/
def PressBindEvent.isDown (e : PressBindEvent) : Bool := e.m_down

/-- `BindManager::unrepeat`. -/
def BindManager.unrepeat (s : BindManager) (action : Str) : BindManager :=
  { s with m_repeating := s.m_repeating.filter (fun p => !(strEq p.1 action)) }

/-- `BindManager::repeat`: the remaining time of the new entry is
`delay / 1000.f` seconds, taken as the exact rational `delay / 1000`. -/
def BindManager.repeat (s : BindManager) (action : Str) : BindManager :=
  match s.getRepeatOptionsFor action with
  | some options =>
    if options.enabled then
      { s with m_repeating := s.m_repeating ++ [(action, (options.delay : Rat) / 1000)] }
    else s
  | none => s

/-- The entry that `BindManager::repeat` puts at the end of `m_repeating` for
an action, if it puts one there. -/
def BindManager.repeatEntry (s : BindManager) (action : Str) : Option (Str × Rat) :=
  match s.getRepeatOptionsFor action with
  | some options => if options.enabled then some (action, (options.delay : Rat) / 1000) else none
  | none => none

/-- The loop of `BindManager::onDispatch` over the action list of the bind.
`post` is what `InvokeBindEvent(...).post()` returns, i.e. the answer of the
subscribers of the event; the events posted are collected in order. -/
def BindManager.dispatchLoop (post : InvokeBindEvent → ListenerResult) (down : Bool) :
    BindManager → List Str → ListenerResult × BindManager × List InvokeBindEvent
  | s, [] => (ListenerResult.Propagate, s, [])
  | s, action :: rest =>
    let s1 := if down then s.repeat action else s.unrepeat action
    if post ⟨action, down⟩ = ListenerResult.Stop then
      (ListenerResult.Stop, s1, [⟨action, down⟩])
    else
      let r := BindManager.dispatchLoop post down s1 rest
      (r.1, r.2.1, ⟨action, down⟩ :: r.2.2)

/-- `BindManager::onDispatch`: the result, the manager afterwards and the
invoke events posted. -/
def BindManager.onDispatch (post : InvokeBindEvent → ListenerResult) (s : BindManager)
    (event : PressBindEvent) : ListenerResult × BindManager × List InvokeBindEvent :=
  if mapContains Bind.isEqual s.m_binds event.getBind then
    BindManager.dispatchLoop post event.isDown s
      ((mapFind Bind.isEqual s.m_binds event.getBind).getD [])
  else (ListenerResult.Propagate, s, [])

/-- One pass of the loop of `BindManager::onRepeat` over the entry `p`: the
entry afterwards and the invoke event posted, if any. The `float` operations
`last -= dt`, `last < 0.f` and `last += rate / 1000.f` are taken in exact
rational arithmetic, without the rounding of `float`. -/
def BindManager.tickEntry (s : BindManager) (dt : Rat) (p : Str × Rat) :
    (Str × Rat) × Option InvokeBindEvent :=
  match s.getRepeatOptionsFor p.1 with
  | some options =>
    let last := p.2 - dt
    if last < 0 then ((p.1, last + (options.rate : Rat) / 1000), some ⟨p.1, true⟩)
    else ((p.1, last), none)
  | none => (p, none)

/-- `BindManager::onRepeat`: the manager afterwards and the invoke events
posted, in the order of `m_repeating`. -/
def BindManager.onRepeat (s : BindManager) (dt : Rat) : BindManager × List InvokeBindEvent :=
  ({ s with m_repeating := s.m_repeating.map (fun p => (s.tickEntry dt p).1) },
    s.m_repeating.filterMap (fun p => (s.tickEntry dt p).2))

/-- The handling of one persisted bind string for the action `action`, as
the specification words it: if `loadBindFromSaveString` yields a bind, the
bind is added to the action; otherwise, if the string has a non-empty device
id before its first `':'`, the payload after the `':'` is appended to
`devicelessBinds[id][action]`; otherwise the string is dropped. -/
def BindManager.handleSavedBind (s : BindManager) (action data : Str) : BindManager :=
  match s.loadBindFromSaveString data with
  | some b => s.addBindTo action b
  | none =>
    if (BindManager.parseBindSave data).1 ≠ [] then
      s.pushDeviceless (BindManager.parseBindSave data).1 action (BindManager.parseBindSave data).2
    else s

/-- The strings at the front of a JSON array, up to its first entry that is
not a string. -/
def leadingStrings : List Json → List Str
  | Json.str data :: rest => data :: leadingStrings rest
  | _ => []

/-- Every entry of the JSON array is a string. -/
def allStrings : List Json → Bool
  | [] => true
  | Json.str _ :: rest => allStrings rest
  | _ :: _ => false

/-- The `"binds"` array of the record saved under `action`; empty when the
record has no such array. -/
def savedBindEntries (saved : Str → Option Json) (action : Str) : List Json :=
  match jsonGet (getSavedValue saved action) "binds".toList with
  | Json.arr binds => binds
  | _ => []

/-! ## Hashes -/

/-- `Modifier::Control`. -/
def Modifier.Control : Nat := 1

/-- `Modifier::Shift`. -/
def Modifier.Shift : Nat := 2

/-- `Modifier::Alt`. -/
def Modifier.Alt : Nat := 4

/-- `Modifier::Command`. -/
def Modifier.Command : Nat := 8

/-- The 32 bits of an `int`. -/
def intBits (i : Int) : Nat := (i % 4294967296).toNat

/-- The `int` that has the given 32 bits. -/
def bitsToInt (n : Nat) : Int :=
  if n % 4294967296 < 2147483648 then (n % 4294967296 : Nat) else (n % 4294967296 : Nat) - 4294967296

/-- The 32 bits of `m_key | (static_cast<int>(m_modifiers) << 29)`, the shift
wrapping around in 32 bits. -/
def Keybind.hashBits (b : Keybind) : Nat :=
  intBits b.m_key ||| ((intBits (modifierToInt b.m_modifiers) * 536870912) % 4294967296)

/-- `Keybind::getHash`: the `int` of the expression, converted to `size_t`. -/
def Keybind.getHash (b : Keybind) : Nat := BindManager.intToSize (bitsToInt b.hashBits)

/-- `ControllerBind::getHash`. -/
def ControllerBind.getHash (b : ControllerBind) : Nat := BindManager.intToSize b.m_button

/-- `Bind::getHash` as overridden by `Keybind` and `ControllerBind`. -/
def Bind.getHash : Bind → Nat
  | Bind.keybind k => k.getHash
  | Bind.controller c => c.getHash

/-- `std::hash<keybinds::BindHash>::operator()`; `strHash` is
`std::hash<std::string>`, which the C++ library defines, and a `BindHash` with
a null bind is `none`. -/
def hashBindHash (strHash : Str → Nat) : Option Bind → Nat
  | some bind => bind.getHash ||| strHash bind.getDeviceID
  | none => 0

/-! ## Invariants of the data model -/

namespace BindManager

/-- The keys of `m_binds` are pairwise different binds, as in every
`std::unordered_map`. -/
def bindsDistinct (s : BindManager) : Prop := (s.m_binds.map Prod.fst).Nodup

instance (s : BindManager) : Decidable s.bindsDistinct :=
  inferInstanceAs (Decidable ((s.m_binds.map Prod.fst).Nodup))

/-- Every entry of `m_actions` is stored under the id of its definition, as
`registerBindable` stores it. -/
def actionsKeyed (s : BindManager) : Prop :=
  ∀ e ∈ s.m_actions, e.1 = e.2.definition.getID

instance (s : BindManager) : Decidable s.actionsKeyed :=
  inferInstanceAs (Decidable (∀ e ∈ s.m_actions, e.1 = e.2.definition.getID))

end BindManager

/-- No two entries of `m_actions` have the same id: `registerBindable`
refuses an id that is registered. -/
def BindManager.actionsDistinct (s : BindManager) : Prop := (s.m_actions.map Prod.fst).Nodup

instance (s : BindManager) : Decidable s.actionsDistinct :=
  inferInstanceAs (Decidable ((s.m_actions.map Prod.fst).Nodup))

/-! ## Sample data for concrete evaluations -/

/-- An action of category `Global` with the given id and default binds. -/
def sampleAction (id : Str) (defaults : List Bind) : BindableAction where
  m_id := id
  m_name := []
  m_description := []
  m_defaults := defaults
  m_category := Category.GLOBAL
  m_repeatable := true

/-- An action with the given id and category and no default binds. -/
def sampleActionIn (id : Str) (category : Category) : BindableAction where
  m_id := id
  m_name := []
  m_description := []
  m_defaults := []
  m_category := category
  m_repeatable := true

/-- A save container that holds nothing. -/
def nothingSaved : Str → Option Json := fun _ => none

/-- The chord `A`. -/
def bindA : Bind := Bind.keybind ⟨65, 0⟩

/-- The chord `Ctrl+B`. -/
def bindCtrlB : Bind := Bind.keybind ⟨66, 1⟩

/-- A fresh manager on which the actions with ids `""` and `"b"` are
registered, in this order. -/
def managerWithEmptyId : BindManager :=
  (((BindManager.new sampleKeyCodes).registerBindable nothingSaved (sampleAction [] []) []).2
    |>.registerBindable nothingSaved (sampleAction "b".toList []) []).2

/-- A fresh manager on which the chord `A` is assigned to the id `jump`
before any action of that id is registered. -/
def managerWithEarlyBind : BindManager :=
  (BindManager.new sampleKeyCodes).addBindTo "jump".toList bindA

/-- A fresh manager on which the action `jump` is registered with the
default list `[A, A]`. -/
def managerWithRepeatedDefault : BindManager :=
  ((BindManager.new sampleKeyCodes).registerBindable nothingSaved
    (sampleAction "jump".toList [bindA, bindA]) []).2

/-- A fresh manager with the action `place` in `Editor/Move` bound to the
chord `A` and the action `jump` in `Play` bound to `Ctrl+B`. -/
def managerWithEditorAction : BindManager :=
  ((((BindManager.new sampleKeyCodes).registerBindable nothingSaved
      (sampleActionIn "place".toList ⟨"Editor/Move".toList⟩) []).2.addBindTo "place".toList bindA
    ).registerBindable nothingSaved (sampleActionIn "jump".toList Category.PLAY) []).2.addBindTo
      "jump".toList bindCtrlB

/-- A fresh manager on which the chord `A` is assigned to `jump` and then
to `run`. -/
def managerWithSharedBind : BindManager :=
  ((BindManager.new sampleKeyCodes).addBindTo "jump".toList bindA).addBindTo "run".toList bindA

/-- A save container with a record for `jump` whose `"binds"` list holds a
keyboard string, a controller string and a string without a device id. -/
def savedThreeStrings : Str → Option Json := fun key =>
  if key = "jump".toList then
    some (Json.obj [("binds".toList, Json.arr [Json.str "keyboard:0|65".toList,
      Json.str "controller:1001".toList, Json.str "junk".toList])])
  else none

/-- A save container with a record for `jump` whose `"binds"` list holds a
valid keyboard string followed by a number. -/
def savedStringThenNumber : Str → Option Json := fun key =>
  if key = "jump".toList then
    some (Json.obj [("binds".toList, Json.arr [Json.str "keyboard:0|65".toList, Json.int 5])])
  else none

/-- A fresh manager on which `jump` and then `run` are registered, and the
chord `A` is assigned first to `run` and then to `jump`. -/
def managerAssignedInReverse : BindManager :=
  ((((BindManager.new sampleKeyCodes).registerBindable nothingSaved
      (sampleAction "jump".toList []) []).2.registerBindable nothingSaved
      (sampleAction "run".toList []) []).2.addBindTo "run".toList bindA).addBindTo
    "jump".toList bindA

/-- A fresh manager with the repeatable action `hold` (repeat enabled, rate
300 ms, delay 500 ms) bound to the chord `A`. -/
def managerHolding : BindManager :=
  ((BindManager.new sampleKeyCodes).registerBindable nothingSaved
    (sampleAction "hold".toList []) []).2.addBindTo "hold".toList bindA

/-- Subscribers that never stop the propagation. -/
def noSubscriberStops : InvokeBindEvent → ListenerResult := fun _ => ListenerResult.Propagate

/-- `managerHolding` after a key-down of the chord `A`. -/
def managerHoldingDown : BindManager :=
  (managerHolding.onDispatch noSubscriberStops ⟨bindA, true⟩).2.1

/-- A fresh manager, with the keyboard device attached, on which the chord
`Ctrl+B` of the keyboard is assigned to `jump`. -/
def managerWithLiveBind : BindManager :=
  (BindManager.new sampleKeyCodes).addBindTo "jump".toList bindCtrlB

/-- A fresh manager with the category `Editor2` added, the action `place`
registered in `Editor2` and bound to the chord `A`. -/
def managerWithEditor2 : BindManager :=
  ((BindManager.new sampleKeyCodes).registerBindable nothingSaved
    (sampleActionIn "place".toList ⟨"Editor2".toList⟩) []).2.addBindTo "place".toList bindA

/-! # Theorems -/

/-! ## Formatted integers -/

theorem digitChar_props (d : Nat) (h : d < 10) :
    isDigit (digitChar d) = true ∧ (digitChar d).toNat - 48 = d ∧
      isSpace (digitChar d) = false ∧ readSign (digitChar d :: []) = (false, [digitChar d]) ∧
      digitChar d ≠ '-' ∧ digitChar d ≠ '+' := by
  interval_cases d <;> decide

theorem digitsVal_append (ds : Str) (c : Char) :
    digitsVal (ds ++ [c]) = 10 * digitsVal ds + (c.toNat - 48) := by
  simp [digitsVal, List.foldl_append]

theorem natDigits_digits (fuel n : Nat) (h : n < fuel) :
    ∀ c ∈ natDigits fuel n, isDigit c = true := by
  induction fuel generalizing n with
  | zero => omega
  | succ fuel ih =>
    intro c hc
    unfold natDigits at hc
    split at hc
    · rename_i h10
      simp only [List.mem_singleton] at hc
      subst hc
      exact (digitChar_props n h10).1
    · simp only [List.mem_append, List.mem_singleton] at hc
      rcases hc with hc | hc
      · exact ih (n / 10) (by omega) c hc
      · subst hc
        exact (digitChar_props (n % 10) (Nat.mod_lt _ (by decide))).1

theorem natDigits_val (fuel n : Nat) (h : n < fuel) : digitsVal (natDigits fuel n) = n := by
  induction fuel generalizing n with
  | zero => omega
  | succ fuel ih =>
    unfold natDigits
    split
    · rename_i h10
      have := (digitChar_props n h10).2.1
      simpa [digitsVal] using this
    · rw [digitsVal_append, ih (n / 10) (by omega),
        (digitChar_props (n % 10) (Nat.mod_lt _ (by decide))).2.1]
      omega

theorem natDigits_head (fuel n : Nat) (h : n < fuel) :
    ∃ d rest, d < 10 ∧ natDigits fuel n = digitChar d :: rest := by
  induction fuel generalizing n with
  | zero => omega
  | succ fuel ih =>
    unfold natDigits
    split
    · rename_i h10
      exact ⟨n, [], h10, rfl⟩
    · obtain ⟨d, rest, hd, hr⟩ := ih (n / 10) (by omega)
      exact ⟨d, rest ++ [digitChar (n % 10)], hd, by rw [hr]; rfl⟩

theorem takeWhile_digits_append (ds rest : Str) (hds : ∀ c ∈ ds, isDigit c = true)
    (hrest : ∀ c r, rest = c :: r → isDigit c = false) :
    (ds ++ rest).takeWhile isDigit = ds ∧ (ds ++ rest).dropWhile isDigit = rest := by
  induction ds with
  | nil =>
    cases rest with
    | nil => simp
    | cons c r => simp [List.takeWhile, List.dropWhile, hrest c r rfl]
  | cons d ds ih =>
    have hd : isDigit d = true := hds d (List.mem_cons_self _ _)
    have ih2 := ih (fun c hc => hds c (List.mem_cons_of_mem _ hc))
    simp [List.takeWhile, List.dropWhile, hd, ih2.1, ih2.2]

theorem readInt_natToStr (n : Nat) (rest : Str) (hn : (n : Int) ≤ 2147483647)
    (hrest : ∀ c r, rest = c :: r → isDigit c = false) :
    readInt (natToStr n ++ rest) = some ((n : Int), rest) := by
  obtain ⟨d, tl, hd, htl⟩ := natDigits_head (n + 1) n (Nat.lt_succ_self n)
  have hdig := natDigits_digits (n + 1) n (Nat.lt_succ_self n)
  have hval := natDigits_val (n + 1) n (Nat.lt_succ_self n)
  have hp := digitChar_props d hd
  have hsign : readSign (natToStr n ++ rest) = (false, natToStr n ++ rest) := by
    unfold natToStr
    rw [htl]
    have h1 := hp.2.2.2.2.1
    have h2 := hp.2.2.2.2.2
    simp only [List.cons_append]
    unfold readSign
    split
    · rename_i heq
      simp only [List.cons.injEq] at heq
      exact absurd heq.1 h1
    · rename_i heq
      simp only [List.cons.injEq] at heq
      exact absurd heq.1 h2
    · rfl
  have hspace : (natToStr n ++ rest).dropWhile isSpace = natToStr n ++ rest := by
    unfold natToStr
    rw [htl]
    simp [List.dropWhile, hp.2.2.1]
  have htd := takeWhile_digits_append (natToStr n) rest hdig hrest
  have hne : natToStr n ≠ [] := by
    unfold natToStr
    rw [htl]
    exact List.cons_ne_nil _ _
  unfold readInt
  simp only [hspace, hsign, htd.1, htd.2, hne, if_false]
  have hv : digitsVal (natToStr n) = n := hval
  rw [hv]
  simp only [Bool.false_eq_true, if_false]
  rw [if_neg]
  omega

theorem readInt_to_string (v : Int) (rest : Str) (hv : isInt32 v)
    (hrest : ∀ c r, rest = c :: r → isDigit c = false) :
    readInt (to_string v ++ rest) = some (v, rest) := by
  unfold isInt32 at hv
  by_cases hneg : v < 0
  · have hts : to_string v = '-' :: natToStr v.natAbs := by simp [to_string, hneg]
    have hdig := natDigits_digits (v.natAbs + 1) v.natAbs (Nat.lt_succ_self _)
    have hval : digitsVal (natToStr v.natAbs) = v.natAbs :=
      natDigits_val (v.natAbs + 1) v.natAbs (Nat.lt_succ_self _)
    obtain ⟨d, tl, hd, htl⟩ := natDigits_head (v.natAbs + 1) v.natAbs (Nat.lt_succ_self _)
    have hne : natToStr v.natAbs ≠ [] := by
      unfold natToStr
      rw [htl]
      exact List.cons_ne_nil _ _
    have htd := takeWhile_digits_append (natToStr v.natAbs) rest hdig hrest
    have hspace : ('-' :: (natToStr v.natAbs ++ rest)).dropWhile isSpace
        = '-' :: (natToStr v.natAbs ++ rest) := by
      simp [List.dropWhile, isSpace]
    unfold readInt
    rw [hts]
    simp only [List.cons_append, hspace, readSign, htd.1, htd.2, hne, if_false, hval, if_true]
    rw [if_neg]
    · congr 2
      omega
    · omega
  · have hts : to_string v = natToStr v.natAbs := by simp [to_string, hneg]
    rw [hts]
    have h := readInt_natToStr v.natAbs rest (by omega) hrest
    rw [h]
    congr 2
    omega

theorem int_modifier_roundtrip (m : Nat) (h : m < 4294967296) :
    intToModifier (modifierToInt m) = m ∧ isInt32 (modifierToInt m) := by
  unfold intToModifier modifierToInt isInt32
  rw [Nat.mod_eq_of_lt h]
  split <;> constructor <;> omega

/-! ## Binds and devices -/

theorem Bind.isEqual_iff (a b : Bind) : a.isEqual b = true ↔ a = b := by
  cases a with
  | keybind x =>
    cases b with
    | keybind y =>
      cases x; cases y
      simp [Bind.isEqual]
    | controller y => simp [Bind.isEqual]
  | controller x =>
    cases b with
    | keybind y => simp [Bind.isEqual]
    | controller y =>
      cases x; cases y
      simp [Bind.isEqual]

/-- C1: every keyboard bind made by `Keybind::create` is reconstructed by
`KeyboardDevice::loadBind` from what `KeyboardDevice::saveBind` wrote for it,
as a bind that is equal to it (`isEqual`, and the same key and modifiers),
and the same holds for controller binds made by `ControllerBind::create`
and the controller device. -/
theorem C1_loadBind_saveBind_roundtrip (kc : KeyCodes) :
    (∀ (key : Int) (modifiers : Nat) (b : Keybind),
        isInt32 key → modifiers < 4294967296 → Keybind.create kc key modifiers = some b →
        ∃ r, (KeyboardDevice kc).loadBind ((KeyboardDevice kc).saveBind (Bind.keybind b)) = some r ∧
          r.isEqual (Bind.keybind b) = true ∧ r = Bind.keybind b) ∧
    (∀ (button : Int) (b : ControllerBind),
        isInt32 button → ControllerBind.create kc button = some b →
        ∃ r, (ControllerDevice kc).loadBind ((ControllerDevice kc).saveBind (Bind.controller b))
            = some r ∧
          r.isEqual (Bind.controller b) = true ∧ r = Bind.controller b) := by
  constructor
  · intro key modifiers b hkey hmod hcreate
    refine ⟨Bind.keybind b, ?_, (Bind.isEqual_iff _ _).2 rfl, rfl⟩
    have hb : b = { m_key := key, m_modifiers := modifiers } := by
      unfold Keybind.create at hcreate
      split at hcreate
      · exact absurd hcreate (by simp)
      · exact (Option.some.inj hcreate).symm
    have hm := int_modifier_roundtrip modifiers hmod
    have h1 : readInt (to_string (modifierToInt modifiers) ++ ('|' :: to_string key))
        = some (modifierToInt modifiers, '|' :: to_string key) :=
      readInt_to_string _ _ hm.2 (by
        intro c r hcr
        simp only [List.cons.injEq] at hcr
        rw [← hcr.1]
        decide)
    have h2 : readInt (to_string key) = some (key, []) := by
      have := readInt_to_string key [] hkey (by intro c r hcr; exact absurd hcr (by simp))
      simpa using this
    subst hb
    show KeyboardDevice.loadBind kc (KeyboardDevice.saveBind (Bind.keybind _)) = _
    simp only [KeyboardDevice.saveBind, Keybind.getModifiers, Keybind.getKey, String.toList,
      List.append_assoc, List.singleton_append, KeyboardDevice.loadBind, h1, h2, hm.1, hcreate,
      Option.map_some']
  · intro button b hbutton hcreate
    refine ⟨Bind.controller b, ?_, (Bind.isEqual_iff _ _).2 rfl, rfl⟩
    have hb : b = { m_button := button } := by
      unfold ControllerBind.create at hcreate
      split at hcreate
      · exact absurd hcreate (by simp)
      · exact (Option.some.inj hcreate).symm
    have h2 : readInt (to_string button) = some (button, []) := by
      have := readInt_to_string button [] hbutton (by intro c r hcr; exact absurd hcr (by simp))
      simpa using this
    subst hb
    show ControllerDevice.loadBind kc (ControllerDevice.saveBind (Bind.controller _)) = _
    simp only [ControllerDevice.saveBind, ControllerBind.getButton, ControllerDevice.loadBind, h2,
      hcreate, Option.map_some']

/-- Witness of C1: the chord Ctrl+Shift+A and the controller button 1001. -/
theorem C1_loadBind_saveBind_roundtrip_witness :
    (Keybind.create sampleKeyCodes 65 3 = some ⟨65, 3⟩ ∧
      ∃ r, (KeyboardDevice sampleKeyCodes).loadBind
          ((KeyboardDevice sampleKeyCodes).saveBind (Bind.keybind ⟨65, 3⟩)) = some r ∧
        r.isEqual (Bind.keybind ⟨65, 3⟩) = true ∧ r = Bind.keybind ⟨65, 3⟩) ∧
    (ControllerBind.create sampleKeyCodes 1001 = some ⟨1001⟩ ∧
      ∃ r, (ControllerDevice sampleKeyCodes).loadBind
          ((ControllerDevice sampleKeyCodes).saveBind (Bind.controller ⟨1001⟩)) = some r ∧
        r.isEqual (Bind.controller ⟨1001⟩) = true ∧ r = Bind.controller ⟨1001⟩) :=
  ⟨⟨by decide, (C1_loadBind_saveBind_roundtrip sampleKeyCodes).1 65 3 ⟨65, 3⟩
      (by decide) (by decide) (by decide)⟩,
   ⟨by decide, (C1_loadBind_saveBind_roundtrip sampleKeyCodes).2 1001 ⟨1001⟩
      (by decide) (by decide)⟩⟩

/-- C2: `Keybind::create` gives no bind exactly for `KEY_None`, `KEY_Unknown`
and the controller button codes, and otherwise a bind with the given key and
modifiers; `ControllerBind::create` gives no bind exactly for a code outside
`CONTROLLER_A..CONTROLLER_Right`, and otherwise a bind with that button. -/
theorem C2_create_absent_iff (kc : KeyCodes) (key : Int) (modifiers : Nat) (button : Int) :
    (Keybind.create kc key modifiers = none ↔
      (key = kc.KEY_None ∨ key = kc.KEY_Unknown ∨
        (kc.CONTROLLER_A ≤ key ∧ key ≤ kc.CONTROLLER_Right))) ∧
    (¬ (key = kc.KEY_None ∨ key = kc.KEY_Unknown ∨
        (kc.CONTROLLER_A ≤ key ∧ key ≤ kc.CONTROLLER_Right)) →
      ∃ b, Keybind.create kc key modifiers = some b ∧ b.getKey = key ∧
        b.getModifiers = modifiers) ∧
    (ControllerBind.create kc button = none ↔
      ¬ (kc.CONTROLLER_A ≤ button ∧ button ≤ kc.CONTROLLER_Right)) ∧
    ((kc.CONTROLLER_A ≤ button ∧ button ≤ kc.CONTROLLER_Right) →
      ∃ b, ControllerBind.create kc button = some b ∧ b.getButton = button) := by
  have hk : ∀ k : Int, keyIsController kc k = true ↔
      (kc.CONTROLLER_A ≤ k ∧ k ≤ kc.CONTROLLER_Right) := by
    intro k
    simp [keyIsController]
  refine ⟨?_, ?_, ?_, ?_⟩
  · unfold Keybind.create
    split
    · rename_i h
      rw [hk] at h
      simp [h]
    · rename_i h
      rw [hk] at h
      simp [h]
  · intro h
    refine ⟨⟨key, modifiers⟩, ?_, rfl, rfl⟩
    unfold Keybind.create
    rw [if_neg]
    rw [hk]
    exact h
  · unfold ControllerBind.create
    split
    · rename_i h
      rw [hk] at h
      simp [h]
    · rename_i h
      rw [hk, not_not] at h
      simp [h]
  · intro h
    refine ⟨⟨button⟩, ?_, rfl⟩
    unfold ControllerBind.create
    rw [if_neg]
    rw [hk, not_not]
    exact h

/-- Witness of C2: the key 65 is accepted as a keyboard key and the code
1001 as a controller button. -/
theorem C2_create_absent_iff_witness :
    (∃ b, Keybind.create sampleKeyCodes 65 3 = some b ∧ b.getKey = 65 ∧ b.getModifiers = 3) ∧
    (∃ b, ControllerBind.create sampleKeyCodes 1001 = some b ∧ b.getButton = 1001) :=
  ⟨(C2_create_absent_iff sampleKeyCodes 65 3 1001).2.1 (by decide),
   (C2_create_absent_iff sampleKeyCodes 65 3 1001).2.2.2 (by decide)⟩

/-! ## Association lists -/

theorem mapFind_mapUpdate_self {κ ν : Type} (eqv : κ → κ → Bool)
    (heq : ∀ a b, eqv a b = true ↔ a = b) (k : κ) (f : ν → ν) (d : ν) (m : List (κ × ν)) :
    mapFind eqv (mapUpdate eqv k f d m) k = some (f ((mapFind eqv m k).getD d)) := by
  induction m with
  | nil => simp [mapUpdate, mapFind, List.find?, (heq k k).2 rfl]
  | cons e rest ih =>
    by_cases h : eqv e.1 k = true
    · simp [mapUpdate, mapFind, List.find?, h]
    · simp only [Bool.not_eq_true] at h
      simp only [mapFind] at ih
      simp [mapUpdate, mapFind, List.find?, h, ih]

theorem mapUpdate_keys {κ ν : Type} [DecidableEq κ] (eqv : κ → κ → Bool)
    (heq : ∀ a b, eqv a b = true ↔ a = b) (k : κ) (f : ν → ν) (d : ν) (m : List (κ × ν)) :
    (mapUpdate eqv k f d m).map Prod.fst =
      if k ∈ m.map Prod.fst then m.map Prod.fst else m.map Prod.fst ++ [k] := by
  induction m with
  | nil => simp [mapUpdate]
  | cons e rest ih =>
    by_cases h : eqv e.1 k = true
    · have hk : e.1 = k := (heq _ _).1 h
      simp only [mapUpdate]
      rw [if_pos h]
      simp [hk]
    · have hk : ¬ e.1 = k := fun hc => h ((heq _ _).2 hc)
      have hk2 : ¬ k = e.1 := fun hc => hk hc.symm
      simp only [Bool.not_eq_true] at h
      simp only [mapUpdate, h, Bool.false_eq_true, if_false, List.map_cons, ih, List.mem_cons, hk2,
        false_or]
      split <;> simp

theorem mapUpdate_keys_nodup {κ ν : Type} [DecidableEq κ] (eqv : κ → κ → Bool)
    (heq : ∀ a b, eqv a b = true ↔ a = b) (k : κ) (f : ν → ν) (d : ν) (m : List (κ × ν))
    (hm : (m.map Prod.fst).Nodup) : ((mapUpdate eqv k f d m).map Prod.fst).Nodup := by
  rw [mapUpdate_keys eqv heq]
  split
  · exact hm
  · rename_i hk
    rw [List.nodup_append]
    refine ⟨hm, List.nodup_singleton k, ?_⟩
    intro a ha hb
    simp only [List.mem_singleton] at hb
    subst hb
    exact hk ha

/-- With distinct keys, the only entry of the updated map under `k` holds the
edited value. -/
theorem mapUpdate_value_at {κ ν : Type} (eqv : κ → κ → Bool)
    (heq : ∀ a b, eqv a b = true ↔ a = b) (k : κ) (f : ν → ν) (d : ν) (m : List (κ × ν))
    (hm : (m.map Prod.fst).Nodup) (e : κ × ν) (he : e ∈ mapUpdate eqv k f d m) (hk : e.1 = k) :
    e.2 = f ((mapFind eqv m k).getD d) := by
  induction m with
  | nil =>
    simp only [mapUpdate, List.mem_singleton] at he
    subst he
    simp [mapFind]
  | cons e0 rest ih =>
    have hn : e0.1 ∉ rest.map Prod.fst ∧ (rest.map Prod.fst).Nodup := List.nodup_cons.1 hm
    by_cases h : eqv e0.1 k = true
    · have hk0 : e0.1 = k := (heq _ _).1 h
      simp only [mapUpdate, h, if_true, List.mem_cons] at he
      rcases he with he | he
      · subst he
        simp [mapFind, List.find?, h]
      · exfalso
        apply hn.1
        rw [hk0, ← hk]
        exact List.mem_map_of_mem Prod.fst he
    · have hk0 : ¬ e0.1 = k := fun hc => h ((heq _ _).2 hc)
      simp only [Bool.not_eq_true] at h
      simp only [mapUpdate, h, Bool.false_eq_true, if_false, List.mem_cons] at he
      rcases he with he | he
      · subst he
        exact absurd hk hk0
      · have := ih hn.2 he
        simpa [mapFind, List.find?, h] using this

/-- An entry of the updated map is an old entry, or the edited value under `k`. -/
theorem mapUpdate_mem_cases {κ ν : Type} (eqv : κ → κ → Bool)
    (heq : ∀ a b, eqv a b = true ↔ a = b) (k : κ) (f : ν → ν) (d : ν) (m : List (κ × ν))
    (e : κ × ν) (he : e ∈ mapUpdate eqv k f d m) :
    e ∈ m ∨ (e.1 = k ∧ ((∃ v, (k, v) ∈ m ∧ e.2 = f v) ∨ e.2 = f d)) := by
  induction m with
  | nil =>
    simp only [mapUpdate, List.mem_singleton] at he
    subst he
    exact Or.inr ⟨rfl, Or.inr rfl⟩
  | cons e0 rest ih =>
    by_cases h : eqv e0.1 k = true
    · have hk0 : e0.1 = k := (heq _ _).1 h
      simp only [mapUpdate, h, if_true, List.mem_cons] at he
      rcases he with he | he
      · subst he
        refine Or.inr ⟨hk0, Or.inl ⟨e0.2, ?_, rfl⟩⟩
        rw [← hk0]
        exact List.mem_cons_self _ _
      · exact Or.inl (List.mem_cons_of_mem _ he)
    · simp only [Bool.not_eq_true] at h
      simp only [mapUpdate, h, Bool.false_eq_true, if_false, List.mem_cons] at he
      rcases he with he | he
      · exact Or.inl (by rw [he]; exact List.mem_cons_self _ _)
      · rcases ih he with h1 | ⟨h1, h2⟩
        · exact Or.inl (List.mem_cons_of_mem _ h1)
        · refine Or.inr ⟨h1, ?_⟩
          rcases h2 with ⟨v, hv, hv2⟩ | h2
          · exact Or.inl ⟨v, List.mem_cons_of_mem _ hv, hv2⟩
          · exact Or.inr h2

/-- An old entry stays in the updated map, unchanged or edited. -/
theorem mapUpdate_mem_of_mem {κ ν : Type} (eqv : κ → κ → Bool) (k : κ) (f : ν → ν) (d : ν)
    (m : List (κ × ν)) (e : κ × ν) (he : e ∈ m) :
    e ∈ mapUpdate eqv k f d m ∨ (e.1, f e.2) ∈ mapUpdate eqv k f d m := by
  induction m with
  | nil => exact absurd he (List.not_mem_nil _)
  | cons e0 rest ih =>
    by_cases h : eqv e0.1 k = true
    · simp only [mapUpdate, h, if_true, List.mem_cons]
      rcases List.mem_cons.1 he with he | he
      · subst he
        exact Or.inr (Or.inl rfl)
      · exact Or.inl (Or.inr he)
    · simp only [Bool.not_eq_true] at h
      simp only [mapUpdate, h, Bool.false_eq_true, if_false, List.mem_cons]
      rcases List.mem_cons.1 he with he | he
      · exact Or.inl (Or.inl he)
      · rcases ih he with h1 | h1
        · exact Or.inl (Or.inr h1)
        · exact Or.inr (Or.inr h1)

/-- The updated map has an entry under `k` that holds an edited value. -/
theorem mapUpdate_has_key {κ ν : Type} (eqv : κ → κ → Bool)
    (heq : ∀ a b, eqv a b = true ↔ a = b) (k : κ) (f : ν → ν) (d : ν) (m : List (κ × ν)) :
    ∃ v, (k, f v) ∈ mapUpdate eqv k f d m := by
  induction m with
  | nil => exact ⟨d, by simp [mapUpdate]⟩
  | cons e0 rest ih =>
    by_cases h : eqv e0.1 k = true
    · have hk0 : e0.1 = k := (heq _ _).1 h
      refine ⟨e0.2, ?_⟩
      simp only [mapUpdate]
      rw [if_pos h, ← hk0]
      exact List.mem_cons_self _ _
    · simp only [Bool.not_eq_true] at h
      obtain ⟨v, hv⟩ := ih
      exact ⟨v, by simp [mapUpdate, h, hv]⟩

theorem mapContains_mapErase {κ ν : Type} (eqv : κ → κ → Bool) (k : κ) (m : List (κ × ν)) :
    mapContains eqv (mapErase eqv m k) k = false := by
  simp [mapContains, mapErase]

theorem mapFind_eq_none_of_not_contains {κ ν : Type} (eqv : κ → κ → Bool) (k : κ)
    (m : List (κ × ν)) (h : mapContains eqv m k = false) : mapFind eqv m k = none := by
  simp only [mapContains, List.any_eq_false] at h
  simp only [mapFind, Option.map_eq_none', List.find?_eq_none]
  exact h

/-! ## Binds of an action -/

theorem strEq_iff (a b : Str) : strEq a b = true ↔ a = b := by simp [strEq]

theorem BindManager.mem_getBindsFor (s : BindManager) (action : Str) (b : Bind) :
    b ∈ s.getBindsFor action ↔ ∃ l, (b, l) ∈ s.m_binds ∧ action ∈ l := by
  simp only [BindManager.getBindsFor, List.mem_map, List.mem_filter, List.any_eq_true, strEq_iff]
  constructor
  · rintro ⟨e, ⟨he, a, ha, hae⟩, rfl⟩
    subst hae
    exact ⟨e.2, he, ha⟩
  · rintro ⟨l, hl, ha⟩
    exact ⟨(b, l), ⟨hl, action, ha, rfl⟩, rfl⟩

/-- C3: after `addBindTo(A, b)` the binds of `A` contain a bind equal to `b`;
after a following `removeBindFrom(A, b)` they contain none, and when `A` was
the only action assigned to `b`, the bind map has no entry for `b` at all
and `getBindablesFor(b)` is empty. -/
theorem C3_addBindTo_then_removeBindFrom (s : BindManager) (A : Str) (b : Bind)
    (hwf : s.bindsDistinct) :
    (∃ r ∈ (s.addBindTo A b).getBindsFor A, r.isEqual b = true) ∧
    (∀ r ∈ ((s.addBindTo A b).removeBindFrom A b).getBindsFor A, r.isEqual b = false) ∧
    ((∀ a ∈ (mapFind Bind.isEqual (s.addBindTo A b).m_binds b).getD [], a = A) →
      mapContains Bind.isEqual ((s.addBindTo A b).removeBindFrom A b).m_binds b = false ∧
      (∀ e ∈ ((s.addBindTo A b).removeBindFrom A b).m_binds, e.1.isEqual b = false) ∧
      ((s.addBindTo A b).removeBindFrom A b).getBindablesFor b = []) := by
  have hwf1 : ((s.addBindTo A b).m_binds.map Prod.fst).Nodup :=
    mapUpdate_keys_nodup Bind.isEqual Bind.isEqual_iff b _ [] s.m_binds hwf
  refine ⟨?_, ?_, ?_⟩
  · obtain ⟨v, hv⟩ := mapUpdate_has_key Bind.isEqual Bind.isEqual_iff b
      (fun l : List Str => l ++ [A]) [] s.m_binds
    refine ⟨b, ?_, (Bind.isEqual_iff _ _).2 rfl⟩
    rw [BindManager.mem_getBindsFor]
    exact ⟨v ++ [A], hv, by simp⟩
  · intro r hr
    rw [BindManager.mem_getBindsFor] at hr
    obtain ⟨l, hl, hAl⟩ := hr
    cases hrb : r.isEqual b with
    | false => rfl
    | true =>
      exfalso
      have hrb2 : r = b := (Bind.isEqual_iff _ _).1 hrb
      subst hrb2
      unfold BindManager.removeBindFrom at hl
      simp only [BindManager.stopAllRepeats] at hl
      split at hl
      · simp only [mapErase, List.mem_filter, hrb, Bool.not_true, Bool.false_eq_true,
          and_false] at hl
      · simp only at hl
        have := mapUpdate_value_at Bind.isEqual Bind.isEqual_iff r
          (fun l : List Str => l.filter (fun a => !(strEq a A))) [] (s.addBindTo A r).m_binds
          hwf1 (r, l) hl rfl
        simp only at this
        rw [this] at hAl
        simp [strEq] at hAl
  · intro honly
    have hfind := mapFind_mapUpdate_self Bind.isEqual Bind.isEqual_iff b
      (fun l : List Str => l.filter (fun a => !(strEq a A))) [] (s.addBindTo A b).m_binds
    have hempty : ((mapFind Bind.isEqual (s.addBindTo A b).m_binds b).getD []).filter
        (fun a => !(strEq a A)) = [] := by
      rw [List.filter_eq_nil_iff]
      intro a ha
      simp [strEq, honly a ha]
    have hres : ((s.addBindTo A b).removeBindFrom A b).m_binds =
        mapErase Bind.isEqual (mapUpdate Bind.isEqual b
          (fun l : List Str => l.filter (fun a => !(strEq a A))) [] (s.addBindTo A b).m_binds) b := by
      unfold BindManager.removeBindFrom
      simp only [BindManager.stopAllRepeats]
      rw [hfind, hempty]
      simp
    have hc := mapContains_mapErase Bind.isEqual b (mapUpdate Bind.isEqual b
      (fun l : List Str => l.filter (fun a => !(strEq a A))) [] (s.addBindTo A b).m_binds)
    refine ⟨by rw [hres]; exact hc, ?_, ?_⟩
    · intro e he
      rw [hres] at he
      simp only [mapErase, List.mem_filter, Bool.not_eq_true'] at he
      exact he.2
    · unfold BindManager.getBindablesFor
      rw [hres, hc]
      simp

/-- Witness of C3: the action `jump` and the chord `A` on a fresh manager. -/
theorem C3_addBindTo_then_removeBindFrom_witness :
    (BindManager.new sampleKeyCodes).bindsDistinct ∧
    (∃ r ∈ ((BindManager.new sampleKeyCodes).addBindTo "jump".toList bindA).getBindsFor
        "jump".toList, r.isEqual bindA = true) ∧
    (∀ r ∈ (((BindManager.new sampleKeyCodes).addBindTo "jump".toList bindA).removeBindFrom
        "jump".toList bindA).getBindsFor "jump".toList, r.isEqual bindA = false) ∧
    mapContains Bind.isEqual (((BindManager.new sampleKeyCodes).addBindTo "jump".toList
        bindA).removeBindFrom "jump".toList bindA).m_binds bindA = false ∧
    (((BindManager.new sampleKeyCodes).addBindTo "jump".toList bindA).removeBindFrom
        "jump".toList bindA).getBindablesFor bindA = [] :=
  have h := C3_addBindTo_then_removeBindFrom (BindManager.new sampleKeyCodes) "jump".toList
    bindA (by decide)
  ⟨by decide, h.1, h.2.1, (h.2.2 (by decide)).1, (h.2.2 (by decide)).2.2⟩

/-- C4, at the failing input: on a fresh manager, `addBindTo("jump", A)`
followed by `removeAllBindsFrom("jump")` leaves the entry of the chord `A`
in the bind map with an empty action list, whereas `removeBindFrom("jump", A)`
in its place erases the entry. -/
theorem C4_removeAllBindsFrom_keeps_empty_entry :
    (((BindManager.new sampleKeyCodes).addBindTo "jump".toList bindA).removeAllBindsFrom
        "jump".toList).m_binds = [(bindA, [])] ∧
    (((BindManager.new sampleKeyCodes).addBindTo "jump".toList bindA).removeBindFrom
        "jump".toList bindA).m_binds = [] := by
  decide

/-- C5: `registerBindable` returns false when the id is already registered
and then leaves the action list, the category list, the bind map and the
deviceless binds as they were; it returns true when the id is not registered. -/
theorem C5_registerBindable_duplicate (saved : Str → Option Json) (s : BindManager)
    (action : BindableAction) (after : Str) :
    ((∃ e ∈ s.m_actions, e.1 = action.getID) →
      (s.registerBindable saved action after).1 = false ∧
      (s.registerBindable saved action after).2.m_actions = s.m_actions ∧
      (s.registerBindable saved action after).2.m_categories = s.m_categories ∧
      (s.registerBindable saved action after).2.m_binds = s.m_binds ∧
      (s.registerBindable saved action after).2.m_devicelessBinds = s.m_devicelessBinds) ∧
    ((∀ e ∈ s.m_actions, e.1 ≠ action.getID) →
      (s.registerBindable saved action after).1 = true) := by
  constructor
  · rintro ⟨e, he, hid⟩
    have hany : s.stopAllRepeats.m_actions.any (fun act => strEq act.1 action.getID) = true := by
      rw [List.any_eq_true]
      exact ⟨e, he, (strEq_iff _ _).2 hid⟩
    unfold BindManager.registerBindable
    rw [if_pos hany]
    exact ⟨rfl, rfl, rfl, rfl, rfl⟩
  · intro hnew
    have hany : s.stopAllRepeats.m_actions.any (fun act => strEq act.1 action.getID) = false := by
      rw [List.any_eq_false]
      intro e he hc
      exact hnew e he ((strEq_iff _ _).1 hc)
    unfold BindManager.registerBindable
    simp only [hany, Bool.false_eq_true, if_false]
    split <;> rfl

/-- Witness of C5: registering `jump` twice on a fresh manager; the second
call returns false and changes nothing, the first returns true. -/
theorem C5_registerBindable_duplicate_witness :
    (((BindManager.new sampleKeyCodes).registerBindable nothingSaved
        (sampleAction "jump".toList [bindA]) []).2.registerBindable nothingSaved
        (sampleAction "jump".toList [bindCtrlB]) []).1 = false ∧
    ((BindManager.new sampleKeyCodes).registerBindable nothingSaved
        (sampleAction "jump".toList [bindA]) []).1 = true :=
  ⟨((C5_registerBindable_duplicate nothingSaved
      ((BindManager.new sampleKeyCodes).registerBindable nothingSaved
        (sampleAction "jump".toList [bindA]) []).2
      (sampleAction "jump".toList [bindCtrlB]) []).1 (by decide)).1,
   (C5_registerBindable_duplicate nothingSaved (BindManager.new sampleKeyCodes)
      (sampleAction "jump".toList [bindA]) []).2 (by decide)⟩

/-! ## Registration -/

theorem indexOf_split {α : Type} (p : α → Bool) (pre : List α) (x : α) (post : List α)
    (hpre : ∀ e ∈ pre, p e = false) (hx : p x = true) :
    indexOf p (pre ++ x :: post) = some pre.length := by
  induction pre with
  | nil => simp [indexOf, hx]
  | cons a pre ih =>
    have ha : p a = false := hpre a (List.mem_cons_self _ _)
    have := ih (fun e he => hpre e (List.mem_cons_of_mem _ he))
    simp [indexOf, ha, this]

theorem indexOf_none {α : Type} (p : α → Bool) (l : List α) (h : ∀ e ∈ l, p e = false) :
    indexOf p l = none := by
  induction l with
  | nil => rfl
  | cons a l ih =>
    have ha : p a = false := h a (List.mem_cons_self _ _)
    have := ih (fun e he => h e (List.mem_cons_of_mem _ he))
    simp [indexOf, ha, this]

theorem insertAt_sublist {α : Type} (l : List α) (i : Nat) (x : α) :
    List.Sublist l (insertAt l i x) := by
  unfold insertAt
  conv => lhs; rw [← List.take_append_drop i l]
  exact List.Sublist.append (List.Sublist.refl _) (List.sublist_cons_self _ _)

theorem insertAt_find {α : Type} (p : α → Bool) (l : List α) (i : Nat) (x : α)
    (hl : ∀ e ∈ l, p e = false) (hx : p x = true) : (insertAt l i x).find? p = some x := by
  unfold insertAt
  have h1 : (l.take i).find? p = none := by
    rw [List.find?_eq_none]
    intro e he
    simp [hl e (List.mem_of_mem_take he)]
  rw [List.find?_append, h1]
  simp [List.find?, hx]

theorem append_find {α : Type} (p : α → Bool) (l : List α) (x : α)
    (hl : ∀ e ∈ l, p e = false) (hx : p x = true) : (l ++ [x]).find? p = some x := by
  have h1 : l.find? p = none := by
    rw [List.find?_eq_none]
    intro e he
    simp [hl e he]
  rw [List.find?_append, h1]
  simp [List.find?, hx]

theorem BindManager.addCategoryAux_frame (fuel : Nat) (s : BindManager) (c : Category) :
    (BindManager.addCategoryAux fuel s c).m_actions = s.m_actions ∧
    (BindManager.addCategoryAux fuel s c).m_binds = s.m_binds ∧
    (BindManager.addCategoryAux fuel s c).m_devicelessBinds = s.m_devicelessBinds ∧
    (BindManager.addCategoryAux fuel s c).m_devices = s.m_devices := by
  induction fuel generalizing s c with
  | zero => exact ⟨rfl, rfl, rfl, rfl⟩
  | succ fuel ih =>
    unfold BindManager.addCategoryAux
    simp only
    split
    · cases hp : c.getParent with
      | none => exact ⟨rfl, rfl, rfl, rfl⟩
      | some parent =>
        simp only
        exact ih s.stopAllRepeats parent
    · exact ⟨rfl, rfl, rfl, rfl⟩

theorem BindManager.loadBindEntries_frame (binds : List Json) (s : BindManager) (action : Str) :
    (BindManager.loadBindEntries s action binds).2.m_actions = s.m_actions ∧
    (BindManager.loadBindEntries s action binds).2.m_categories = s.m_categories := by
  induction binds generalizing s with
  | nil => exact ⟨rfl, rfl⟩
  | cons j rest ih =>
    cases j with
    | str data =>
      unfold BindManager.loadBindEntries
      split
      · rename_i b hb
        exact ih (s.addBindTo action b)
      · simp only
        split
        · exact ih _
        · exact ih s
    | null => exact ⟨rfl, rfl⟩
    | bool b => exact ⟨rfl, rfl⟩
    | int i => exact ⟨rfl, rfl⟩
    | arr a => exact ⟨rfl, rfl⟩
    | obj o => exact ⟨rfl, rfl⟩

theorem BindManager.setRepeatOptionsFor_frame (s : BindManager) (action : Str)
    (options : RepeatOptions) :
    (s.setRepeatOptionsFor action options).getAllBindables = s.getAllBindables ∧
    (s.setRepeatOptionsFor action options).m_categories = s.m_categories := by
  refine ⟨?_, rfl⟩
  simp only [BindManager.setRepeatOptionsFor, BindManager.getAllBindables,
    BindManager.stopAllRepeats, List.map_map]
  apply List.map_congr_left
  intro e _
  simp only [Function.comp]
  split <;> rfl

theorem BindManager.loadActionBinds_frame (saved : Str → Option Json) (s : BindManager)
    (action : Str) :
    (BindManager.loadActionBinds saved s action).2.getAllBindables = s.getAllBindables := by
  have hframe : ∀ binds, (BindManager.loadBindEntries s action binds).2.getAllBindables
      = s.getAllBindables := by
    intro binds
    simp only [BindManager.getAllBindables, (BindManager.loadBindEntries_frame binds s action).1]
  unfold BindManager.loadActionBinds
  simp only
  split
  · rename_i binds hbinds
    split
    · rename_i s1 h1
      have := hframe binds
      rw [h1] at this
      exact this
    · rename_i s1 h1
      have := hframe binds
      rw [h1] at this
      split
      · split
        · split
          · rw [(BindManager.setRepeatOptionsFor_frame _ _ _).1]
            exact this
          · exact this
        · exact this
      · exact this
  · rfl

theorem BindManager.loadActionBinds_nothing (saved : Str → Option Json) (s : BindManager)
    (action : Str) (h : saved action = none) :
    BindManager.loadActionBinds saved s action = (false, s) := by
  unfold BindManager.loadActionBinds
  simp [getSavedValue, h, jsonGet, mapFind]

theorem BindManager.foldl_addBindTo_frame (defs : List Bind) (s : BindManager) (action : Str) :
    (defs.foldl (fun s d => s.addBindTo action d) s).m_actions = s.m_actions ∧
    (defs.foldl (fun s d => s.addBindTo action d) s).m_categories = s.m_categories := by
  induction defs generalizing s with
  | nil => exact ⟨rfl, rfl⟩
  | cons d defs ih =>
    simp only [List.foldl_cons]
    exact ih (s.addBindTo action d)

theorem BindManager.registerBindable_true (saved : Str → Option Json) (s : BindManager)
    (action : BindableAction) (after : Str) (hnew : ∀ e ∈ s.m_actions, e.1 ≠ action.getID) :
    (s.registerBindable saved action after).1 = true := by
  have hany : s.stopAllRepeats.m_actions.any (fun act => strEq act.1 action.getID) = false := by
    rw [List.any_eq_false]
    intro e he hc
    exact hnew e he ((strEq_iff _ _).1 hc)
  unfold BindManager.registerBindable
  simp only [hany, Bool.false_eq_true, if_false]
  split <;> rfl

/-- The action list after a successful `registerBindable`. -/
theorem BindManager.registerBindable_bindables (saved : Str → Option Json) (s : BindManager)
    (action : BindableAction) (after : Str) (hnew : ∀ e ∈ s.m_actions, e.1 ≠ action.getID) :
    (s.registerBindable saved action after).2.getAllBindables =
      match indexOf (fun a : Str × ActionData => strEq a.1 after) s.m_actions with
      | some ix => insertAt s.getAllBindables (ix + 1) action
      | none => s.getAllBindables ++ [action] := by
  have hany : s.stopAllRepeats.m_actions.any (fun act => strEq act.1 action.getID) = false := by
    rw [List.any_eq_false]
    intro e he hc
    exact hnew e he ((strEq_iff _ _).1 hc)
  unfold BindManager.registerBindable
  simp only [hany, Bool.false_eq_true, if_false]
  have hins : ∀ s1 : BindManager,
      (match BindManager.loadActionBinds saved (s1.addCategory action.getCategory) action.getID with
        | (false, s2) =>
          (true, action.getDefaults.foldl (fun (s : BindManager) d => s.addBindTo action.getID d) s2)
        | (true, s2) => (true, s2)).2.getAllBindables = s1.getAllBindables := by
    intro s1
    have h1 := BindManager.loadActionBinds_frame saved (s1.addCategory action.getCategory)
      action.getID
    have h0 : (s1.addCategory action.getCategory).getAllBindables = s1.getAllBindables := by
      simp only [BindManager.getAllBindables, BindManager.addCategory,
        (BindManager.addCategoryAux_frame _ s1 _).1]
    split
    · rename_i s2 h2
      rw [h2] at h1
      simp only [BindManager.getAllBindables,
        (BindManager.foldl_addBindTo_frame action.getDefaults s2 action.getID).1]
      exact h1.trans h0
    · rename_i s2 h2
      rw [h2] at h1
      exact h1.trans h0
  cases hix : indexOf (fun a : Str × ActionData => strEq a.1 after) s.m_actions with
  | none =>
    have hix2 : indexOf (fun a : Str × ActionData => strEq a.1 after) s.stopAllRepeats.m_actions
        = none := hix
    simp only [hix2]
    rw [hins]
    simp [BindManager.getAllBindables, BindManager.stopAllRepeats]
  | some ix =>
    have hix2 : indexOf (fun a : Str × ActionData => strEq a.1 after) s.stopAllRepeats.m_actions
        = some ix := hix
    simp only [hix2]
    rw [hins]
    simp [BindManager.getAllBindables, BindManager.stopAllRepeats, insertAt, List.map_take,
      List.map_drop]

/-- C6, counterexample: with the actions `""` and `"b"` registered,
`registerBindable(c, after = "")` puts `c` between them and not at the end of
the action list, although `after` is empty. -/
theorem C6_empty_after_not_at_end :
    (managerWithEmptyId.registerBindable nothingSaved (sampleAction "c".toList []) []).1 = true ∧
    managerWithEmptyId.getAllBindables = [sampleAction [] [], sampleAction "b".toList []] ∧
    (managerWithEmptyId.registerBindable nothingSaved (sampleAction "c".toList []) []).2.getAllBindables
      = [sampleAction [] [], sampleAction "c".toList [], sampleAction "b".toList []] ∧
    (managerWithEmptyId.registerBindable nothingSaved (sampleAction "c".toList []) []).2.getAllBindables
      ≠ managerWithEmptyId.getAllBindables ++ [sampleAction "c".toList []] := by
  decide

/-- C6, amended: a successful `registerBindable(action, after)` places the new
action immediately after the first registered action whose id equals `after`,
and at the end of the action list if no registered action has the id `after`;
the actions registered before keep their relative order in
`getAllBindables`. -/
theorem C6_registerBindable_position (saved : Str → Option Json) (s : BindManager)
    (action : BindableAction) (after : Str) (hnew : ∀ e ∈ s.m_actions, e.1 ≠ action.getID) :
    (s.registerBindable saved action after).1 = true ∧
    (∀ (pre : List (Str × ActionData)) (x : Str × ActionData) (post : List (Str × ActionData)),
      s.m_actions = pre ++ x :: post → x.1 = after → (∀ e ∈ pre, e.1 ≠ after) →
      (s.registerBindable saved action after).2.getAllBindables =
        pre.map (fun e => e.2.definition) ++
          x.2.definition :: action :: post.map (fun e => e.2.definition)) ∧
    ((∀ e ∈ s.m_actions, e.1 ≠ after) →
      (s.registerBindable saved action after).2.getAllBindables = s.getAllBindables ++ [action]) ∧
    List.Sublist s.getAllBindables (s.registerBindable saved action after).2.getAllBindables := by
  have hshape := BindManager.registerBindable_bindables saved s action after hnew
  refine ⟨BindManager.registerBindable_true saved s action after hnew, ?_, ?_, ?_⟩
  · intro pre x post hsplit hx hpre
    have hix : indexOf (fun a : Str × ActionData => strEq a.1 after) s.m_actions
        = some pre.length := by
      rw [hsplit]
      apply indexOf_split
      · intro e he
        simp [strEq, hpre e he]
      · simp [strEq, hx]
    rw [hshape, hix]
    simp [insertAt, BindManager.getAllBindables, hsplit, List.take_append_eq_append_take,
      List.drop_append_eq_append_drop, List.take_of_length_le, List.drop_of_length_le]
  · intro hnone
    have hix : indexOf (fun a : Str × ActionData => strEq a.1 after) s.m_actions = none := by
      apply indexOf_none
      intro e he
      simp [strEq, hnone e he]
    rw [hshape, hix]
  · rw [hshape]
    split
    · exact insertAt_sublist _ _ _
    · exact List.sublist_append_left _ _

/-- Witness of C6: on a fresh manager with `jump` registered, `run` is
registered after `jump`. -/
theorem C6_registerBindable_position_witness :
    (∀ e ∈ ((BindManager.new sampleKeyCodes).registerBindable nothingSaved
        (sampleAction "jump".toList []) []).2.m_actions, e.1 ≠ (sampleAction "run".toList []).getID) ∧
    (((BindManager.new sampleKeyCodes).registerBindable nothingSaved
        (sampleAction "jump".toList []) []).2.registerBindable nothingSaved
        (sampleAction "run".toList []) "jump".toList).1 = true ∧
    List.Sublist
      ((BindManager.new sampleKeyCodes).registerBindable nothingSaved
        (sampleAction "jump".toList []) []).2.getAllBindables
      (((BindManager.new sampleKeyCodes).registerBindable nothingSaved
        (sampleAction "jump".toList []) []).2.registerBindable nothingSaved
        (sampleAction "run".toList []) "jump".toList).2.getAllBindables :=
  have h := C6_registerBindable_position nothingSaved
    ((BindManager.new sampleKeyCodes).registerBindable nothingSaved
      (sampleAction "jump".toList []) []).2
    (sampleAction "run".toList []) "jump".toList (by decide)
  ⟨by decide, h.1, h.2.2.2⟩

/-! ## Default binds -/

theorem bindsOf_addBindTo_of_empty (m : List (Bind × List Str)) (A : Str) (d : Bind)
    (h : (m.filter (fun e => e.2.any (fun a => strEq a A))).map Prod.fst = []) :
    ((mapUpdate Bind.isEqual d (fun l => l ++ [A]) [] m).filter
      (fun e => e.2.any (fun a => strEq a A))).map Prod.fst = [d] := by
  induction m with
  | nil => simp [mapUpdate, strEq]
  | cons e rest ih =>
    have he : e.2.any (fun a => strEq a A) = false := by
      cases hc : e.2.any (fun a => strEq a A) with
      | false => rfl
      | true => simp [List.filter, hc] at h
    have hrest : (rest.filter (fun e => e.2.any (fun a => strEq a A))).map Prod.fst = [] := by
      simpa [List.filter, he] using h
    by_cases hk : Bind.isEqual e.1 d = true
    · have hk2 : e.1 = d := (Bind.isEqual_iff _ _).1 hk
      simp only [mapUpdate]
      rw [if_pos hk]
      have hany : (e.2 ++ [A]).any (fun a => strEq a A) = true := by simp [strEq]
      simp only [List.filter, hany, List.map_cons, hrest, hk2]
    · simp only [Bool.not_eq_true] at hk
      simp only [mapUpdate, hk, Bool.false_eq_true, if_false, List.filter, he]
      exact ih hrest

theorem BindManager.getBindsFor_removeAllBindsFrom (s : BindManager) (A : Str) :
    (s.removeAllBindsFrom A).getBindsFor A = [] := by
  simp only [BindManager.getBindsFor, BindManager.removeAllBindsFrom, BindManager.stopAllRepeats,
    List.map_eq_nil_iff, List.filter_eq_nil_iff, List.mem_map]
  rintro e ⟨e0, _, rfl⟩
  simp [strEq]

/-- C7, counterexample: the chord `A` is assigned to the id `jump` before the
action `jump`, with nothing persisted and the one default bind `Ctrl+B`, is
registered; after `registerBindable` the binds of `jump` hold `A` next to
`Ctrl+B`, so they are not `[Ctrl+B]`, and `hasDefaultBinds` is false. -/
theorem C7_earlier_bind_breaks_defaults :
    (managerWithEarlyBind.registerBindable nothingSaved
      (sampleAction "jump".toList [bindCtrlB]) []).1 = true ∧
    bindA ∈ (managerWithEarlyBind.registerBindable nothingSaved
      (sampleAction "jump".toList [bindCtrlB]) []).2.getBindsFor "jump".toList ∧
    (managerWithEarlyBind.registerBindable nothingSaved
      (sampleAction "jump".toList [bindCtrlB]) []).2.getBindsFor "jump".toList ≠ [bindCtrlB] ∧
    (managerWithEarlyBind.registerBindable nothingSaved
      (sampleAction "jump".toList [bindCtrlB]) []).2.hasDefaultBinds "jump".toList = false := by
  decide

/-- C7, amended: for an action `A` that is registered successfully with
nothing persisted under its id, a declared default list of one bind `d`, and
no bind assigned to its id before the call: after `registerBindable` the
binds of `A` are exactly `[d]` and `hasDefaultBinds(A)` is true; after a
following `removeAllBindsFrom(A)`, `hasDefaultBinds(A)` is false. -/
theorem C7_registerBindable_applies_default (saved : Str → Option Json) (s : BindManager)
    (action : BindableAction) (after : Str) (d : Bind)
    (hnew : ∀ e ∈ s.m_actions, e.1 ≠ action.getID)
    (hsaved : saved action.getID = none)
    (hdef : action.getDefaults = [d])
    (hfree : s.getBindsFor action.getID = []) :
    (s.registerBindable saved action after).1 = true ∧
    (s.registerBindable saved action after).2.getBindsFor action.getID = [d] ∧
    (s.registerBindable saved action after).2.hasDefaultBinds action.getID = true ∧
    ((s.registerBindable saved action after).2.removeAllBindsFrom action.getID).hasDefaultBinds
      action.getID = false := by
  have hany : s.stopAllRepeats.m_actions.any (fun act => strEq act.1 action.getID) = false := by
    rw [List.any_eq_false]
    intro e he hc
    exact hnew e he ((strEq_iff _ _).1 hc)
  have hpold : ∀ e ∈ s.m_actions, (fun e : Str × ActionData => strEq e.1 action.getID) e = false := by
    intro e he
    simp [strEq, hnew e he]
  let entry : Str × ActionData := (action.getID, { definition := action, repeatOptions := {} })
  -- the state after the insertion into the action list
  obtain ⟨s1, hs1, hb1, hfind1⟩ : ∃ s1 : BindManager,
      (s.registerBindable saved action after).2 = (s1.addCategory action.getCategory).addBindTo
        action.getID d ∧ s1.m_binds = s.m_binds ∧
      s1.m_actions.find? (fun e => strEq e.1 action.getID)
        = some (action.getID, { definition := action, repeatOptions := {} }) := by
    cases hix : indexOf (fun a : Str × ActionData => strEq a.1 after) s.m_actions with
    | none =>
      refine ⟨{ s.stopAllRepeats with m_actions := s.stopAllRepeats.m_actions ++ [entry] },
        ?_, rfl, ?_⟩
      · have hix2 : indexOf (fun a : Str × ActionData => strEq a.1 after)
            s.stopAllRepeats.m_actions = none := hix
        unfold BindManager.registerBindable
        simp only [hany, Bool.false_eq_true, if_false, hix2]
        rw [BindManager.loadActionBinds_nothing saved _ _ hsaved]
        simp only [hdef, List.foldl_cons, List.foldl_nil]
      · exact append_find _ _ _ hpold (by simp [strEq])
    | some ix =>
      refine ⟨{ s.stopAllRepeats with m_actions := insertAt s.stopAllRepeats.m_actions (ix + 1) entry },
        ?_, rfl, ?_⟩
      · have hix2 : indexOf (fun a : Str × ActionData => strEq a.1 after)
            s.stopAllRepeats.m_actions = some ix := hix
        unfold BindManager.registerBindable
        simp only [hany, Bool.false_eq_true, if_false, hix2]
        rw [BindManager.loadActionBinds_nothing saved _ _ hsaved]
        simp only [hdef, List.foldl_cons, List.foldl_nil]
      · exact insertAt_find _ _ _ _ hpold (by simp [strEq])
  have hcat := BindManager.addCategoryAux_frame (action.getCategory.m_value.length + 1) s1
    action.getCategory
  have hbinds : (s.registerBindable saved action after).2.getBindsFor action.getID = [d] := by
    rw [hs1]
    have hempty : ((s1.addCategory action.getCategory).stopAllRepeats.m_binds.filter
        (fun e => e.2.any (fun a => strEq a action.getID))).map Prod.fst = [] := by
      have : (s1.addCategory action.getCategory).stopAllRepeats.m_binds = s.m_binds := by
        simp only [BindManager.stopAllRepeats, BindManager.addCategory, hcat.2.1, hb1]
      rw [this]
      exact hfree
    exact bindsOf_addBindTo_of_empty _ _ _ hempty
  have hget : (s.registerBindable saved action after).2.getBindable action.getID = some action := by
    rw [hs1]
    simp only [BindManager.getBindable, BindManager.addBindTo, BindManager.stopAllRepeats,
      BindManager.addCategory, hcat.1, hfind1, Option.map_some']
  refine ⟨BindManager.registerBindable_true saved s action after hnew, hbinds, ?_, ?_⟩
  · unfold BindManager.hasDefaultBinds
    rw [hget]
    simp only [hbinds, hdef]
    simp [(Bind.isEqual_iff d d).2 rfl]
  · unfold BindManager.hasDefaultBinds
    have hget2 : ((s.registerBindable saved action after).2.removeAllBindsFrom
        action.getID).getBindable action.getID = some action := hget
    rw [hget2, BindManager.getBindsFor_removeAllBindsFrom]
    simp [hdef]

/-- Witness of C7: the action `jump` with the default bind `A`, registered
on a fresh manager with nothing saved. -/
theorem C7_registerBindable_applies_default_witness :
    ((BindManager.new sampleKeyCodes).registerBindable nothingSaved
      (sampleAction "jump".toList [bindA]) []).2.getBindsFor "jump".toList = [bindA] ∧
    ((BindManager.new sampleKeyCodes).registerBindable nothingSaved
      (sampleAction "jump".toList [bindA]) []).2.hasDefaultBinds "jump".toList = true ∧
    (((BindManager.new sampleKeyCodes).registerBindable nothingSaved
      (sampleAction "jump".toList [bindA]) []).2.removeAllBindsFrom "jump".toList).hasDefaultBinds
        "jump".toList = false :=
  (C7_registerBindable_applies_default nothingSaved (BindManager.new sampleKeyCodes)
    (sampleAction "jump".toList [bindA]) [] bindA (by decide) rfl rfl (by decide)).2

theorem BindManager.mem_getBindsFor_addBindTo (s : BindManager) (A : Str) (d b : Bind) :
    b ∈ (s.addBindTo A d).getBindsFor A ↔ b ∈ s.getBindsFor A ∨ b = d := by
  rw [BindManager.mem_getBindsFor, BindManager.mem_getBindsFor]
  constructor
  · rintro ⟨l, hl, hA⟩
    rcases mapUpdate_mem_cases Bind.isEqual Bind.isEqual_iff d (fun l : List Str => l ++ [A]) []
      s.m_binds (b, l) hl with h | ⟨h, _⟩
    · exact Or.inl ⟨l, h, hA⟩
    · exact Or.inr h
  · rintro (⟨l, hl, hA⟩ | h)
    · rcases mapUpdate_mem_of_mem Bind.isEqual d (fun l : List Str => l ++ [A]) [] s.m_binds
        (b, l) hl with h | h
      · exact ⟨l, h, hA⟩
      · exact ⟨l ++ [A], h, by simp⟩
    · subst h
      obtain ⟨v, hv⟩ := mapUpdate_has_key Bind.isEqual Bind.isEqual_iff b
        (fun l : List Str => l ++ [A]) [] s.m_binds
      exact ⟨v ++ [A], hv, by simp⟩

theorem BindManager.mem_getBindsFor_foldl_addBindTo (defs : List Bind) (s : BindManager)
    (A : Str) (b : Bind) :
    b ∈ (defs.foldl (fun s d => s.addBindTo A d) s).getBindsFor A ↔
      b ∈ s.getBindsFor A ∨ b ∈ defs := by
  induction defs generalizing s with
  | nil => simp
  | cons d defs ih =>
    simp only [List.foldl_cons, List.mem_cons]
    rw [ih (s.addBindTo A d), BindManager.mem_getBindsFor_addBindTo]
    tauto

theorem BindManager.bindsDistinct_foldl_addBindTo (defs : List Bind) (s : BindManager)
    (A : Str) (h : s.bindsDistinct) :
    (defs.foldl (fun s d => s.addBindTo A d) s).bindsDistinct := by
  induction defs generalizing s with
  | nil => exact h
  | cons d defs ih =>
    simp only [List.foldl_cons]
    apply ih
    exact mapUpdate_keys_nodup Bind.isEqual Bind.isEqual_iff d _ [] s.m_binds h

theorem BindManager.getBindsFor_nodup (s : BindManager) (A : Str) (h : s.bindsDistinct) :
    (s.getBindsFor A).Nodup := by
  unfold BindManager.getBindsFor
  exact List.Nodup.sublist (List.Sublist.map _ (List.filter_sublist _)) h

theorem nodup_eq_of_same_members {α : Type} (l d : List α) (hl : l.Nodup)
    (hmem : ∀ b, b ∈ l ↔ b ∈ d) (hd : d.length ≤ 1) : l = d := by
  cases d with
  | nil =>
    rw [List.eq_nil_iff_forall_not_mem]
    intro b hb
    exact absurd ((hmem b).1 hb) (List.not_mem_nil _)
  | cons x t =>
    have ht : t = [] := by
      cases t with
      | nil => rfl
      | cons y t2 => simp at hd
    subst ht
    cases l with
    | nil => exact absurd ((hmem x).2 (List.mem_singleton_self x)) (List.not_mem_nil _)
    | cons y t =>
      have hy : y = x := List.mem_singleton.1 ((hmem y).1 (List.mem_cons_self _ _))
      have hn := List.nodup_cons.1 hl
      have ht : t = [] := by
        rw [List.eq_nil_iff_forall_not_mem]
        intro z hz
        have hzx : z = x := List.mem_singleton.1 ((hmem z).1 (List.mem_cons_of_mem _ hz))
        apply hn.1
        rw [hy, ← hzx]
        exact hz
      rw [hy, ht]

theorem zip_self_all_isEqual (l : List Bind) :
    (l.zip l).all (fun p => p.1.isEqual p.2) = true := by
  induction l with
  | nil => rfl
  | cons b l ih =>
    simp only [List.zip_cons_cons, List.all_cons, ih, Bool.and_true]
    exact (Bind.isEqual_iff b b).2 rfl

/-- C8, counterexample: the action `jump` is registered with the default
list `[A, A]`; after `resetBindsToDefault` its bind list is `[A]`, which is
not its default list, and `hasDefaultBinds` is false. -/
theorem C8_repeated_default_not_restored :
    managerWithRepeatedDefault.getBindable "jump".toList
      = some (sampleAction "jump".toList [bindA, bindA]) ∧
    (managerWithRepeatedDefault.resetBindsToDefault "jump".toList).getBindsFor "jump".toList
      = [bindA] ∧
    (managerWithRepeatedDefault.resetBindsToDefault "jump".toList).hasDefaultBinds "jump".toList
      = false := by
  decide

/-- C8, amended: for a registered action `A`, after `resetBindsToDefault(A)`
the binds of `A` are the binds of its declared default list, each of them
once; when the default list is empty or a single bind, the bind list of `A`
is the default list and `hasDefaultBinds(A)` is true. -/
theorem C8_resetBindsToDefault (s : BindManager) (A : Str) (bindable : BindableAction)
    (hwf : s.bindsDistinct) (hreg : s.getBindable A = some bindable) :
    (∀ b, b ∈ (s.resetBindsToDefault A).getBindsFor A ↔ b ∈ bindable.getDefaults) ∧
    ((s.resetBindsToDefault A).getBindsFor A).Nodup ∧
    (bindable.getDefaults.length ≤ 1 →
      (s.resetBindsToDefault A).getBindsFor A = bindable.getDefaults ∧
      (s.resetBindsToDefault A).hasDefaultBinds A = true) := by
  have hreg1 : (s.stopAllRepeats.removeAllBindsFrom A).getBindable A = some bindable := hreg
  have hres : s.resetBindsToDefault A =
      bindable.getDefaults.foldl (fun s d => s.addBindTo A d)
        (s.stopAllRepeats.removeAllBindsFrom A) := by
    unfold BindManager.resetBindsToDefault
    simp only [hreg1]
  have hwf1 : (s.stopAllRepeats.removeAllBindsFrom A).bindsDistinct := by
    unfold BindManager.bindsDistinct at hwf ⊢
    simpa [BindManager.removeAllBindsFrom, BindManager.stopAllRepeats, Function.comp] using hwf
  have hmem : ∀ b, b ∈ (s.resetBindsToDefault A).getBindsFor A ↔ b ∈ bindable.getDefaults := by
    intro b
    rw [hres, BindManager.mem_getBindsFor_foldl_addBindTo,
      BindManager.getBindsFor_removeAllBindsFrom]
    simp
  have hnd : ((s.resetBindsToDefault A).getBindsFor A).Nodup := by
    rw [hres]
    exact BindManager.getBindsFor_nodup _ _
      (BindManager.bindsDistinct_foldl_addBindTo _ _ _ hwf1)
  refine ⟨hmem, hnd, ?_⟩
  intro hlen
  have heq := nodup_eq_of_same_members _ _ hnd hmem hlen
  refine ⟨heq, ?_⟩
  have hget : (s.resetBindsToDefault A).getBindable A = some bindable := by
    rw [hres]
    simp only [BindManager.getBindable,
      (BindManager.foldl_addBindTo_frame bindable.getDefaults _ A).1]
    exact hreg
  unfold BindManager.hasDefaultBinds
  rw [hget]
  simp only [heq, if_true]
  exact zip_self_all_isEqual _

/-- Witness of C8: the action `jump` with the default bind `A`, after its
binds were changed to `Ctrl+B`. -/
theorem C8_resetBindsToDefault_witness :
    ((((BindManager.new sampleKeyCodes).registerBindable nothingSaved
      (sampleAction "jump".toList [bindA]) []).2.addBindTo "jump".toList
        bindCtrlB).resetBindsToDefault "jump".toList).getBindsFor "jump".toList
      = (sampleAction "jump".toList [bindA]).getDefaults ∧
    ((((BindManager.new sampleKeyCodes).registerBindable nothingSaved
      (sampleAction "jump".toList [bindA]) []).2.addBindTo "jump".toList
        bindCtrlB).resetBindsToDefault "jump".toList).hasDefaultBinds "jump".toList = true :=
  (C8_resetBindsToDefault
    (((BindManager.new sampleKeyCodes).registerBindable nothingSaved
      (sampleAction "jump".toList [bindA]) []).2.addBindTo "jump".toList bindCtrlB)
    "jump".toList (sampleAction "jump".toList [bindA]) (by decide) (by decide)).2.2 (by decide)

/-! ## Categories -/

theorem isPrefixOf_self (l : Str) : l.isPrefixOf l = true := by
  induction l with
  | nil => rfl
  | cons c l ih => simp [List.isPrefixOf, ih]

theorem find_last_of_lt (s : Str) (c : Char) (i : Nat) (h : find_last_of s c = some i) :
    i < s.length := by
  induction s generalizing i with
  | nil => simp [find_last_of] at h
  | cons x xs ih =>
    unfold find_last_of at h
    cases hr : find_last_of xs c with
    | some j =>
      rw [hr] at h
      simp only [Option.some.injEq] at h
      have := ih j hr
      simp only [List.length_cons]
      omega
    | none =>
      rw [hr] at h
      simp only at h
      split at h
      · simp only [Option.some.injEq] at h
        simp only [List.length_cons]
        omega
      · exact absurd h (by simp)

theorem find_last_of_of_mem (s : Str) (c : Char) (h : c ∈ s) : ∃ i, find_last_of s c = some i := by
  induction s with
  | nil => exact absurd h (List.not_mem_nil _)
  | cons x xs ih =>
    unfold find_last_of
    cases hr : find_last_of xs c with
    | some j => exact ⟨j + 1, rfl⟩
    | none =>
      rcases List.mem_cons.1 h with hx | hx
      · exact ⟨0, by simp [hx]⟩
      · obtain ⟨i, hi⟩ := ih hx
        rw [hr] at hi
        exact absurd hi (by simp)

/-- The parent of a category is a strictly shorter path. -/
theorem Category.getParent_length (c parent : Category) (h : c.getParent = some parent) :
    parent.m_value.length < c.m_value.length := by
  unfold Category.getParent at h
  split at h
  · rename_i hc
    have hmem : '/' ∈ c.m_value := by simpa using hc
    obtain ⟨i, hi⟩ := find_last_of_of_mem _ _ hmem
    have hlt := find_last_of_lt _ _ _ hi
    simp only [Option.some.injEq] at h
    rw [← h, hi]
    simp only [Option.getD_some, List.length_take]
    omega
  · exact absurd h (by simp)

/-- Any bound above the length of the path gives the same result: the
recursion of `addCategory` into the parents ends before the bound is used up. -/
theorem BindManager.addCategoryAux_fuel (fuel1 fuel2 : Nat) (s : BindManager) (c : Category)
    (h1 : c.m_value.length < fuel1) (h2 : c.m_value.length < fuel2) :
    BindManager.addCategoryAux fuel1 s c = BindManager.addCategoryAux fuel2 s c := by
  induction fuel1 generalizing fuel2 s c with
  | zero => omega
  | succ f1 ih =>
    cases fuel2 with
    | zero => omega
    | succ f2 =>
      unfold BindManager.addCategoryAux
      simp only
      split
      · cases hp : c.getParent with
        | none => rfl
        | some parent =>
          have hlen := Category.getParent_length c parent hp
          simp only
          rw [ih f2 s.stopAllRepeats parent (by omega) (by omega)]
      · rfl

/-- `BindManager::addCategory` as the source states it: nothing but
`stopAllRepeats` for a category that is present; otherwise the parent is
added first, then the category is inserted at the scanned position. -/
theorem BindManager.addCategory_eq (s : BindManager) (c : Category) :
    s.addCategory c =
      if ¬ (c ∈ s.m_categories) then
        { (match c.getParent with
            | some parent => s.stopAllRepeats.addCategory parent
            | none => s.stopAllRepeats) with
          m_categories :=
            insertAt
              (match c.getParent with
                | some parent => s.stopAllRepeats.addCategory parent
                | none => s.stopAllRepeats).m_categories
              (BindManager.scanInsertPos c
                (match c.getParent with
                  | some parent => s.stopAllRepeats.addCategory parent
                  | none => s.stopAllRepeats).m_categories false 0) c }
      else s.stopAllRepeats := by
  unfold BindManager.addCategory
  rw [BindManager.addCategoryAux]
  simp only
  by_cases hc : c ∈ s.m_categories
  · have hc2 : c ∈ s.stopAllRepeats.m_categories := hc
    simp only [hc, hc2, not_true_eq_false, if_false]
  · have hc2 : ¬ c ∈ s.stopAllRepeats.m_categories := hc
    simp only [hc, hc2, not_false_eq_true, if_true]
    cases hp : c.getParent with
    | none => rfl
    | some parent =>
      have hlen := Category.getParent_length c parent hp
      simp only
      rw [BindManager.addCategoryAux_fuel c.m_value.length (parent.m_value.length + 1)
        s.stopAllRepeats parent hlen (Nat.lt_succ_self _)]

/-- What a run of `removeBindable` calls leaves: only old actions whose id is
none of the removed ids, and in the bind map only old assignments to other ids. -/
theorem BindManager.foldl_removeBindable (L : List BindableAction) (s : BindManager) :
    (∀ e ∈ (L.foldl (fun s b => s.removeBindable b.getID) s).m_actions,
      e ∈ s.m_actions ∧ e.1 ∉ L.map BindableAction.getID) ∧
    (∀ e ∈ (L.foldl (fun s b => s.removeBindable b.getID) s).m_binds,
      ∀ a ∈ e.2, a ∉ L.map BindableAction.getID) ∧
    (L.foldl (fun s b => s.removeBindable b.getID) s).m_categories = s.m_categories := by
  induction L generalizing s with
  | nil => simp
  | cons b L ih =>
    simp only [List.foldl_cons]
    obtain ⟨h1, h2, h3⟩ := ih (s.removeBindable b.getID)
    have hbinds : ∀ e ∈ (L.foldl (fun s b => s.removeBindable b.getID)
        (s.removeBindable b.getID)).m_binds, ∀ a ∈ e.2, a ≠ b.getID := by
      -- the lists only shrink after the first removal
      have hgen : ∀ (L : List BindableAction) (s : BindManager) (x : Str),
          (∀ e ∈ s.m_binds, ∀ a ∈ e.2, a ≠ x) →
          ∀ e ∈ (L.foldl (fun s b => s.removeBindable b.getID) s).m_binds, ∀ a ∈ e.2, a ≠ x := by
        intro L
        induction L with
        | nil => intro s x h; exact h
        | cons c L ihL =>
          intro s x h
          simp only [List.foldl_cons]
          apply ihL
          intro e he a ha
          simp only [BindManager.removeBindable, BindManager.removeAllBindsFrom,
            BindManager.stopAllRepeats, List.mem_map] at he
          obtain ⟨e0, he0, rfl⟩ := he
          exact h e0 he0 a (List.mem_of_mem_filter ha)
      apply hgen
      intro e he a ha
      simp only [BindManager.removeBindable, BindManager.removeAllBindsFrom,
        BindManager.stopAllRepeats, List.mem_map] at he
      obtain ⟨e0, _, rfl⟩ := he
      simp only [List.mem_filter, Bool.not_eq_true'] at ha
      intro hc
      have := ha.2
      simp [strEq, hc] at this
    refine ⟨?_, ?_, ?_⟩
    · intro e he
      obtain ⟨he1, he2⟩ := h1 e he
      simp only [BindManager.removeBindable, BindManager.removeAllBindsFrom,
        BindManager.stopAllRepeats, List.mem_filter, Bool.not_eq_true'] at he1
      refine ⟨he1.1, ?_⟩
      simp only [List.map_cons, List.mem_cons, not_or]
      refine ⟨?_, he2⟩
      intro hc
      have := he1.2
      simp [strEq, hc] at this
    · intro e he a ha
      simp only [List.map_cons, List.mem_cons, not_or]
      exact ⟨hbinds e he a ha, h2 e he a ha⟩
    · rw [h3]
      rfl

/-- C10: after `removeCategory(cat)` no registered action has the category
`cat` or a category below it, so `getBindablesIn(cat, true)` is empty; each
action removed this way has no binds left; and the category list contains
neither `cat` nor a category below it. -/
theorem C10_removeCategory (s : BindManager) (cat : Category) (hkeyed : s.actionsKeyed) :
    (∀ e ∈ (s.removeCategory cat).m_actions, e.2.definition.getCategory.hasParent cat = false) ∧
    (s.removeCategory cat).getBindablesIn cat true = [] ∧
    (∀ a ∈ s.getBindablesIn cat true, (s.removeCategory cat).getBindsFor a.getID = []) ∧
    (∀ c ∈ (s.removeCategory cat).m_categories, c.hasParent cat = false) ∧
    cat ∉ (s.removeCategory cat).m_categories := by
  obtain ⟨h1, h2, h3⟩ := BindManager.foldl_removeBindable
    (s.stopAllRepeats.getBindablesIn cat true) s.stopAllRepeats
  have hact : ∀ e ∈ (s.removeCategory cat).m_actions,
      e.2.definition.getCategory.hasParent cat = false := by
    intro e he
    obtain ⟨he1, he2⟩ := h1 e he
    cases hc : e.2.definition.getCategory.hasParent cat with
    | false => rfl
    | true =>
      exfalso
      apply he2
      rw [hkeyed e he1]
      apply List.mem_map_of_mem
      simp only [BindManager.getBindablesIn, if_true, List.mem_map, List.mem_filter]
      exact ⟨e, ⟨he1, hc⟩, rfl⟩
  have hcats : ∀ c ∈ (s.removeCategory cat).m_categories, c.hasParent cat = false := by
    intro c hc
    simp only [BindManager.removeCategory, List.mem_filter, Bool.not_eq_true'] at hc
    exact hc.2
  refine ⟨hact, ?_, ?_, hcats, ?_⟩
  · simp only [BindManager.getBindablesIn, if_true, List.map_eq_nil_iff, List.filter_eq_nil_iff]
    intro e he
    simp [hact e he]
  · intro a ha
    simp only [BindManager.getBindsFor, List.map_eq_nil_iff, List.filter_eq_nil_iff,
      List.any_eq_true, not_exists, not_and]
    intro e he x hx hxa
    have hxa2 : x = a.getID := (strEq_iff _ _).1 hxa
    apply h2 e he x hx
    rw [hxa2]
    exact List.mem_map_of_mem _ ha
  · intro hc
    have := hcats cat hc
    simp [Category.hasParent, isPrefixOf_self] at this

/-- Witness of C10: removing `Editor` from a manager with an action in
`Editor/Move` and an action in `Play`. -/
theorem C10_removeCategory_witness :
    managerWithEditorAction.actionsKeyed ∧
    (managerWithEditorAction.removeCategory Category.EDITOR).getBindablesIn Category.EDITOR true
      = [] ∧
    (∀ a ∈ managerWithEditorAction.getBindablesIn Category.EDITOR true,
      (managerWithEditorAction.removeCategory Category.EDITOR).getBindsFor a.getID = []) ∧
    Category.EDITOR ∉ (managerWithEditorAction.removeCategory Category.EDITOR).m_categories :=
  have h := C10_removeCategory managerWithEditorAction Category.EDITOR (by decide)
  ⟨by decide, h.2.1, h.2.2.1, h.2.2.2.2⟩

/-! ## The invariants hold in the states the manager reaches -/

theorem BindManager.bindsDistinct_addBindTo (s : BindManager) (A : Str) (b : Bind)
    (h : s.bindsDistinct) : (s.addBindTo A b).bindsDistinct :=
  mapUpdate_keys_nodup Bind.isEqual Bind.isEqual_iff b _ [] s.m_binds h

theorem BindManager.bindsDistinct_removeAllBindsFrom (s : BindManager) (A : Str)
    (h : s.bindsDistinct) : (s.removeAllBindsFrom A).bindsDistinct := by
  unfold BindManager.bindsDistinct at h ⊢
  simpa [BindManager.removeAllBindsFrom, BindManager.stopAllRepeats, Function.comp] using h

theorem BindManager.bindsDistinct_removeBindFrom (s : BindManager) (A : Str) (b : Bind)
    (h : s.bindsDistinct) : (s.removeBindFrom A b).bindsDistinct := by
  have h1 := mapUpdate_keys_nodup Bind.isEqual Bind.isEqual_iff b
    (fun l : List Str => l.filter (fun a => !(strEq a A))) [] s.m_binds h
  unfold BindManager.removeBindFrom
  simp only [BindManager.stopAllRepeats]
  split
  · exact List.Nodup.sublist (List.Sublist.map _ (List.filter_sublist _)) h1
  · exact h1

theorem BindManager.bindsDistinct_new (kc : KeyCodes) : (BindManager.new kc).bindsDistinct := by
  unfold BindManager.bindsDistinct
  have : (BindManager.new kc).m_binds = [] := rfl
  rw [this]
  exact List.nodup_nil

theorem BindManager.actionsKeyed_new (kc : KeyCodes) : (BindManager.new kc).actionsKeyed := by
  intro e he
  have : (BindManager.new kc).m_actions = [] := rfl
  rw [this] at he
  exact absurd he (List.not_mem_nil _)

theorem BindManager.actionsKeyed_removeBindable (s : BindManager) (A : Str)
    (h : s.actionsKeyed) : (s.removeBindable A).actionsKeyed := by
  intro e he
  simp only [BindManager.removeBindable, BindManager.removeAllBindsFrom,
    BindManager.stopAllRepeats, List.mem_filter] at he
  exact h e he.1

theorem BindManager.actionsKeyed_setRepeatOptionsFor (s : BindManager) (A : Str)
    (options : RepeatOptions) (h : s.actionsKeyed) :
    (s.setRepeatOptionsFor A options).actionsKeyed := by
  intro e he
  simp only [BindManager.setRepeatOptionsFor, BindManager.stopAllRepeats, List.mem_map] at he
  obtain ⟨e0, he0, rfl⟩ := he
  split
  · exact h e0 he0
  · exact h e0 he0

theorem BindManager.actionsKeyed_loadActionBinds (saved : Str → Option Json) (s : BindManager)
    (A : Str) (h : s.actionsKeyed) : (BindManager.loadActionBinds saved s A).2.actionsKeyed := by
  have hframe : ∀ binds, (BindManager.loadBindEntries s A binds).2.actionsKeyed := by
    intro binds e he
    rw [(BindManager.loadBindEntries_frame binds s A).1] at he
    exact h e he
  unfold BindManager.loadActionBinds
  simp only
  split
  · rename_i binds hbinds
    split
    · rename_i s1 h1
      have := hframe binds
      rw [h1] at this
      exact this
    · rename_i s1 h1
      have := hframe binds
      rw [h1] at this
      split
      · split
        · split
          · exact BindManager.actionsKeyed_setRepeatOptionsFor _ _ _ this
          · exact this
        · exact this
      · exact this
  · exact h

theorem BindManager.actionsKeyed_registerBindable (saved : Str → Option Json) (s : BindManager)
    (action : BindableAction) (after : Str) (h : s.actionsKeyed) :
    (s.registerBindable saved action after).2.actionsKeyed := by
  unfold BindManager.registerBindable
  simp only
  split
  · exact h
  · have hins : ∀ s1 : BindManager, s1.actionsKeyed →
        (match BindManager.loadActionBinds saved (s1.addCategory action.getCategory)
            action.getID with
          | (false, s2) =>
            (true, action.getDefaults.foldl
              (fun (s : BindManager) d => s.addBindTo action.getID d) s2)
          | (true, s2) => (true, s2)).2.actionsKeyed := by
      intro s1 hs1
      have h0 : (s1.addCategory action.getCategory).actionsKeyed := by
        intro e he
        simp only [BindManager.addCategory, (BindManager.addCategoryAux_frame _ s1 _).1] at he
        exact hs1 e he
      have h1 := BindManager.actionsKeyed_loadActionBinds saved _ action.getID h0
      split
      · rename_i s2 h2
        rw [h2] at h1
        intro e he
        simp only [(BindManager.foldl_addBindTo_frame action.getDefaults s2 action.getID).1] at he
        exact h1 e he
      · rename_i s2 h2
        rw [h2] at h1
        exact h1
    cases hix : indexOf (fun a : Str × ActionData => strEq a.1 after) s.m_actions with
    | some ix =>
      have hix2 : indexOf (fun a : Str × ActionData => strEq a.1 after)
          s.stopAllRepeats.m_actions = some ix := hix
      simp only [hix2]
      apply hins
      intro e he
      simp only [insertAt, BindManager.stopAllRepeats, List.mem_append, List.mem_cons] at he
      rcases he with he | he | he
      · exact h e (List.mem_of_mem_take he)
      · rw [he]
      · exact h e (List.mem_of_mem_drop he)
    | none =>
      have hix2 : indexOf (fun a : Str × ActionData => strEq a.1 after)
          s.stopAllRepeats.m_actions = none := hix
      simp only [hix2]
      apply hins
      intro e he
      simp only [BindManager.stopAllRepeats, List.mem_append, List.mem_singleton] at he
      rcases he with he | he
      · exact h e he
      · rw [he]

/-- C9, at the failing input: on a fresh manager, whose categories are
`Global`, `Play`, `Editor`, `addCategory("Play/Jump")` puts the new
subcategory at the end of the list, after `Editor`, and not after its parent
`Play`. -/
theorem C9_addCategory_subcategory_not_after_parent :
    (BindManager.new sampleKeyCodes).m_categories =
      [⟨"Global".toList⟩, ⟨"Play".toList⟩, ⟨"Editor".toList⟩] ∧
    ((BindManager.new sampleKeyCodes).addCategory ⟨"Play/Jump".toList⟩).m_categories =
      [⟨"Global".toList⟩, ⟨"Play".toList⟩, ⟨"Editor".toList⟩, ⟨"Play/Jump".toList⟩] := by
  decide

/-! ## Removing an action -/

theorem find_filter_of_imp {α : Type} (p q : α → Bool) (l : List α) (h : ∀ x, p x = true → q x = true) :
    (l.filter q).find? p = l.find? p := by
  induction l with
  | nil => rfl
  | cons x l ih =>
    by_cases hq : q x = true
    · simp only [List.filter_cons, hq, if_true, List.find?_cons, ih]
    · have hp : p x = false := by
        cases hpx : p x with
        | false => rfl
        | true => exact absurd (h x hpx) hq
      simp only [List.filter_cons, hq, Bool.false_eq_true, if_false, List.find?_cons, hp, ih]

theorem any_filter_ne (l : List Str) (a id : Str) (h : a ≠ id) :
    (l.filter (fun x => !(strEq x id))).any (fun x => strEq x a) = l.any (fun x => strEq x a) := by
  induction l with
  | nil => rfl
  | cons x l ih =>
    by_cases hx : x = id
    · have hxa : strEq x a = false := by
        simp only [strEq, decide_eq_false_iff_not]
        intro hc
        exact h (hc ▸ hx)
      have hxi : (!(strEq x id)) = false := by simp [strEq, hx]
      simp only [List.filter_cons, hxi, Bool.false_eq_true, if_false, List.any_cons, hxa,
        Bool.false_or, ih]
    · have hxi : (!(strEq x id)) = true := by simp [strEq, hx]
      simp only [List.filter_cons, hxi, if_true, List.any_cons, ih]

theorem BindManager.getBindsFor_removeAllBindsFrom_other (s : BindManager) (id a : Str)
    (h : a ≠ id) : (s.removeAllBindsFrom id).getBindsFor a = s.getBindsFor a := by
  simp only [BindManager.getBindsFor, BindManager.removeAllBindsFrom, BindManager.stopAllRepeats]
  induction s.m_binds with
  | nil => rfl
  | cons e l ih =>
    simp only [List.map_cons, List.filter_cons, any_filter_ne e.2 a id h]
    split
    · simp only [List.map_cons, ih]
    · exact ih

theorem BindManager.removeAllBindsFrom_of_no_binds (s : BindManager) (id : Str)
    (h : s.getBindsFor id = []) : (s.removeAllBindsFrom id).m_binds = s.m_binds := by
  simp only [BindManager.getBindsFor, List.map_eq_nil_iff, List.filter_eq_nil_iff] at h
  simp only [BindManager.removeAllBindsFrom, BindManager.stopAllRepeats]
  conv => rhs; rw [← List.map_id s.m_binds]
  apply List.map_congr_left
  intro e he
  have hno := h e he
  have hfil : e.2.filter (fun a => !(strEq a id)) = e.2 := by
    rw [List.filter_eq_self]
    intro a ha
    cases hc : strEq a id with
    | false => rfl
    | true =>
      exfalso
      apply hno
      rw [List.any_eq_true]
      exact ⟨a, ha, hc⟩
  rw [hfil]
  rfl

/-- C11, counterexample: the chord `A` is assigned to the id `jump`, which is
not a registered action; `removeBindable("jump")` takes `jump` out of the
action list of `A`, so the bind map is not as before. -/
theorem C11_unregistered_id_changes_bind_map :
    (∀ e ∈ managerWithEarlyBind.m_actions, e.1 ≠ "jump".toList) ∧
    managerWithEarlyBind.m_binds = [(bindA, ["jump".toList])] ∧
    (managerWithEarlyBind.removeBindable "jump".toList).m_binds = [(bindA, [])] ∧
    (managerWithEarlyBind.removeBindable "jump".toList).m_binds ≠ managerWithEarlyBind.m_binds := by
  decide

/-- C11, amended: after `removeBindable(id)`, `getBindable(id)` is absent and
`getBindsFor(id)` is empty; the other actions stay registered in their
previous relative order with their definitions and binds unchanged; the
category list is unchanged; if `id` is not a registered action the action
list is unchanged, and the bind map is unchanged when no bind is assigned
to `id`. -/
theorem C11_removeBindable (s : BindManager) (id : Str) :
    (s.removeBindable id).getBindable id = none ∧
    (s.removeBindable id).getBindsFor id = [] ∧
    (s.removeBindable id).m_actions = s.m_actions.filter (fun e => !(strEq e.1 id)) ∧
    List.Sublist (s.removeBindable id).getAllBindables s.getAllBindables ∧
    (∀ a, a ≠ id →
      (s.removeBindable id).getBindable a = s.getBindable a ∧
      (s.removeBindable id).getBindsFor a = s.getBindsFor a) ∧
    (s.removeBindable id).m_categories = s.m_categories ∧
    ((∀ e ∈ s.m_actions, e.1 ≠ id) → (s.removeBindable id).m_actions = s.m_actions) ∧
    ((∀ e ∈ s.m_actions, e.1 ≠ id) → s.getBindsFor id = [] →
      (s.removeBindable id).m_binds = s.m_binds) := by
  have hact : (s.removeBindable id).m_actions = s.m_actions.filter (fun e => !(strEq e.1 id)) := rfl
  refine ⟨?_, ?_, hact, ?_, ?_, rfl, ?_, ?_⟩
  · simp only [BindManager.getBindable, hact, Option.map_eq_none', List.find?_eq_none,
      List.mem_filter]
    intro e he
    simpa using he.2
  · exact BindManager.getBindsFor_removeAllBindsFrom s.stopAllRepeats id
  · simp only [BindManager.getAllBindables, hact]
    exact List.Sublist.map _ (List.filter_sublist _)
  · intro a ha
    constructor
    · simp only [BindManager.getBindable, hact]
      rw [find_filter_of_imp]
      intro x hx
      have hxa : x.1 = a := (strEq_iff _ _).1 hx
      simp [strEq, hxa, ha]
    · exact BindManager.getBindsFor_removeAllBindsFrom_other s.stopAllRepeats id a ha
  · intro hnot
    rw [hact, List.filter_eq_self]
    intro e he
    simp [strEq, hnot e he]
  · intro _ hfree
    exact BindManager.removeAllBindsFrom_of_no_binds s.stopAllRepeats id hfree

/-- Witness of C11: removing `run` from a manager on which `jump` and `run`
are registered and nothing is bound. -/
theorem C11_removeBindable_witness :
    (((BindManager.new sampleKeyCodes).registerBindable nothingSaved
      (sampleAction "jump".toList []) []).2.removeBindable "run".toList).m_actions =
      ((BindManager.new sampleKeyCodes).registerBindable nothingSaved
        (sampleAction "jump".toList []) []).2.m_actions ∧
    (((BindManager.new sampleKeyCodes).registerBindable nothingSaved
      (sampleAction "jump".toList []) []).2.removeBindable "run".toList).m_binds =
      ((BindManager.new sampleKeyCodes).registerBindable nothingSaved
        (sampleAction "jump".toList []) []).2.m_binds :=
  have h := C11_removeBindable ((BindManager.new sampleKeyCodes).registerBindable nothingSaved
    (sampleAction "jump".toList []) []).2 "run".toList
  ⟨h.2.2.2.2.2.2.1 (by decide), h.2.2.2.2.2.2.2 (by decide) (by decide)⟩

/-! ## Devices: detaching and attaching -/

/-- `detachDevice` of the embedding runs `detachLoopBody` for every action of
every bind of the device, over the bind map as it is before the loops. -/
theorem BindManager.detachDevice_eq_foldl (s : BindManager) (d : Device) :
    s.detachDevice d =
      { (s.m_binds.foldl (fun t e =>
          if e.1.getDeviceID = d.getID then
            e.2.foldl (fun t action => t.detachLoopBody d e.1 action) t
          else t) s) with
        m_devices := mapErase strEq (s.m_binds.foldl (fun t e =>
          if e.1.getDeviceID = d.getID then
            e.2.foldl (fun t action => t.detachLoopBody d e.1 action) t
          else t) s).m_devices d.getID } := rfl

/-- C12, at the failing input: the chord `A` is assigned to `jump` and to
`run`. The first pass of the inner loop of `detachDevice`, for `jump`,
leaves the action list of `A` in the bind map with the one element `run`,
while the loop is walking that list with its end fixed at two elements;
with `jump` as the only action, the pass erases the entry of `A` from the
bind map that the outer loop is walking. -/
theorem C12_detach_loop_edits_walked_containers :
    mapFind Bind.isEqual managerWithSharedBind.m_binds bindA
      = some ["jump".toList, "run".toList] ∧
    mapFind Bind.isEqual (managerWithSharedBind.detachLoopBody (KeyboardDevice sampleKeyCodes)
      bindA "jump".toList).m_binds bindA = some ["run".toList] ∧
    mapContains Bind.isEqual managerWithEarlyBind.m_binds bindA = true ∧
    mapContains Bind.isEqual (managerWithEarlyBind.detachLoopBody (KeyboardDevice sampleKeyCodes)
      bindA "jump".toList).m_binds bindA = false := by
  decide


theorem foldl_preserves {σ α : Type} (P : σ → Prop) (f : σ → α → σ) (l : List α) (s : σ)
    (hf : ∀ s x, P s → P (f s x)) (hs : P s) : P (l.foldl f s) := by
  induction l generalizing s with
  | nil => exact hs
  | cons x l ih => exact ih (f s x) (hf s x hs)

theorem foldl_establishes {σ α : Type} (P : σ → Prop) (f : σ → α → σ) (l : List α) (s : σ)
    (x : α) (hx : x ∈ l) (hpres : ∀ s y, P s → P (f s y)) (hest : ∀ s, P (f s x)) :
    P (l.foldl f s) := by
  induction l generalizing s with
  | nil => exact absurd hx (List.not_mem_nil _)
  | cons y l ih =>
    rcases List.mem_cons.1 hx with h | h
    · subst h
      exact foldl_preserves P f l _ hpres (hest s)
    · exact ih (f s y) h

theorem mapUpdate_filter_other {κ ν : Type} (eqv : κ → κ → Bool) (hrefl : ∀ a, eqv a a = true)
    (k : κ) (f : ν → ν) (d : ν) (m : List (κ × ν)) :
    (mapUpdate eqv k f d m).filter (fun e => !(eqv e.1 k)) =
      m.filter (fun e => !(eqv e.1 k)) := by
  induction m with
  | nil => simp [mapUpdate, hrefl]
  | cons e rest ih =>
    by_cases h : eqv e.1 k = true
    · simp only [mapUpdate]
      rw [if_pos h]
      simp only [List.filter_cons, h, Bool.not_true, Bool.false_eq_true, if_false]
    · simp only [Bool.not_eq_true] at h
      simp only [mapUpdate, h, Bool.false_eq_true, if_false, List.filter_cons, Bool.not_false,
        if_true, ih]

theorem mapFind_mapInsert_mapErase {κ ν : Type} (eqv : κ → κ → Bool)
    (hrefl : ∀ a, eqv a a = true) (k : κ) (v : ν) (m : List (κ × ν)) :
    mapFind eqv (mapInsert eqv (mapErase eqv m k) k v) k = some v := by
  unfold mapInsert
  rw [mapContains_mapErase]
  simp only [Bool.false_eq_true, if_false, mapFind]
  rw [append_find (fun e : κ × ν => eqv e.1 k) (mapErase eqv m k) (k, v)]
  · rfl
  · intro e he
    simp only [mapErase, List.mem_filter, Bool.not_eq_true'] at he
    exact he.2
  · exact hrefl k

theorem BindManager.mem_pendingFor (s : BindManager) (id A data : Str) :
    data ∈ s.pendingFor id A ↔
      ∃ e ∈ s.m_devicelessBinds, e.1 = id ∧ ∃ ab ∈ e.2, ab.1 = A ∧ data ∈ ab.2 := by
  simp only [BindManager.pendingFor, List.mem_flatMap, List.mem_filter, strEq_iff]
  constructor
  · rintro ⟨e, ⟨he, hid⟩, ab, ⟨hab, hA⟩, hd⟩
    exact ⟨e, he, hid, ab, hab, hA, hd⟩
  · rintro ⟨e, he, hid, ab, hab, hA, hd⟩
    exact ⟨e, ⟨he, hid⟩, ab, ⟨hab, hA⟩, hd⟩

theorem BindManager.pushDeviceless_devicelessBinds (s : BindManager) (id A data : Str) :
    (s.pushDeviceless id A data).m_devicelessBinds =
      mapUpdate strEq id (fun actions => mapUpdate strEq A (fun l => l ++ [data]) [] actions) []
        s.m_devicelessBinds := rfl

theorem BindManager.pendingFor_pushDeviceless_mono (s : BindManager) (id A data id2 A2 data2 : Str)
    (h : data ∈ s.pendingFor id A) : data ∈ (s.pushDeviceless id2 A2 data2).pendingFor id A := by
  rw [BindManager.mem_pendingFor] at h ⊢
  obtain ⟨e, he, hid, ab, hab, hA, hd⟩ := h
  rw [BindManager.pushDeviceless_devicelessBinds]
  rcases mapUpdate_mem_of_mem strEq id2
    (fun actions => mapUpdate strEq A2 (fun l => l ++ [data2]) [] actions) []
    s.m_devicelessBinds e he with h1 | h1
  · exact ⟨e, h1, hid, ab, hab, hA, hd⟩
  · refine ⟨_, h1, hid, ?_⟩
    rcases mapUpdate_mem_of_mem strEq A2 (fun l : List Str => l ++ [data2]) [] e.2 ab hab
      with h2 | h2
    · exact ⟨ab, h2, hA, hd⟩
    · exact ⟨_, h2, hA, List.mem_append_left _ hd⟩

theorem BindManager.pendingFor_pushDeviceless_self (s : BindManager) (id A data : Str) :
    data ∈ (s.pushDeviceless id A data).pendingFor id A := by
  rw [BindManager.mem_pendingFor, BindManager.pushDeviceless_devicelessBinds]
  obtain ⟨v, hv⟩ := mapUpdate_has_key strEq strEq_iff id
    (fun actions => mapUpdate strEq A (fun l => l ++ [data]) [] actions) [] s.m_devicelessBinds
  obtain ⟨w, hw⟩ := mapUpdate_has_key strEq strEq_iff A (fun l : List Str => l ++ [data]) [] v
  exact ⟨_, hv, rfl, _, hw, rfl, by simp⟩

theorem BindManager.removeBindFrom_frame (s : BindManager) (A : Str) (b : Bind) :
    (s.removeBindFrom A b).m_devicelessBinds = s.m_devicelessBinds ∧
    (s.removeBindFrom A b).m_devices = s.m_devices ∧
    (s.removeBindFrom A b).m_actions = s.m_actions ∧
    (s.removeBindFrom A b).m_categories = s.m_categories := by
  unfold BindManager.removeBindFrom
  simp only
  split <;> exact ⟨rfl, rfl, rfl, rfl⟩

theorem BindManager.pendingFor_congr (s t : BindManager) (id A : Str)
    (h : t.m_devicelessBinds = s.m_devicelessBinds) : t.pendingFor id A = s.pendingFor id A := by
  simp only [BindManager.pendingFor, h]

/-- What `detachDevice` leaves alone: the device map loses only the device,
pending strings of other devices are untouched, pending strings are only
added, and actions and categories are unchanged. -/
theorem BindManager.detachDevice_frame (s : BindManager) (d : Device) :
    (s.detachDevice d).m_devices = mapErase strEq s.m_devices d.getID ∧
    (s.detachDevice d).m_devicelessBinds.filter (fun e => !(strEq e.1 d.getID)) =
      s.m_devicelessBinds.filter (fun e => !(strEq e.1 d.getID)) ∧
    (∀ id A data, data ∈ s.pendingFor id A → data ∈ (s.detachDevice d).pendingFor id A) ∧
    (s.detachDevice d).m_actions = s.m_actions ∧
    (s.detachDevice d).m_categories = s.m_categories := by
  let P : BindManager → Prop := fun t =>
    t.m_devices = s.m_devices ∧
    t.m_devicelessBinds.filter (fun e => !(strEq e.1 d.getID)) =
      s.m_devicelessBinds.filter (fun e => !(strEq e.1 d.getID)) ∧
    (∀ id A data, data ∈ s.pendingFor id A → data ∈ t.pendingFor id A) ∧
    t.m_actions = s.m_actions ∧ t.m_categories = s.m_categories
  have hstep : ∀ (bind : Bind) (t : BindManager) (action : Str), P t →
      P ((t.pushDeviceless d.getID action (d.saveBind bind)).removeBindFrom action bind) := by
    intro bind t action ht
    obtain ⟨h1, h2, h3, h4, h5⟩ := ht
    have hf := BindManager.removeBindFrom_frame
      (t.pushDeviceless d.getID action (d.saveBind bind)) action bind
    refine ⟨hf.2.1.trans h1, ?_, ?_, hf.2.2.1.trans h4, hf.2.2.2.trans h5⟩
    · rw [hf.1, BindManager.pushDeviceless_devicelessBinds,
        mapUpdate_filter_other strEq (fun a => (strEq_iff a a).2 rfl)]
      exact h2
    · intro id A data hd
      rw [BindManager.pendingFor_congr _ _ id A hf.1]
      exact BindManager.pendingFor_pushDeviceless_mono t id A data _ _ _ (h3 id A data hd)
  have hfold : P (s.m_binds.foldl (fun s e =>
      if e.1.getDeviceID = d.getID then
        e.2.foldl (fun s action =>
          (s.pushDeviceless d.getID action (d.saveBind e.1)).removeBindFrom action e.1) s
      else s) s) := by
    apply foldl_preserves P
    · intro t e ht
      split
      · apply foldl_preserves P
        · intro t2 action ht2
          exact hstep e.1 t2 action ht2
        · exact ht
      · exact ht
    · exact ⟨rfl, rfl, fun _ _ _ h => h, rfl, rfl⟩
  obtain ⟨h1, h2, h3, h4, h5⟩ := hfold
  refine ⟨?_, h2, h3, h4, h5⟩
  show mapErase strEq _ d.getID = _
  rw [h1]

theorem BindManager.mem_getBindsFor_addBindTo_mono (s : BindManager) (A A2 : Str) (b b2 : Bind)
    (h : b ∈ s.getBindsFor A) : b ∈ (s.addBindTo A2 b2).getBindsFor A := by
  rw [BindManager.mem_getBindsFor] at h ⊢
  obtain ⟨l, hl, hA⟩ := h
  rcases mapUpdate_mem_of_mem Bind.isEqual b2 (fun l : List Str => l ++ [A2]) [] s.m_binds
    (b, l) hl with h1 | h1
  · exact ⟨l, h1, hA⟩
  · exact ⟨l ++ [A2], h1, List.mem_append_left _ hA⟩

theorem map_filter_of_fixed {α : Type} (g : α → α) (q : α → Bool) (l : List α)
    (hq : ∀ e, q (g e) = q e) (hfix : ∀ e, q e = true → g e = e) :
    (l.map g).filter q = l.filter q := by
  induction l with
  | nil => rfl
  | cons e l ih =>
    simp only [List.map_cons, List.filter_cons, hq, ih]
    split
    · rename_i h
      rw [hfix e h]
    · rfl

/-- What `attachDevice(d)` does on a manager where no bind of the device is
assigned to an action, so that the `detachDevice` call it starts with removes
nothing: afterwards `d` is the device registered under `d.getID()`; every
pending string stored under `d.getID()` that `d.loadBind` decodes is a bind
of its action; every list of pending strings under `d.getID()` is empty; and
the pending strings of the other device ids are as before. -/
theorem BindManager.attachDevice_resolves_pending (s : BindManager) (d : Device)
    (_hsafe : ∀ e ∈ s.m_binds, e.1.getDeviceID = d.getID → e.2 = []) :
    mapFind strEq (s.attachDevice d).m_devices d.getID = some d ∧
    (∀ A data b, data ∈ s.pendingFor d.getID A → d.loadBind data = some b →
      ∃ r ∈ (s.attachDevice d).getBindsFor A, r.isEqual b = true) ∧
    (∀ e ∈ (s.attachDevice d).m_devicelessBinds, e.1 = d.getID → ∀ ab ∈ e.2, ab.2 = []) ∧
    (∀ A, (s.attachDevice d).pendingFor d.getID A = []) ∧
    (s.attachDevice d).m_devicelessBinds.filter (fun e => !(strEq e.1 d.getID)) =
      s.m_devicelessBinds.filter (fun e => !(strEq e.1 d.getID)) := by
  obtain ⟨hd1, hd2, hd3, _, _⟩ := BindManager.detachDevice_frame s d
  -- the manager with the device registered, before the pending strings are resolved
  let s2 : BindManager :=
    { s.detachDevice d with
      m_devices := mapInsert strEq (s.detachDevice d).m_devices d.getID d }
  let f3 : Str → BindManager → Str → BindManager := fun action t data =>
    match d.loadBind data with
    | some nbind => t.addBindTo action nbind
    | none => t
  let f2 : BindManager → Str × List Str → BindManager := fun t ab => ab.2.foldl (f3 ab.1) t
  let f1 : BindManager → Str × DevicelessActions → BindManager := fun t e =>
    if e.1 ≠ d.getID then t else e.2.foldl f2 t
  let g : Str × DevicelessActions → Str × DevicelessActions := fun e =>
    if e.1 ≠ d.getID then e else (e.1, e.2.map (fun ab => (ab.1, [])))
  let s3 : BindManager := s2.m_devicelessBinds.foldl f1 s2
  have hattach : s.attachDevice d =
      { s3 with m_devicelessBinds := s3.m_devicelessBinds.map g } := rfl
  -- the loops over the pending strings only add binds
  have hframe3 : ∀ (Q : BindManager → Prop),
      (∀ t A b, Q t → Q (t.addBindTo A b)) → ∀ action t data, Q t → Q (f3 action t data) := by
    intro Q hQ action t data ht
    show Q (match d.loadBind data with
      | some nbind => t.addBindTo action nbind
      | none => t)
    split
    · exact hQ _ _ _ ht
    · exact ht
  have hframe1 : ∀ (Q : BindManager → Prop),
      (∀ t A b, Q t → Q (t.addBindTo A b)) → ∀ t e, Q t → Q (f1 t e) := by
    intro Q hQ t e ht
    show Q (if e.1 ≠ d.getID then t else e.2.foldl f2 t)
    split
    · exact ht
    · apply foldl_preserves Q
      · intro t2 ab ht2
        exact foldl_preserves Q (f3 ab.1) ab.2 t2 (fun t3 data h3 => hframe3 Q hQ ab.1 t3 data h3) ht2
      · exact ht
  have hs3 : s3.m_devicelessBinds = s2.m_devicelessBinds ∧ s3.m_devices = s2.m_devices :=
    foldl_preserves
      (fun t => t.m_devicelessBinds = s2.m_devicelessBinds ∧ t.m_devices = s2.m_devices) f1 _ s2
      (fun t e ht => hframe1
        (fun t => t.m_devicelessBinds = s2.m_devicelessBinds ∧ t.m_devices = s2.m_devices)
        (fun t A b h => h) t e ht) ⟨rfl, rfl⟩
  have hs2dl : s2.m_devicelessBinds = (s.detachDevice d).m_devicelessBinds := rfl
  refine ⟨?_, ?_, ?_, ?_, ?_⟩
  · rw [hattach]
    show mapFind strEq s3.m_devices d.getID = some d
    rw [hs3.2]
    show mapFind strEq (mapInsert strEq (s.detachDevice d).m_devices d.getID d) d.getID = some d
    rw [hd1]
    exact mapFind_mapInsert_mapErase strEq (fun a => (strEq_iff a a).2 rfl) _ _ _
  · intro A data b hpend hload
    refine ⟨b, ?_, (Bind.isEqual_iff _ _).2 rfl⟩
    have hpend1 := hd3 _ _ _ hpend
    rw [BindManager.mem_pendingFor] at hpend1
    obtain ⟨e, he, hid, ab, hab, hA, hdata⟩ := hpend1
    rw [hattach]
    show b ∈ s3.getBindsFor A
    have hmono : ∀ (t : BindManager) (A2 : Str) (b2 : Bind),
        b ∈ t.getBindsFor A → b ∈ (t.addBindTo A2 b2).getBindsFor A :=
      fun t A2 b2 h => BindManager.mem_getBindsFor_addBindTo_mono t A A2 b b2 h
    apply foldl_establishes (fun t => b ∈ t.getBindsFor A) f1 _ s2 e (hs2dl ▸ he)
    · intro t e2 ht
      exact hframe1 (fun t => b ∈ t.getBindsFor A) hmono t e2 ht
    · intro t
      show b ∈ (if e.1 ≠ d.getID then t else e.2.foldl f2 t).getBindsFor A
      rw [if_neg (not_not.2 hid)]
      apply foldl_establishes (fun t => b ∈ t.getBindsFor A) f2 _ t ab hab
      · intro t2 ab2 ht2
        exact foldl_preserves (fun t => b ∈ t.getBindsFor A) (f3 ab2.1) ab2.2 t2
          (fun t3 data3 h3 => hframe3 (fun t => b ∈ t.getBindsFor A) hmono ab2.1 t3 data3 h3) ht2
      · intro t2
        apply foldl_establishes (fun t => b ∈ t.getBindsFor A) (f3 ab.1) _ t2 data hdata
        · intro t3 data3 h3
          exact hframe3 (fun t => b ∈ t.getBindsFor A) hmono ab.1 t3 data3 h3
        · intro t3
          show b ∈ (match d.loadBind data with
            | some nbind => t3.addBindTo ab.1 nbind
            | none => t3).getBindsFor A
          rw [hload, hA]
          exact (BindManager.mem_getBindsFor_addBindTo t3 A b b).2 (Or.inr rfl)
  · intro e he hid ab hab
    rw [hattach] at he
    simp only [List.mem_map] at he
    obtain ⟨e0, _, rfl⟩ := he
    by_cases h0 : e0.1 ≠ d.getID
    · have : g e0 = e0 := if_pos h0
      rw [this] at hid
      exact absurd hid h0
    · have : g e0 = (e0.1, e0.2.map (fun ab => (ab.1, []))) := if_neg h0
      rw [this] at hab
      simp only [List.mem_map] at hab
      obtain ⟨ab0, _, rfl⟩ := hab
      rfl
  · intro A
    rw [List.eq_nil_iff_forall_not_mem]
    intro data hdata
    rw [BindManager.mem_pendingFor, hattach] at hdata
    obtain ⟨e, he, hid, ab, hab, _, hda⟩ := hdata
    simp only [List.mem_map] at he
    obtain ⟨e0, _, rfl⟩ := he
    by_cases h0 : e0.1 ≠ d.getID
    · have : g e0 = e0 := if_pos h0
      rw [this] at hid
      exact absurd hid h0
    · have : g e0 = (e0.1, e0.2.map (fun ab => (ab.1, []))) := if_neg h0
      rw [this] at hab
      simp only [List.mem_map] at hab
      obtain ⟨ab0, _, rfl⟩ := hab
      exact absurd hda (List.not_mem_nil _)
  · rw [hattach]
    show (s3.m_devicelessBinds.map g).filter (fun e => !(strEq e.1 d.getID)) = _
    rw [map_filter_of_fixed g, hs3.1, hs2dl, hd2]
    · intro e
      by_cases h0 : e.1 ≠ d.getID
      · have : g e = e := if_pos h0
        rw [this]
      · have : g e = (e.1, e.2.map (fun ab => (ab.1, []))) := if_neg h0
        rw [this]
    · intro e he
      have h0 : e.1 ≠ d.getID := by
        intro hc
        simp [strEq, hc] at he
      exact if_pos h0

/-- C13, at the failing input: the keyboard device is attached and the chord
`Ctrl+B` of the keyboard is assigned to `jump`, in the one entry of the bind
map. `attachDevice` of the keyboard device starts with `detachDevice`, whose
loops come to the action `jump` of `Ctrl+B`; the pass of the loop body for it
erases the entry of `Ctrl+B` from the bind map, the entry on which the outer
loop stands and whose action list the inner loop is walking. -/
theorem C13_reattach_erases_walked_entry :
    mapContains strEq managerWithLiveBind.m_devices (KeyboardDevice sampleKeyCodes).getID = true ∧
    managerWithLiveBind.m_binds = [(bindCtrlB, ["jump".toList])] ∧
    bindCtrlB.getDeviceID = (KeyboardDevice sampleKeyCodes).getID ∧
    (managerWithLiveBind.detachLoopBody (KeyboardDevice sampleKeyCodes) bindCtrlB
      "jump".toList).m_binds = [] := by
  decide


/-! ## Save strings -/

theorem keyboard_loadBind_saveBind (kc : KeyCodes) (key : Int) (modifiers : Nat)
    (b : Keybind) (hkey : isInt32 key) (hmod : modifiers < 4294967296)
    (hcreate : Keybind.create kc key modifiers = some b) :
    KeyboardDevice.loadBind kc (KeyboardDevice.saveBind (Bind.keybind b)) = some (Bind.keybind b) := by
  have hb : b = { m_key := key, m_modifiers := modifiers } := by
    unfold Keybind.create at hcreate
    split at hcreate
    · exact absurd hcreate (by simp)
    · exact (Option.some.inj hcreate).symm
  have hm := int_modifier_roundtrip modifiers hmod
  have h1 : readInt (to_string (modifierToInt modifiers) ++ ('|' :: to_string key))
      = some (modifierToInt modifiers, '|' :: to_string key) :=
    readInt_to_string _ _ hm.2 (by
      intro c r hcr
      simp only [List.cons.injEq] at hcr
      rw [← hcr.1]
      decide)
  have h2 : readInt (to_string key) = some (key, []) := by
    have := readInt_to_string key [] hkey (by intro c r hcr; exact absurd hcr (by simp))
    simpa using this
  subst hb
  simp only [KeyboardDevice.saveBind, Keybind.getModifiers, Keybind.getKey, String.toList,
    List.append_assoc, List.singleton_append, KeyboardDevice.loadBind, h1, h2, hm.1, hcreate,
    Option.map_some']

theorem controller_loadBind_saveBind (kc : KeyCodes) (button : Int) (b : ControllerBind)
    (hbutton : isInt32 button) (hcreate : ControllerBind.create kc button = some b) :
    ControllerDevice.loadBind kc (ControllerDevice.saveBind (Bind.controller b))
      = some (Bind.controller b) := by
  have hb : b = { m_button := button } := by
    unfold ControllerBind.create at hcreate
    split at hcreate
    · exact absurd hcreate (by simp)
    · exact (Option.some.inj hcreate).symm
  have h2 : readInt (to_string button) = some (button, []) := by
    have := readInt_to_string button [] hbutton (by intro c r hcr; exact absurd hcr (by simp))
    simpa using this
  subst hb
  simp only [ControllerDevice.saveBind, ControllerBind.getButton, ControllerDevice.loadBind, h2,
    hcreate, Option.map_some']

theorem parseBindSave_of_colon (id payload : Str) (hid : ':' ∉ id) :
    BindManager.parseBindSave (id ++ ':' :: payload) = (id, payload) := by
  have htake : ∀ l : Str, ':' ∉ l →
      (l ++ ':' :: payload).takeWhile (fun c => decide (c ≠ ':')) = l ∧
      (l ++ ':' :: payload).dropWhile (fun c => decide (c ≠ ':')) = ':' :: payload := by
    intro l
    induction l with
    | nil => intro _; simp [List.takeWhile, List.dropWhile]
    | cons c l ih =>
      intro hl
      have hc : c ≠ ':' := fun h => hl (h ▸ List.mem_cons_self _ _)
      have hl2 : ':' ∉ l := fun h => hl (List.mem_cons_of_mem _ h)
      have := ih hl2
      have hdc : decide (c ≠ ':') = true := by simp [hc]
      simp only [List.cons_append, List.takeWhile, List.dropWhile, hdc]
      exact ⟨congrArg (List.cons c) this.1, this.2⟩
  have hcont : (id ++ ':' :: payload).contains ':' = true := by simp
  unfold BindManager.parseBindSave
  rw [if_pos hcont, (htake id hid).1, (htake id hid).2]
  rfl

theorem parseBindSave_split (str : Str) (h : ':' ∈ str) :
    ∃ id payload, str = id ++ ':' :: payload ∧ ':' ∉ id ∧
      BindManager.parseBindSave str = (id, payload) := by
  have hsplit : ∀ l : Str, ':' ∈ l → ∃ id payload, l = id ++ ':' :: payload ∧ ':' ∉ id := by
    intro l
    induction l with
    | nil => intro hl; exact absurd hl (List.not_mem_nil _)
    | cons c l ih =>
      intro hl
      by_cases hc : c = ':'
      · exact ⟨[], l, by simp [hc], List.not_mem_nil _⟩
      · rcases List.mem_cons.1 hl with h1 | h1
        · exact absurd h1.symm hc
        · obtain ⟨id, payload, hl2, hid⟩ := ih h1
          refine ⟨c :: id, payload, by simp [hl2], ?_⟩
          intro hm
          rcases List.mem_cons.1 hm with h2 | h2
          · exact hc h2.symm
          · exact hid h2
  obtain ⟨id, payload, hstr, hid⟩ := hsplit str h
  exact ⟨id, payload, hstr, hid, by rw [hstr]; exact parseBindSave_of_colon id payload hid⟩

theorem mapContains_of_mapFind {κ ν : Type} (eqv : κ → κ → Bool) (m : List (κ × ν)) (k : κ)
    (v : ν) (h : mapFind eqv m k = some v) : mapContains eqv m k = true := by
  induction m with
  | nil => simp [mapFind] at h
  | cons e m ih =>
    by_cases he : eqv e.1 k = true
    · simp [mapContains, he]
    · simp only [Bool.not_eq_true] at he
      simp only [mapFind, List.find?_cons, he] at h
      have := ih h
      simp only [mapContains, List.any_cons, he, Bool.false_or]
      exact this

/-- C14: for a bind of an attached built-in device, `getBindSaveString` is
the device id, a `':'` and the payload of the device's `saveBind`, and
`loadBindFromSaveString` gives the bind back; `parseBindSave` splits at the
first `':'` and gives two empty strings when there is none;
`loadBindFromSaveString` gives no bind for a device id that is not attached,
and `getBindSaveString` the empty string for a bind whose device is not
attached. -/
theorem C14_bind_save_string (kc : KeyCodes) (s : BindManager) :
    (∀ (key : Int) (modifiers : Nat) (b : Keybind),
      isInt32 key → modifiers < 4294967296 → Keybind.create kc key modifiers = some b →
      mapFind strEq s.m_devices keyboardID = some (KeyboardDevice kc) →
      s.getBindSaveString (Bind.keybind b) =
        keyboardID ++ ':' :: (KeyboardDevice kc).saveBind (Bind.keybind b) ∧
      ∃ r, s.loadBindFromSaveString (s.getBindSaveString (Bind.keybind b)) = some r ∧
        r.isEqual (Bind.keybind b) = true) ∧
    (∀ (button : Int) (b : ControllerBind),
      isInt32 button → ControllerBind.create kc button = some b →
      mapFind strEq s.m_devices controllerID = some (ControllerDevice kc) →
      s.getBindSaveString (Bind.controller b) =
        controllerID ++ ':' :: (ControllerDevice kc).saveBind (Bind.controller b) ∧
      ∃ r, s.loadBindFromSaveString (s.getBindSaveString (Bind.controller b)) = some r ∧
        r.isEqual (Bind.controller b) = true) ∧
    (∀ str : Str, ':' ∈ str →
      ∃ id payload, str = id ++ ':' :: payload ∧ ':' ∉ id ∧
        BindManager.parseBindSave str = (id, payload)) ∧
    (∀ str : Str, ':' ∉ str → BindManager.parseBindSave str = ([], [])) ∧
    (∀ data : Str, mapContains strEq s.m_devices (BindManager.parseBindSave data).1 = false →
      s.loadBindFromSaveString data = none) ∧
    (∀ b : Bind, mapContains strEq s.m_devices b.getDeviceID = false →
      s.getBindSaveString b = []) := by
  refine ⟨?_, ?_, parseBindSave_split, ?_, ?_, ?_⟩
  · intro key modifiers b hkey hmod hcreate hdev
    have hsave : s.getBindSaveString (Bind.keybind b) =
        keyboardID ++ ':' :: (KeyboardDevice kc).saveBind (Bind.keybind b) := by
      unfold BindManager.getBindSaveString
      simp only [Bind.getDeviceID, mapContains_of_mapFind strEq _ _ _ hdev, if_true, hdev]
      simp
    refine ⟨hsave, Bind.keybind b, ?_, (Bind.isEqual_iff _ _).2 rfl⟩
    rw [hsave]
    unfold BindManager.loadBindFromSaveString
    simp only [parseBindSave_of_colon keyboardID _ (by decide), hdev]
    exact keyboard_loadBind_saveBind kc key modifiers b hkey hmod hcreate
  · intro button b hbutton hcreate hdev
    have hsave : s.getBindSaveString (Bind.controller b) =
        controllerID ++ ':' :: (ControllerDevice kc).saveBind (Bind.controller b) := by
      unfold BindManager.getBindSaveString
      simp only [Bind.getDeviceID, mapContains_of_mapFind strEq _ _ _ hdev, if_true, hdev]
      simp
    refine ⟨hsave, Bind.controller b, ?_, (Bind.isEqual_iff _ _).2 rfl⟩
    rw [hsave]
    unfold BindManager.loadBindFromSaveString
    simp only [parseBindSave_of_colon controllerID _ (by decide), hdev]
    exact controller_loadBind_saveBind kc button b hbutton hcreate
  · intro str hstr
    unfold BindManager.parseBindSave
    rw [if_neg]
    simpa using hstr
  · intro data hdev
    unfold BindManager.loadBindFromSaveString
    simp only [mapFind_eq_none_of_not_contains strEq _ _ hdev]
  · intro b hdev
    unfold BindManager.getBindSaveString
    simp only [hdev, Bool.false_eq_true, if_false]

/-- Witness of C14: the chord `A` on a fresh manager, to which the keyboard
device is attached. -/
theorem C14_bind_save_string_witness :
    (BindManager.new sampleKeyCodes).getBindSaveString bindA =
      keyboardID ++ ':' :: (KeyboardDevice sampleKeyCodes).saveBind bindA ∧
    ∃ r, (BindManager.new sampleKeyCodes).loadBindFromSaveString
        ((BindManager.new sampleKeyCodes).getBindSaveString bindA) = some r ∧
      r.isEqual bindA = true :=
  (C14_bind_save_string sampleKeyCodes (BindManager.new sampleKeyCodes)).1 65 0 ⟨65, 0⟩
    (by decide) (by decide) (by decide) rfl


/-! ## Loading persisted binds -/

theorem foldl_establishes_inv {σ α : Type} (I P : σ → Prop) (f : σ → α → σ) (l : List α) (s : σ)
    (x : α) (hx : x ∈ l) (hI : ∀ s y, I s → I (f s y)) (hpres : ∀ s y, I s → P s → P (f s y))
    (hest : ∀ s, I s → P (f s x)) (hs : I s) : P (l.foldl f s) := by
  induction l generalizing s with
  | nil => exact absurd hx (List.not_mem_nil _)
  | cons y l ih =>
    rcases List.mem_cons.1 hx with h | h
    · subst h
      have := foldl_preserves (fun t => I t ∧ P t) f l (f s x)
        (fun t y ht => ⟨hI t y ht.1, hpres t y ht.1 ht.2⟩) ⟨hI s x hs, hest s hs⟩
      exact this.2
    · exact ih (f s y) h (hI s y hs)

theorem BindManager.handleSavedBind_frame (s : BindManager) (A data : Str) :
    (s.handleSavedBind A data).m_devices = s.m_devices ∧
    (s.handleSavedBind A data).m_actions = s.m_actions ∧
    (s.handleSavedBind A data).m_categories = s.m_categories := by
  unfold BindManager.handleSavedBind
  split
  · exact ⟨rfl, rfl, rfl⟩
  · split <;> exact ⟨rfl, rfl, rfl⟩

theorem BindManager.loadBindFromSaveString_congr (s t : BindManager) (data : Str)
    (h : t.m_devices = s.m_devices) :
    t.loadBindFromSaveString data = s.loadBindFromSaveString data := by
  simp only [BindManager.loadBindFromSaveString, h]

/-- The loop of `loadActionBinds` handles the strings at the front of the
array one by one and stops at the first entry that is not a string. -/
theorem BindManager.loadBindEntries_eq (binds : List Json) (s : BindManager) (A : Str) :
    BindManager.loadBindEntries s A binds =
      (allStrings binds, (leadingStrings binds).foldl (fun t data => t.handleSavedBind A data) s) := by
  induction binds generalizing s with
  | nil => rfl
  | cons j rest ih =>
    cases j with
    | str data =>
      have hstep : BindManager.loadBindEntries s A (Json.str data :: rest) =
          BindManager.loadBindEntries (s.handleSavedBind A data) A rest := by
        rw [BindManager.loadBindEntries]
        unfold BindManager.handleSavedBind
        cases hl : s.loadBindFromSaveString data with
        | some b => rfl
        | none =>
          simp only
          by_cases hid : (BindManager.parseBindSave data).1 = []
          · simp [hid]
          · have hlen : (BindManager.parseBindSave data).1.length ≠ 0 := by
              intro hc
              exact hid (List.length_eq_zero.1 hc)
            simp [hid, hlen]
      rw [hstep, ih]
      rfl
    | null => rfl
    | bool b => rfl
    | int i => rfl
    | arr a => rfl
    | obj o => rfl

theorem BindManager.handleSavedBind_pending_mono (s : BindManager) (A data id A2 data2 : Str)
    (h : data2 ∈ s.pendingFor id A2) : data2 ∈ (s.handleSavedBind A data).pendingFor id A2 := by
  unfold BindManager.handleSavedBind
  split
  · exact h
  · split
    · exact BindManager.pendingFor_pushDeviceless_mono s id A2 data2 _ _ _ h
    · exact h

theorem BindManager.handleSavedBind_binds_mono (s : BindManager) (A data A2 : Str) (b : Bind)
    (h : b ∈ s.getBindsFor A2) : b ∈ (s.handleSavedBind A data).getBindsFor A2 := by
  unfold BindManager.handleSavedBind
  split
  · exact BindManager.mem_getBindsFor_addBindTo_mono s A2 A b _ h
  · split
    · exact h
    · exact h

/-- C15: on a well-formed record, `loadActionBinds` returns true and has
handled every string of the `"binds"` list in turn: a string that
`loadBindFromSaveString` decodes adds its bind to the action, another string
with a non-empty device id has its payload appended to
`devicelessBinds[id][action]`, any other string is dropped. In particular the
payload of a string for a device that is not attached is among the pending
strings afterwards. -/
theorem C15_loadActionBinds_handles_strings (saved : Str → Option Json) (s : BindManager)
    (A : Str) (o : List (Str × Json)) (datas : List Str)
    (hrec : saved A = some (Json.obj o))
    (hbinds : jsonGet o "binds".toList = Json.arr (datas.map Json.str))
    (hrep : mapContains strEq o "repeat".toList = false ∨
      ∃ rep enabled rate delay, jsonGet o "repeat".toList = Json.obj rep ∧
        jsonGet rep "enabled".toList = Json.bool enabled ∧
        jsonGet rep "rate".toList = Json.int rate ∧
        jsonGet rep "delay".toList = Json.int delay) :
    (BindManager.loadActionBinds saved s A).1 = true ∧
    (BindManager.loadActionBinds saved s A).2.m_binds =
      (datas.foldl (fun t data => t.handleSavedBind A data) s).m_binds ∧
    (BindManager.loadActionBinds saved s A).2.m_devicelessBinds =
      (datas.foldl (fun t data => t.handleSavedBind A data) s).m_devicelessBinds ∧
    (∀ data ∈ datas, (BindManager.parseBindSave data).1 ≠ [] →
      mapContains strEq s.m_devices (BindManager.parseBindSave data).1 = false →
      (BindManager.parseBindSave data).2 ∈
        (BindManager.loadActionBinds saved s A).2.pendingFor (BindManager.parseBindSave data).1 A) := by
  have hall : ∀ l : List Str, allStrings (l.map Json.str) = true ∧
      leadingStrings (l.map Json.str) = l := by
    intro l
    induction l with
    | nil => exact ⟨rfl, rfl⟩
    | cons d l ih =>
      constructor
      · simp only [List.map_cons, allStrings, ih.1]
      · simp only [List.map_cons, leadingStrings, ih.2]
  have hentries : BindManager.loadBindEntries s A (datas.map Json.str) =
      (true, datas.foldl (fun t data => t.handleSavedBind A data) s) := by
    rw [BindManager.loadBindEntries_eq, (hall datas).1, (hall datas).2]
  have hload : (BindManager.loadActionBinds saved s A).1 = true ∧
      (BindManager.loadActionBinds saved s A).2.m_binds =
        (datas.foldl (fun t data => t.handleSavedBind A data) s).m_binds ∧
      (BindManager.loadActionBinds saved s A).2.m_devicelessBinds =
        (datas.foldl (fun t data => t.handleSavedBind A data) s).m_devicelessBinds := by
    unfold BindManager.loadActionBinds
    simp only [getSavedValue, hrec, hbinds, hentries]
    rcases hrep with hno | ⟨rep, enabled, rate, delay, h1, h2, h3, h4⟩
    · simp only [hno, Bool.false_eq_true, if_false, and_self]
    · split
      · simp only [h1, h2, h3, h4]
        exact ⟨trivial, rfl, rfl⟩
      · exact ⟨rfl, rfl, rfl⟩
  refine ⟨hload.1, hload.2.1, hload.2.2, ?_⟩
  intro data hdata hid hdev
  rw [BindManager.pendingFor_congr _ _ _ _ hload.2.2]
  apply foldl_establishes_inv (fun t => t.m_devices = s.m_devices)
    (fun t => (BindManager.parseBindSave data).2 ∈ t.pendingFor (BindManager.parseBindSave data).1 A)
    (fun t data => t.handleSavedBind A data) datas s data hdata
  · intro t y ht
    exact (BindManager.handleSavedBind_frame t A y).1.trans ht
  · intro t y _ hp
    exact BindManager.handleSavedBind_pending_mono t A y _ _ _ hp
  · intro t ht
    have hnone : t.loadBindFromSaveString data = none := by
      unfold BindManager.loadBindFromSaveString
      simp only [ht, mapFind_eq_none_of_not_contains strEq _ _ hdev]
    show (BindManager.parseBindSave data).2 ∈
      (t.handleSavedBind A data).pendingFor (BindManager.parseBindSave data).1 A
    unfold BindManager.handleSavedBind
    simp only [hnone, hid, ne_eq, not_false_eq_true, if_true]
    exact BindManager.pendingFor_pushDeviceless_self t _ _ _
  · rfl

/-- Witness of C15: a record with a keyboard string, a string for the
controller device, which is not attached, and a string without device id,
loaded on a fresh manager. -/
theorem C15_loadActionBinds_handles_strings_witness :
    (BindManager.loadActionBinds savedThreeStrings (BindManager.new sampleKeyCodes)
      "jump".toList).1 = true ∧
    "1001".toList ∈ (BindManager.loadActionBinds savedThreeStrings (BindManager.new sampleKeyCodes)
      "jump".toList).2.pendingFor "controller".toList "jump".toList :=
  have h := C15_loadActionBinds_handles_strings savedThreeStrings (BindManager.new sampleKeyCodes)
    "jump".toList
    [("binds".toList, Json.arr [Json.str "keyboard:0|65".toList,
      Json.str "controller:1001".toList, Json.str "junk".toList])]
    ["keyboard:0|65".toList, "controller:1001".toList, "junk".toList]
    rfl rfl (Or.inl (by decide))
  ⟨h.1, h.2.2.2 "controller:1001".toList (by decide) (by decide) (by decide)⟩


/-- Whether `loadActionBinds` succeeds depends on the saved record only. -/
theorem BindManager.loadActionBinds_fst (saved : Str → Option Json) (s t : BindManager)
    (A : Str) :
    (BindManager.loadActionBinds saved s A).1 = (BindManager.loadActionBinds saved t A).1 := by
  unfold BindManager.loadActionBinds
  simp only [BindManager.loadBindEntries_eq]
  split
  · rename_i binds hb
    cases allStrings binds
    · rfl
    · simp only
      split
      · split
        · split <;> rfl
        · rfl
      · rfl
  · rfl

/-- A failed `loadActionBinds` leaves the manager as it is after the strings
at the front of the `"binds"` array were handled. -/
theorem BindManager.loadActionBinds_failed (saved : Str → Option Json) (s : BindManager)
    (A : Str) (hfail : (BindManager.loadActionBinds saved s A).1 = false) :
    (BindManager.loadActionBinds saved s A).2 =
      (leadingStrings (savedBindEntries saved A)).foldl (fun t data => t.handleSavedBind A data) s := by
  unfold BindManager.loadActionBinds at hfail ⊢
  unfold savedBindEntries
  simp only [BindManager.loadBindEntries_eq] at hfail ⊢
  split
  · rename_i binds hb
    simp only [hb] at hfail
    cases hall : allStrings binds
    · rfl
    · simp only [hall] at hfail ⊢
      split
      · rename_i hrep
        simp only [hrep, if_true] at hfail
        split
        · rename_i rep hobj
          simp only [hobj] at hfail
          split
          · rename_i h1 h2 h3
            simp only [h1, h2, h3] at hfail
            exact absurd hfail (by simp)
          · rfl
        · rfl
      · rename_i hrep
        simp only [hrep, if_false] at hfail
        exact absurd hfail (by simp)
  · rfl

/-- `registerBindable` on an id that is not registered: the action is
inserted, its category added, and the saved record loaded on the manager
reached by then, whose binds, devices and pending strings are the old ones. -/
theorem BindManager.registerBindable_eq (saved : Str → Option Json) (s : BindManager)
    (action : BindableAction) (after : Str) (hnew : ∀ e ∈ s.m_actions, e.1 ≠ action.getID) :
    ∃ s1 : BindManager, s1.m_binds = s.m_binds ∧ s1.m_devices = s.m_devices ∧
      s1.m_devicelessBinds = s.m_devicelessBinds ∧
      s.registerBindable saved action after =
        match BindManager.loadActionBinds saved s1 action.getID with
        | (false, s3) =>
          (true, action.getDefaults.foldl (fun (t : BindManager) d => t.addBindTo action.getID d) s3)
        | (true, s3) => (true, s3) := by
  have hany : s.stopAllRepeats.m_actions.any (fun act => strEq act.1 action.getID) = false := by
    rw [List.any_eq_false]
    intro e he hc
    exact hnew e he ((strEq_iff _ _).1 hc)
  let entry : Str × ActionData := (action.getID, { definition := action, repeatOptions := {} })
  cases hix : indexOf (fun a : Str × ActionData => strEq a.1 after) s.m_actions with
  | none =>
    have hix2 : indexOf (fun a : Str × ActionData => strEq a.1 after)
        s.stopAllRepeats.m_actions = none := hix
    have hcat := BindManager.addCategoryAux_frame (action.getCategory.m_value.length + 1)
      { s.stopAllRepeats with m_actions := s.stopAllRepeats.m_actions ++ [entry] }
      action.getCategory
    refine ⟨BindManager.addCategory
      { s.stopAllRepeats with m_actions := s.stopAllRepeats.m_actions ++ [entry] }
      action.getCategory, hcat.2.1, hcat.2.2.2, hcat.2.2.1, ?_⟩
    unfold BindManager.registerBindable
    simp only [hany, Bool.false_eq_true, if_false, hix2]
  | some ix =>
    have hix2 : indexOf (fun a : Str × ActionData => strEq a.1 after)
        s.stopAllRepeats.m_actions = some ix := hix
    have hcat := BindManager.addCategoryAux_frame (action.getCategory.m_value.length + 1)
      { s.stopAllRepeats with m_actions := insertAt s.stopAllRepeats.m_actions (ix + 1) entry }
      action.getCategory
    refine ⟨BindManager.addCategory
      { s.stopAllRepeats with m_actions := insertAt s.stopAllRepeats.m_actions (ix + 1) entry }
      action.getCategory, hcat.2.1, hcat.2.2.2, hcat.2.2.1, ?_⟩
    unfold BindManager.registerBindable
    simp only [hany, Bool.false_eq_true, if_false, hix2]

/-- C16, counterexample: the record saved for `jump` has the `"binds"` list
`["keyboard:0|65", 5]`. `loadActionBinds` returns false, and the chord `A` of
the first string is in the bind map afterwards; `registerBindable` of `jump`
with the one default bind `Ctrl+B` leaves `jump` bound to `A` next to
`Ctrl+B`, not to its declared defaults alone. -/
theorem C16_failed_load_keeps_loaded_binds :
    (BindManager.loadActionBinds savedStringThenNumber (BindManager.new sampleKeyCodes)
      "jump".toList).1 = false ∧
    (BindManager.new sampleKeyCodes).m_binds = [] ∧
    (BindManager.loadActionBinds savedStringThenNumber (BindManager.new sampleKeyCodes)
      "jump".toList).2.m_binds = [(bindA, ["jump".toList])] ∧
    bindA ∈ ((BindManager.new sampleKeyCodes).registerBindable savedStringThenNumber
      (sampleAction "jump".toList [bindCtrlB]) []).2.getBindsFor "jump".toList ∧
    ((BindManager.new sampleKeyCodes).registerBindable savedStringThenNumber
      (sampleAction "jump".toList [bindCtrlB]) []).2.getBindsFor "jump".toList ≠ [bindCtrlB] := by
  decide

/-- C16, amended: when `loadActionBinds(A)` fails it returns false, the
action list with the repeat options of `A` is as before the call, and the
manager is the one reached by handling the strings of the `"binds"` list
that come before its first entry that is not a string (all its strings when
the failure is in the `"repeat"` block, none when there is no such list);
`registerBindable` then returns true, and the binds of `A` hold its declared
defaults and the binds decoded from those strings. -/
theorem C16_failed_load (saved : Str → Option Json) (s : BindManager) (action : BindableAction)
    (after : Str) (hfail : (BindManager.loadActionBinds saved s action.getID).1 = false) :
    (BindManager.loadActionBinds saved s action.getID).2 =
      (leadingStrings (savedBindEntries saved action.getID)).foldl
        (fun t data => t.handleSavedBind action.getID data) s ∧
    (BindManager.loadActionBinds saved s action.getID).2.m_actions = s.m_actions ∧
    (BindManager.loadActionBinds saved s action.getID).2.getRepeatOptionsFor action.getID =
      s.getRepeatOptionsFor action.getID ∧
    ((∀ e ∈ s.m_actions, e.1 ≠ action.getID) →
      (s.registerBindable saved action after).1 = true ∧
      (∀ d ∈ action.getDefaults,
        d ∈ (s.registerBindable saved action after).2.getBindsFor action.getID) ∧
      (∀ data ∈ leadingStrings (savedBindEntries saved action.getID), ∀ b,
        s.loadBindFromSaveString data = some b →
        b ∈ (s.registerBindable saved action after).2.getBindsFor action.getID)) := by
  have hstate := BindManager.loadActionBinds_failed saved s action.getID hfail
  have hacts : (BindManager.loadActionBinds saved s action.getID).2.m_actions = s.m_actions := by
    rw [hstate]
    exact foldl_preserves (fun t => t.m_actions = s.m_actions)
      (fun t data => t.handleSavedBind action.getID data) _ s
      (fun t y ht => (BindManager.handleSavedBind_frame t action.getID y).2.1.trans ht) rfl
  refine ⟨hstate, hacts, ?_, ?_⟩
  · simp only [BindManager.getRepeatOptionsFor, hacts]
  · intro hnew
    obtain ⟨s1, hb1, hd1, _, hreg⟩ := BindManager.registerBindable_eq saved s action after hnew
    have hfail1 : (BindManager.loadActionBinds saved s1 action.getID).1 = false := by
      rw [BindManager.loadActionBinds_fst saved s1 s]
      exact hfail
    have hstate1 := BindManager.loadActionBinds_failed saved s1 action.getID hfail1
    have hres : (s.registerBindable saved action after) =
        (true, action.getDefaults.foldl (fun (t : BindManager) d => t.addBindTo action.getID d)
          (BindManager.loadActionBinds saved s1 action.getID).2) := by
      rw [hreg]
      split
      · rename_i s3 h3
        rw [h3]
      · rename_i s3 h3
        rw [h3] at hfail1
        exact absurd hfail1 (by simp)
    refine ⟨by rw [hres], ?_, ?_⟩
    · intro d hd
      rw [hres]
      exact (BindManager.mem_getBindsFor_foldl_addBindTo _ _ _ _).2 (Or.inr hd)
    · intro data hdata b hb
      rw [hres]
      apply (BindManager.mem_getBindsFor_foldl_addBindTo _ _ _ _).2
      left
      rw [hstate1]
      apply foldl_establishes_inv (fun t => t.m_devices = s.m_devices)
        (fun t => b ∈ t.getBindsFor action.getID)
        (fun t data => t.handleSavedBind action.getID data) _ s1 data hdata
      · intro t y ht
        exact (BindManager.handleSavedBind_frame t action.getID y).1.trans ht
      · intro t y _ hp
        exact BindManager.handleSavedBind_binds_mono t action.getID y _ b hp
      · intro t ht
        have hl : t.loadBindFromSaveString data = some b := by
          rw [BindManager.loadBindFromSaveString_congr s t data ht]
          exact hb
        show b ∈ (t.handleSavedBind action.getID data).getBindsFor action.getID
        unfold BindManager.handleSavedBind
        simp only [hl]
        exact (BindManager.mem_getBindsFor_addBindTo t action.getID b b).2 (Or.inr rfl)
      · exact hd1

/-- Witness of C16: the record of `jump` with a keyboard string followed by
a number, on a fresh manager; the default bind `Ctrl+B` is a bind of `jump`
after the registration. -/
theorem C16_failed_load_witness :
    (BindManager.loadActionBinds savedStringThenNumber (BindManager.new sampleKeyCodes)
      (sampleAction "jump".toList [bindCtrlB]).getID).1 = false ∧
    ((BindManager.new sampleKeyCodes).registerBindable savedStringThenNumber
      (sampleAction "jump".toList [bindCtrlB]) []).1 = true ∧
    bindCtrlB ∈ ((BindManager.new sampleKeyCodes).registerBindable savedStringThenNumber
      (sampleAction "jump".toList [bindCtrlB]) []).2.getBindsFor
        (sampleAction "jump".toList [bindCtrlB]).getID :=
  have h := (C16_failed_load savedStringThenNumber (BindManager.new sampleKeyCodes)
    (sampleAction "jump".toList [bindCtrlB]) [] (by decide)).2.2.2 (by decide)
  ⟨by decide, h.1, h.2.1 bindCtrlB (by decide)⟩


/-! ## Saving -/

/-- C17, at the failing input: `save()` leaves the saved values as they are,
whatever the manager holds; with the action `jump` registered and bound to
`Ctrl+B`, the record that `saveActionBinds` builds for `jump` has a `"binds"`
list, and the save container still holds nothing under `jump` after
`save()`. -/
theorem C17_save_stores_nothing :
    (∀ (saved : Str → Option Json) (s : BindManager), s.save saved = saved) ∧
    managerWithEditorAction.getBindsFor "jump".toList = [bindCtrlB] ∧
    (managerWithEditorAction.saveObject "jump".toList).map Prod.fst
      = ["binds".toList, "repeat".toList] ∧
    managerWithEditorAction.save nothingSaved "jump".toList = none := by
  have hsave : ∀ (saved : Str → Option Json) (s : BindManager), s.save saved = saved := by
    intro saved s
    unfold BindManager.save
    exact foldl_preserves (fun st => st = saved)
      (fun st (bindable : BindableAction) => s.saveActionBinds st bindable.getID) _ saved
      (fun st y h => h) rfl
  refine ⟨hsave, by decide, by decide, ?_⟩
  rw [hsave]
  rfl

/-! ## Dispatch -/

theorem BindManager.dispatchLoop_events_take (post : InvokeBindEvent → ListenerResult)
    (down : Bool) (l : List Str) (s : BindManager) :
    ∃ k, (BindManager.dispatchLoop post down s l).2.2 =
      (l.take k).map (fun a => (⟨a, down⟩ : InvokeBindEvent)) := by
  induction l generalizing s with
  | nil => exact ⟨0, rfl⟩
  | cons a l ih =>
    rw [BindManager.dispatchLoop]
    simp only
    split
    · exact ⟨1, by simp⟩
    · obtain ⟨k, hk⟩ := ih (if down then s.repeat a else s.unrepeat a)
      exact ⟨k + 1, by simp [hk]⟩

theorem BindManager.dispatchLoop_stop (post : InvokeBindEvent → ListenerResult) (down : Bool)
    (pre : List Str) (ak : Str) (rest : List Str) (s : BindManager)
    (hpre : ∀ a ∈ pre, post ⟨a, down⟩ ≠ ListenerResult.Stop)
    (hk : post ⟨ak, down⟩ = ListenerResult.Stop) :
    (BindManager.dispatchLoop post down s (pre ++ ak :: rest)).1 = ListenerResult.Stop ∧
    (BindManager.dispatchLoop post down s (pre ++ ak :: rest)).2.2 =
      (pre ++ [ak]).map (fun a => (⟨a, down⟩ : InvokeBindEvent)) := by
  induction pre generalizing s with
  | nil =>
    simp only [List.nil_append]
    rw [BindManager.dispatchLoop]
    simp only [hk, if_true, List.map_cons, List.map_nil, and_self]
  | cons a pre ih =>
    have ha : post ⟨a, down⟩ ≠ ListenerResult.Stop := hpre a (List.mem_cons_self _ _)
    have := ih (if down then s.repeat a else s.unrepeat a)
      (fun x hx => hpre x (List.mem_cons_of_mem _ hx))
    simp only [List.cons_append]
    rw [BindManager.dispatchLoop]
    simp only [ha, if_false, this.1, this.2, List.map_cons, and_self]

theorem BindManager.dispatchLoop_all (post : InvokeBindEvent → ListenerResult) (down : Bool)
    (l : List Str) (s : BindManager)
    (hl : ∀ a ∈ l, post ⟨a, down⟩ ≠ ListenerResult.Stop) :
    (BindManager.dispatchLoop post down s l).1 = ListenerResult.Propagate ∧
    (BindManager.dispatchLoop post down s l).2.2 =
      l.map (fun a => (⟨a, down⟩ : InvokeBindEvent)) := by
  induction l generalizing s with
  | nil => exact ⟨rfl, rfl⟩
  | cons a l ih =>
    have ha : post ⟨a, down⟩ ≠ ListenerResult.Stop := hl a (List.mem_cons_self _ _)
    have := ih (if down then s.repeat a else s.unrepeat a)
      (fun x hx => hl x (List.mem_cons_of_mem _ hx))
    rw [BindManager.dispatchLoop]
    simp only [ha, if_false, this.1, this.2, List.map_cons, and_self]

/-- C18, counterexample: `jump` is registered before `run`, and the chord `A`
is assigned to `run` before `jump`; a press of `A` emits the invoke event of
`run` first and that of `jump` second. -/
theorem C18_dispatch_not_in_registration_order :
    managerAssignedInReverse.getAllBindables.map BindableAction.getID
      = ["jump".toList, "run".toList] ∧
    (managerAssignedInReverse.onDispatch noSubscriberStops ⟨bindA, true⟩).2.2
      = [⟨"run".toList, true⟩, ⟨"jump".toList, true⟩] := by
  decide

/-- C18, amended: the invoke events of a press event are emitted in the
order of the action list that the bind map holds for the bind (they are the
events of the first actions of that list, in its order), and `addBindTo`
puts an action at the end of that list: the order is the one in which the
bind was assigned to the actions. -/
theorem C18_dispatch_in_assignment_order (post : InvokeBindEvent → ListenerResult)
    (s : BindManager) (event : PressBindEvent) (A : Str) :
    (∃ k, (s.onDispatch post event).2.2 =
      (((mapFind Bind.isEqual s.m_binds event.getBind).getD []).take k).map
        (fun a => (⟨a, event.isDown⟩ : InvokeBindEvent))) ∧
    (mapFind Bind.isEqual (s.addBindTo A event.getBind).m_binds event.getBind).getD [] =
      (mapFind Bind.isEqual s.m_binds event.getBind).getD [] ++ [A] := by
  constructor
  · unfold BindManager.onDispatch
    split
    · exact BindManager.dispatchLoop_events_take post event.isDown _ s
    · exact ⟨0, rfl⟩
  · have := mapFind_mapUpdate_self Bind.isEqual Bind.isEqual_iff event.getBind
      (fun l : List Str => l ++ [A]) [] s.m_binds
    show (mapFind Bind.isEqual (mapUpdate Bind.isEqual event.getBind
      (fun l : List Str => l ++ [A]) [] s.m_binds) event.getBind).getD [] = _
    rw [this]
    rfl

/-- C19: when the bind of a press event is assigned to the actions
`pre ++ ak :: rest` and the subscribers stop the propagation at `ak` (and at
no action of `pre`), the invoke events of `pre` and `ak` are emitted, none
for `rest`, and `onDispatch` returns `Stop`; when no subscriber stops it, one
invoke event per assigned action is emitted, with the action id and the
down flag of the press event, and `onDispatch` returns `Propagate`, as it
does with no event when the bind is not in the bind map. -/
theorem C19_dispatch_short_circuit (post : InvokeBindEvent → ListenerResult) (s : BindManager)
    (event : PressBindEvent) :
    (∀ (pre : List Str) (ak : Str) (rest : List Str),
      mapFind Bind.isEqual s.m_binds event.getBind = some (pre ++ ak :: rest) →
      (∀ a ∈ pre, post ⟨a, event.isDown⟩ ≠ ListenerResult.Stop) →
      post ⟨ak, event.isDown⟩ = ListenerResult.Stop →
      (s.onDispatch post event).1 = ListenerResult.Stop ∧
      (s.onDispatch post event).2.2 =
        (pre ++ [ak]).map (fun a => (⟨a, event.isDown⟩ : InvokeBindEvent))) ∧
    (∀ (actions : List Str),
      mapFind Bind.isEqual s.m_binds event.getBind = some actions →
      (∀ a ∈ actions, post ⟨a, event.isDown⟩ ≠ ListenerResult.Stop) →
      (s.onDispatch post event).1 = ListenerResult.Propagate ∧
      (s.onDispatch post event).2.2 =
        actions.map (fun a => (⟨a, event.isDown⟩ : InvokeBindEvent))) ∧
    (mapContains Bind.isEqual s.m_binds event.getBind = false →
      (s.onDispatch post event).1 = ListenerResult.Propagate ∧
      (s.onDispatch post event).2.2 = []) := by
  refine ⟨?_, ?_, ?_⟩
  · intro pre ak rest hfind hpre hk
    unfold BindManager.onDispatch
    rw [if_pos (mapContains_of_mapFind _ _ _ _ hfind), hfind]
    exact BindManager.dispatchLoop_stop post event.isDown pre ak rest s hpre hk
  · intro actions hfind hall
    unfold BindManager.onDispatch
    rw [if_pos (mapContains_of_mapFind _ _ _ _ hfind), hfind]
    exact BindManager.dispatchLoop_all post event.isDown actions s hall
  · intro hno
    unfold BindManager.onDispatch
    simp only [hno, Bool.false_eq_true, if_false, and_self]

/-- Witness of C19: the chord `A` is assigned to `run` and `jump`, and the
subscribers of `run` stop the propagation. -/
theorem C19_dispatch_short_circuit_witness :
    (managerAssignedInReverse.onDispatch
      (fun e => if e.m_id = "run".toList then ListenerResult.Stop else ListenerResult.Propagate)
      ⟨bindA, true⟩).1 = ListenerResult.Stop ∧
    (managerAssignedInReverse.onDispatch
      (fun e => if e.m_id = "run".toList then ListenerResult.Stop else ListenerResult.Propagate)
      ⟨bindA, true⟩).2.2 = [⟨"run".toList, true⟩] :=
  (C19_dispatch_short_circuit
    (fun e => if e.m_id = "run".toList then ListenerResult.Stop else ListenerResult.Propagate)
    managerAssignedInReverse ⟨bindA, true⟩).1 [] "run".toList ["jump".toList]
    (by decide) (by decide) (by decide)


/-! ## Repeat -/

theorem BindManager.getRepeatOptionsFor_congr (s t : BindManager) (A : Str)
    (h : t.m_actions = s.m_actions) : t.getRepeatOptionsFor A = s.getRepeatOptionsFor A := by
  simp only [BindManager.getRepeatOptionsFor, h]

/-- A key-down of a bind assigned to the one action `A`, repeatable with
repeat enabled, on a manager with nothing repeating. -/
theorem BindManager.onDispatch_down_single (post : InvokeBindEvent → ListenerResult)
    (s : BindManager) (A : Str) (b : Bind) (opts : RepeatOptions)
    (hopts : s.getRepeatOptionsFor A = some opts) (hen : opts.enabled = true)
    (hbind : mapFind Bind.isEqual s.m_binds b = some [A]) (hidle : s.m_repeating = []) :
    (s.onDispatch post ⟨b, true⟩).2.1.m_repeating = [(A, (opts.delay : Rat) / 1000)] ∧
    (s.onDispatch post ⟨b, true⟩).2.1.m_actions = s.m_actions ∧
    (s.onDispatch post ⟨b, true⟩).2.1.m_binds = s.m_binds := by
  have hrep : (s.repeat A).m_repeating = [(A, (opts.delay : Rat) / 1000)] ∧
      (s.repeat A).m_actions = s.m_actions ∧ (s.repeat A).m_binds = s.m_binds := by
    unfold BindManager.repeat
    simp only [hopts, hen, if_true, hidle, List.nil_append, and_self]
  unfold BindManager.onDispatch
  simp only [PressBindEvent.getBind, PressBindEvent.isDown]
  rw [if_pos (mapContains_of_mapFind _ _ _ _ hbind), hbind]
  simp only [Option.getD_some]
  rw [BindManager.dispatchLoop, BindManager.dispatchLoop]
  simp only [if_true]
  split <;> exact hrep

/-- One repeat tick on a manager whose only repeat entry is that of `A`. -/
theorem BindManager.onRepeat_single (t : BindManager) (A : Str) (x dt : Rat)
    (opts : RepeatOptions) (hrep : t.m_repeating = [(A, x)])
    (hopts : t.getRepeatOptionsFor A = some opts) :
    (t.onRepeat dt).1.m_repeating =
      [(A, if x - dt < 0 then x - dt + (opts.rate : Rat) / 1000 else x - dt)] ∧
    (t.onRepeat dt).2 = (if x - dt < 0 then [(⟨A, true⟩ : InvokeBindEvent)] else []) ∧
    (t.onRepeat dt).1.m_actions = t.m_actions ∧
    (t.onRepeat dt).1.m_binds = t.m_binds := by
  unfold BindManager.onRepeat
  simp only [hrep, List.map_cons, List.map_nil, List.filterMap_cons, List.filterMap_nil,
    BindManager.tickEntry, hopts]
  split <;> simp

theorem managerHoldingDown_repeating :
    managerHoldingDown.m_repeating = [("hold".toList, (500 : Rat) / 1000)] ∧
    managerHoldingDown.getRepeatOptionsFor "hold".toList = some {} := by
  have h := BindManager.onDispatch_down_single noSubscriberStops managerHolding "hold".toList
    bindA {} (by decide) rfl (by decide) (by decide)
  refine ⟨?_, ?_⟩
  · have := h.1
    simpa using this
  · show (managerHolding.onDispatch noSubscriberStops ⟨bindA, true⟩).2.1.getRepeatOptionsFor
      "hold".toList = some {}
    rw [BindManager.getRepeatOptionsFor_congr managerHolding _ _ h.2.1]
    decide

theorem foldl_fixed {σ α : Type} (f : σ → α → σ) (l : List α) (s : σ)
    (h : ∀ x ∈ l, ∀ t, f t x = t) : l.foldl f s = s := by
  induction l generalizing s with
  | nil => rfl
  | cons x l ih =>
    rw [List.foldl_cons, h x (List.mem_cons_self _ _) s]
    exact ih s (fun y hy => h y (List.mem_cons_of_mem _ hy))

theorem BindManager.addCategoryAux_repeating (fuel : Nat) (s : BindManager) (c : Category) :
    (BindManager.addCategoryAux fuel s c).m_repeating = [] := by
  induction fuel generalizing s c with
  | zero => rfl
  | succ fuel ih =>
    unfold BindManager.addCategoryAux
    simp only
    split
    · cases hp : c.getParent with
      | none => rfl
      | some parent => exact ih _ parent
    · rfl

theorem BindManager.removeBindFrom_repeating (s : BindManager) (A : Str) (b : Bind) :
    (s.removeBindFrom A b).m_repeating = [] := by
  unfold BindManager.removeBindFrom
  simp only
  split <;> rfl

theorem BindManager.foldl_addBindTo_repeating (A : Str) (l : List Bind) (s : BindManager)
    (h : s.m_repeating = []) :
    (l.foldl (fun (s : BindManager) d => s.addBindTo A d) s).m_repeating = [] :=
  foldl_preserves (fun t => t.m_repeating = []) (fun (s : BindManager) d => s.addBindTo A d) l s
    (fun _ _ _ => rfl) h

theorem BindManager.loadBindEntries_repeating (A : Str) (l : List Json) (s : BindManager)
    (h : s.m_repeating = []) : (BindManager.loadBindEntries s A l).2.m_repeating = [] := by
  induction l generalizing s with
  | nil => exact h
  | cons j l ih =>
    cases j with
    | str data =>
      rw [BindManager.loadBindEntries]
      cases hb : s.loadBindFromSaveString data with
      | some b => exact ih _ rfl
      | none =>
        simp only
        split
        · exact ih _ h
        · exact ih _ h
    | _ => exact h

theorem BindManager.loadActionBinds_repeating (saved : Str → Option Json) (s : BindManager)
    (A : Str) (h : s.m_repeating = []) :
    (BindManager.loadActionBinds saved s A).2.m_repeating = [] := by
  unfold BindManager.loadActionBinds
  simp only
  split
  · rename_i binds _
    have hl := BindManager.loadBindEntries_repeating A binds s h
    split
    · rename_i t heq
      rw [heq] at hl
      exact hl
    · rename_i t heq
      rw [heq] at hl
      split
      · split
        · split
          · rfl
          · exact hl
        · exact hl
      · exact hl
  · exact h

theorem BindManager.registerBindable_repeating (saved : Str → Option Json) (s : BindManager)
    (action : BindableAction) (after : Str) :
    (s.registerBindable saved action after).2.m_repeating = [] := by
  unfold BindManager.registerBindable
  simp only
  split
  · rfl
  · generalize hu : (BindManager.addCategory _ action.getCategory) = u
    have hu0 : u.m_repeating = [] := by
      rw [← hu]
      exact BindManager.addCategoryAux_repeating _ _ _
    have hl := BindManager.loadActionBinds_repeating saved u action.getID hu0
    split
    · rename_i t heq
      rw [heq] at hl
      exact BindManager.foldl_addBindTo_repeating _ _ _ hl
    · rename_i t heq
      rw [heq] at hl
      exact hl

theorem BindManager.removeCategory_repeating (s : BindManager) (c : Category) :
    (s.removeCategory c).m_repeating = [] := by
  have := foldl_preserves (fun t => t.m_repeating = [])
    (fun (s : BindManager) (bindable : BindableAction) => s.removeBindable bindable.getID)
    (s.stopAllRepeats.getBindablesIn c true) s.stopAllRepeats (fun _ _ _ => rfl) rfl
  exact this

theorem BindManager.resetBindsToDefault_repeating (s : BindManager) (A : Str) :
    (s.resetBindsToDefault A).m_repeating = [] := by
  unfold BindManager.resetBindsToDefault
  simp only
  split
  · exact BindManager.foldl_addBindTo_repeating _ _ _ rfl
  · rfl

/-- On a manager where no bind of the device is assigned to an action, the
loops of `detachDevice` never reach `removeBindFrom`: only the device entry is
erased. -/
theorem BindManager.detachDevice_of_no_live_bind (s : BindManager) (d : Device)
    (h : ∀ e ∈ s.m_binds, e.1.getDeviceID = d.getID → e.2 = []) :
    s.detachDevice d = { s with m_devices := mapErase strEq s.m_devices d.getID } := by
  unfold BindManager.detachDevice
  simp only
  rw [foldl_fixed _ s.m_binds s (fun e he t => by
    split
    · rename_i hdev
      rw [h e he hdev]
      rfl
    · rfl)]

/-- The repeating list after `attachDevice`, on a manager where no bind of the
device is assigned to an action: it is emptied when a pending string of the
device decodes, and left as it was when none does. -/
theorem BindManager.attachDevice_repeating (s : BindManager) (d : Device)
    (hsafe : ∀ e ∈ s.m_binds, e.1.getDeviceID = d.getID → e.2 = []) :
    ((∀ e ∈ s.m_devicelessBinds, e.1 = d.getID →
        ∀ ab ∈ e.2, ∀ data ∈ ab.2, d.loadBind data = none) →
      (s.attachDevice d).m_repeating = s.m_repeating) ∧
    ((∃ e ∈ s.m_devicelessBinds, e.1 = d.getID ∧
        ∃ ab ∈ e.2, ∃ data ∈ ab.2, (d.loadBind data).isSome = true) →
      (s.attachDevice d).m_repeating = []) := by
  let f3 : Str → BindManager → Str → BindManager := fun action t data =>
    match d.loadBind data with
    | some nbind => t.addBindTo action nbind
    | none => t
  let f2 : BindManager → Str × List Str → BindManager := fun t ab => ab.2.foldl (f3 ab.1) t
  let f1 : BindManager → Str × DevicelessActions → BindManager := fun t e =>
    if e.1 ≠ d.getID then t else e.2.foldl f2 t
  let s2 : BindManager :=
    { s with m_devices := mapInsert strEq (mapErase strEq s.m_devices d.getID) d.getID d }
  have hattach : (s.attachDevice d).m_repeating = (s.m_devicelessBinds.foldl f1 s2).m_repeating := by
    unfold BindManager.attachDevice
    simp only
    rw [BindManager.detachDevice_of_no_live_bind s d hsafe]
  have hpres3 : ∀ action t data, t.m_repeating = [] → (f3 action t data).m_repeating = [] := by
    intro action t data ht
    show (match d.loadBind data with
      | some nbind => t.addBindTo action nbind
      | none => t).m_repeating = []
    split
    · rfl
    · exact ht
  have hpres2 : ∀ t ab, t.m_repeating = [] → (f2 t ab).m_repeating = [] := fun t ab ht =>
    foldl_preserves (fun t => t.m_repeating = []) (f3 ab.1) ab.2 t
      (fun u data hu => hpres3 ab.1 u data hu) ht
  have hpres1 : ∀ t e, t.m_repeating = [] → (f1 t e).m_repeating = [] := by
    intro t e ht
    show (if e.1 ≠ d.getID then t else e.2.foldl f2 t).m_repeating = []
    split
    · exact ht
    · exact foldl_preserves (fun t => t.m_repeating = []) f2 e.2 t hpres2 ht
  constructor
  · intro hnone
    rw [hattach, foldl_fixed f1 s.m_devicelessBinds s2 (fun e he t => by
      show (if e.1 ≠ d.getID then t else e.2.foldl f2 t) = t
      split
      · rfl
      · rename_i hid
        exact foldl_fixed f2 e.2 t (fun ab hab u =>
          foldl_fixed (f3 ab.1) ab.2 u (fun data hdata v => by
            show (match d.loadBind data with
              | some nbind => v.addBindTo ab.1 nbind
              | none => v) = v
            rw [hnone e he (not_not.1 hid) ab hab data hdata])))]
  · rintro ⟨e, he, hid, ab, hab, data, hdata, hsome⟩
    rw [hattach]
    refine foldl_establishes (fun t => t.m_repeating = []) f1 _ s2 e he hpres1 (fun t => ?_)
    show (if e.1 ≠ d.getID then t else e.2.foldl f2 t).m_repeating = []
    rw [if_neg (not_not.2 hid)]
    refine foldl_establishes (fun t => t.m_repeating = []) f2 _ t ab hab hpres2 (fun u => ?_)
    refine foldl_establishes (fun t => t.m_repeating = []) (f3 ab.1) _ u data hdata
      (fun v x hv => hpres3 ab.1 v x hv) (fun v => ?_)
    show (match d.loadBind data with
      | some nbind => v.addBindTo ab.1 nbind
      | none => v).m_repeating = []
    obtain ⟨nbind, hn⟩ := Option.isSome_iff_exists.1 hsome
    rw [hn]
    rfl

/-- C21, counterexample: the action `hold` is repeating after a key-down of
its keyboard chord; detaching the controller device, or attaching it, moves no
bind and leaves the repeat entry of `hold` in the repeating list. -/
theorem C21_attach_detach_keep_repeat_entry :
    managerHoldingDown.m_repeating ≠ [] ∧
    (managerHoldingDown.detachDevice (ControllerDevice sampleKeyCodes)).m_repeating
      = managerHoldingDown.m_repeating ∧
    (managerHoldingDown.attachDevice (ControllerDevice sampleKeyCodes)).m_repeating
      = managerHoldingDown.m_repeating := by
  refine ⟨by decide, ?_, ?_⟩
  · rw [BindManager.detachDevice_of_no_live_bind managerHoldingDown
      (ControllerDevice sampleKeyCodes) (by decide)]
  · exact (BindManager.attachDevice_repeating managerHoldingDown
      (ControllerDevice sampleKeyCodes) (by decide)).1 (by decide)

/-- C21, amended: whatever the state before, the repeating list is empty
after each of `registerBindable` (with either result), `removeBindable`,
`addCategory`, `removeCategory`, `addBindTo`, `removeBindFrom`,
`removeAllBindsFrom` and `resetBindsToDefault`. `detachDevice` and
`attachDevice` have no call of `stopAllRepeats` of their own: on a manager
where no bind of the device is assigned to an action, `detachDevice` leaves
the repeating list as it was, and `attachDevice` empties it when one of the
pending strings of the device decodes, which it then assigns through
`addBindTo`, and leaves it as it was when none decodes. -/
theorem C21_registry_operations_stop_repeats (saved : Str → Option Json) (s : BindManager)
    (action : BindableAction) (after A : Str) (b : Bind) (c : Category) (d : Device) :
    (s.registerBindable saved action after).2.m_repeating = [] ∧
    (s.removeBindable A).m_repeating = [] ∧
    (s.addCategory c).m_repeating = [] ∧
    (s.removeCategory c).m_repeating = [] ∧
    (s.addBindTo A b).m_repeating = [] ∧
    (s.removeBindFrom A b).m_repeating = [] ∧
    (s.removeAllBindsFrom A).m_repeating = [] ∧
    (s.resetBindsToDefault A).m_repeating = [] ∧
    ((∀ e ∈ s.m_binds, e.1.getDeviceID = d.getID → e.2 = []) →
      (s.detachDevice d).m_repeating = s.m_repeating ∧
      ((∀ e ∈ s.m_devicelessBinds, e.1 = d.getID →
          ∀ ab ∈ e.2, ∀ data ∈ ab.2, d.loadBind data = none) →
        (s.attachDevice d).m_repeating = s.m_repeating) ∧
      ((∃ e ∈ s.m_devicelessBinds, e.1 = d.getID ∧
          ∃ ab ∈ e.2, ∃ data ∈ ab.2, (d.loadBind data).isSome = true) →
        (s.attachDevice d).m_repeating = [])) := by
  refine ⟨BindManager.registerBindable_repeating saved s action after, rfl,
    BindManager.addCategoryAux_repeating _ s c, BindManager.removeCategory_repeating s c, rfl,
    BindManager.removeBindFrom_repeating s A b, rfl, BindManager.resetBindsToDefault_repeating s A,
    ?_⟩
  intro hsafe
  refine ⟨?_, (BindManager.attachDevice_repeating s d hsafe).1,
    (BindManager.attachDevice_repeating s d hsafe).2⟩
  rw [BindManager.detachDevice_of_no_live_bind s d hsafe]

/-- Witness of C21: while `hold` is repeating, removing the action `hold`
empties the repeating list, and detaching the controller, of which the bind
map holds no bind, leaves the list as it is. -/
theorem C21_registry_operations_stop_repeats_witness :
    managerHoldingDown.m_repeating ≠ [] ∧
    (managerHoldingDown.removeBindable "hold".toList).m_repeating = [] ∧
    (managerHoldingDown.detachDevice (ControllerDevice sampleKeyCodes)).m_repeating =
      managerHoldingDown.m_repeating :=
  ⟨by decide,
    (C21_registry_operations_stop_repeats nothingSaved managerHoldingDown
      (sampleAction "hold".toList []) [] "hold".toList bindA Category.PLAY
      (ControllerDevice sampleKeyCodes)).2.1,
    ((C21_registry_operations_stop_repeats nothingSaved managerHoldingDown
      (sampleAction "hold".toList []) [] "hold".toList bindA Category.PLAY
      (ControllerDevice sampleKeyCodes)).2.2.2.2.2.2.2.2 (by decide)).1⟩

/-! ## Hashes -/

theorem intBits_of_nonneg (i : Int) (h0 : 0 ≤ i) (h1 : i < 4294967296) : intBits i = i.toNat := by
  unfold intBits
  rw [Int.emod_eq_of_lt h0 h1]

theorem modifierToInt_of_lt (m : Nat) (h : m < 2147483648) : modifierToInt m = (m : Int) := by
  unfold modifierToInt
  have hm : m % 4294967296 = m := Nat.mod_eq_of_lt (by omega)
  rw [hm, if_pos h]

theorem or_shifted (k m : Nat) (hk : k < 536870912) :
    k ||| (536870912 * m) = 536870912 * m + k := by
  have h := Nat.mul_add_lt_is_or (i := 29) (b := k) (by norm_num; exact hk) m
  norm_num at h
  rw [Nat.lor_comm, h]

/-- The bits of the hash of a chord with a key code below `2 ^ 29`: the three
low bits of the modifier mask stand above the key code, the fourth is
shifted out of the `int`. -/
theorem Keybind.hashBits_eq (b : Keybind) (hk0 : 0 ≤ b.m_key) (hk1 : b.m_key < 536870912)
    (hm : b.m_modifiers < 16) :
    b.hashBits = 536870912 * (b.m_modifiers % 8) + b.m_key.toNat := by
  unfold Keybind.hashBits
  rw [intBits_of_nonneg b.m_key hk0 (by omega), modifierToInt_of_lt b.m_modifiers (by omega),
    intBits_of_nonneg (b.m_modifiers : Int) (by omega) (by omega), Int.toNat_ofNat]
  have h2 : b.m_modifiers * 536870912 % 4294967296 = 536870912 * (b.m_modifiers % 8) := by omega
  rw [h2]
  exact or_shifted _ _ (by omega)

theorem intToSize_bitsToInt_inj (n k : Nat) (hn : n < 4294967296) (hk : k < 4294967296)
    (h : BindManager.intToSize (bitsToInt n) = BindManager.intToSize (bitsToInt k)) : n = k := by
  unfold BindManager.intToSize bitsToInt at h
  rw [Nat.mod_eq_of_lt hn, Nat.mod_eq_of_lt hk] at h
  split at h <;> split at h <;> omega

/-- C22, counterexample: the chords `A` and `Command+A` have different
modifier sets and the same hash: `Modifier::Command`, shifted by 29 bits,
does not fit the 32 bits of the `int`. -/
theorem C22_command_modifier_lost_in_hash :
    (⟨65, 0⟩ : Keybind) ≠ ⟨65, Modifier.Command⟩ ∧
    Keybind.getHash ⟨65, 0⟩ = Keybind.getHash ⟨65, Modifier.Command⟩ := by
  decide

/-- C22, amended: for keyboard binds with a key code in `[0, 2 ^ 29)` and a
modifier set that is a combination of Control, Shift and Alt, the 32 bits of
the hash are the key code with the modifier mask in the three bits above bit
28, and two such binds whose key or modifier set differs have different
hashes. -/
theorem C22_getHash_separates_chords (a b : Keybind)
    (ha : 0 ≤ a.m_key ∧ a.m_key < 536870912) (hb : 0 ≤ b.m_key ∧ b.m_key < 536870912)
    (hma : a.m_modifiers < 8) (hmb : b.m_modifiers < 8) :
    a.hashBits = 536870912 * a.m_modifiers + a.m_key.toNat ∧
    ((a.m_key ≠ b.m_key ∨ a.m_modifiers ≠ b.m_modifiers) → a.getHash ≠ b.getHash) := by
  have hA := Keybind.hashBits_eq a ha.1 ha.2 (by omega)
  have hB := Keybind.hashBits_eq b hb.1 hb.2 (by omega)
  rw [Nat.mod_eq_of_lt hma] at hA
  rw [Nat.mod_eq_of_lt hmb] at hB
  refine ⟨hA, ?_⟩
  intro hne heq
  have hbits := intToSize_bitsToInt_inj a.hashBits b.hashBits (by omega) (by omega) heq
  rw [hA, hB] at hbits
  omega

/-- Witness of C22: the chords `A` and `Ctrl+Shift+A`. -/
theorem C22_getHash_separates_chords_witness :
    Keybind.hashBits ⟨65, 0⟩ = 536870912 * 0 + 65 ∧
    Keybind.getHash ⟨65, 0⟩ ≠ Keybind.getHash ⟨65, Modifier.Control ||| Modifier.Shift⟩ :=
  have h := C22_getHash_separates_chords ⟨65, 0⟩ ⟨65, Modifier.Control ||| Modifier.Shift⟩
    (by decide) (by decide) (by decide) (by decide)
  ⟨h.1, h.2 (Or.inr (by decide))⟩

/-- C26: `isEqual` holds exactly between two keyboard binds with the same key
and the same modifiers and between two controller binds with the same button,
so never between a keyboard bind and a controller bind; two binds that are
equal get the same value from `std::hash<BindHash>`, whatever the hash of
strings is; and assigning a bind `b` that equals a bind `a` of the bind map
creates no second key: the keys of the map stay as they are and the action
is appended to the list stored under `a`. -/
theorem C26_isEqual_agrees_with_hash (strHash : Str → Nat) (a b : Bind) (s : BindManager)
    (A B : Str) :
    (a.isEqual b = true ↔
      ((∃ x y : Keybind, a = Bind.keybind x ∧ b = Bind.keybind y ∧
          x.getKey = y.getKey ∧ x.getModifiers = y.getModifiers) ∨
        (∃ x y : ControllerBind, a = Bind.controller x ∧ b = Bind.controller y ∧
          x.getButton = y.getButton))) ∧
    (a.isEqual b = true →
      hashBindHash strHash (some a) = hashBindHash strHash (some b) ∧
      ((s.addBindTo A a).addBindTo B b).m_binds.map Prod.fst =
        (s.addBindTo A a).m_binds.map Prod.fst ∧
      mapFind Bind.isEqual ((s.addBindTo A a).addBindTo B b).m_binds a =
        some ((mapFind Bind.isEqual s.m_binds a).getD [] ++ [A] ++ [B])) ∧
    (∀ (x : Keybind) (y : ControllerBind),
      (Bind.keybind x).isEqual (Bind.controller y) = false ∧
      (Bind.controller y).isEqual (Bind.keybind x) = false) := by
  refine ⟨?_, ?_, fun _ _ => ⟨rfl, rfl⟩⟩
  · constructor
    · intro h
      have hab := (Bind.isEqual_iff a b).1 h
      subst hab
      cases a with
      | keybind x => exact Or.inl ⟨x, x, rfl, rfl, rfl, rfl⟩
      | controller x => exact Or.inr ⟨x, x, rfl, rfl, rfl⟩
    · rintro (⟨x, y, rfl, rfl, hk, hm⟩ | ⟨x, y, rfl, rfl, hb⟩)
      · cases x
        cases y
        simp only [Keybind.getKey, Keybind.getModifiers] at hk hm
        simp [Bind.isEqual, hk, hm]
      · cases x
        cases y
        simp only [ControllerBind.getButton] at hb
        simp [Bind.isEqual, hb]
  · intro h
    have hab := (Bind.isEqual_iff a b).1 h
    subst hab
    refine ⟨rfl, ?_, ?_⟩
    · show (mapUpdate Bind.isEqual a (fun l : List Str => l ++ [B]) []
          (s.addBindTo A a).m_binds).map Prod.fst = _
      rw [mapUpdate_keys Bind.isEqual Bind.isEqual_iff, if_pos]
      show a ∈ (mapUpdate Bind.isEqual a (fun l : List Str => l ++ [A]) [] s.m_binds).map Prod.fst
      obtain ⟨v, hv⟩ := mapUpdate_has_key Bind.isEqual Bind.isEqual_iff a
        (fun l : List Str => l ++ [A]) [] s.m_binds
      exact List.mem_map.2 ⟨_, hv, rfl⟩
    · show mapFind Bind.isEqual (mapUpdate Bind.isEqual a (fun l : List Str => l ++ [B]) []
          (mapUpdate Bind.isEqual a (fun l : List Str => l ++ [A]) [] s.m_binds)) a = _
      rw [mapFind_mapUpdate_self Bind.isEqual Bind.isEqual_iff,
        mapFind_mapUpdate_self Bind.isEqual Bind.isEqual_iff]
      rfl

/-- Witness of C26: two keyboard binds made of the key 65 with no modifier,
assigned to `jump` and to `run` on a fresh manager. -/
theorem C26_isEqual_agrees_with_hash_witness :
    hashBindHash (fun str => str.length) (some (Bind.keybind ⟨65, 0⟩)) =
      hashBindHash (fun str => str.length) (some bindA) ∧
    (((BindManager.new sampleKeyCodes).addBindTo "jump".toList (Bind.keybind ⟨65, 0⟩)).addBindTo
      "run".toList bindA).m_binds.map Prod.fst =
      ((BindManager.new sampleKeyCodes).addBindTo "jump".toList
        (Bind.keybind ⟨65, 0⟩)).m_binds.map Prod.fst ∧
    mapFind Bind.isEqual
      (((BindManager.new sampleKeyCodes).addBindTo "jump".toList
        (Bind.keybind ⟨65, 0⟩)).addBindTo "run".toList bindA).m_binds (Bind.keybind ⟨65, 0⟩) =
      some ((mapFind Bind.isEqual (BindManager.new sampleKeyCodes).m_binds
        (Bind.keybind ⟨65, 0⟩)).getD [] ++ ["jump".toList] ++ ["run".toList]) :=
  (C26_isEqual_agrees_with_hash (fun str => str.length) (Bind.keybind ⟨65, 0⟩) bindA
    (BindManager.new sampleKeyCodes) "jump".toList "run".toList).2.1 (by decide)

/-! ## The position of a new category -/

theorem BindManager.addCategoryAux_stopAllRepeats (fuel : Nat) (s : BindManager) (c : Category) :
    BindManager.addCategoryAux fuel s.stopAllRepeats c = BindManager.addCategoryAux fuel s c := by
  cases fuel with
  | zero => rfl
  | succ fuel => rfl

theorem BindManager.addCategoryAux_sublist (fuel : Nat) (s : BindManager) (c : Category) :
    List.Sublist s.m_categories (BindManager.addCategoryAux fuel s c).m_categories := by
  induction fuel generalizing s c with
  | zero => exact List.Sublist.refl _
  | succ fuel ih =>
    unfold BindManager.addCategoryAux
    simp only
    split
    · cases hp : c.getParent with
      | none => exact insertAt_sublist _ _ _
      | some parent =>
        exact List.Sublist.trans (ih s.stopAllRepeats parent) (insertAt_sublist _ _ _)
    · exact List.Sublist.refl _

theorem BindManager.scanInsertPos_none (c : Category) (l : List Category) (it : Nat)
    (h : ∀ e ∈ l, e.hasParent c = false) :
    BindManager.scanInsertPos c l false it = it + l.length := by
  induction l generalizing it with
  | nil => rfl
  | cons e l ih =>
    rw [BindManager.scanInsertPos, if_neg (by simp [h e (List.mem_cons_self _ _)])]
    simp only [Bool.false_eq_true, if_false]
    rw [ih (it + 1) (fun x hx => h x (List.mem_cons_of_mem _ hx)), List.length_cons]
    omega

theorem BindManager.scanInsertPos_found (c : Category) (block post : List Category) (it : Nat)
    (hblock : ∀ e ∈ block, e.hasParent c = true)
    (hpost : ∀ e, post.head? = some e → e.hasParent c = false) :
    BindManager.scanInsertPos c (block ++ post) true it = it + block.length := by
  induction block generalizing it with
  | nil =>
    cases post with
    | nil => rfl
    | cons e post =>
      rw [List.nil_append, BindManager.scanInsertPos, if_neg (by simp [hpost e rfl])]
      rfl
  | cons b block ih =>
    rw [List.cons_append, BindManager.scanInsertPos, if_pos (hblock b (List.mem_cons_self _ _)),
      ih (it + 1) (fun x hx => hblock x (List.mem_cons_of_mem _ hx)), List.length_cons]
    omega

theorem BindManager.scanInsertPos_block (c : Category) (pre block post : List Category) (it : Nat)
    (hpre : ∀ e ∈ pre, e.hasParent c = false) (hne : block ≠ [])
    (hblock : ∀ e ∈ block, e.hasParent c = true)
    (hpost : ∀ e, post.head? = some e → e.hasParent c = false) :
    BindManager.scanInsertPos c (pre ++ block ++ post) false it
      = it + (pre ++ block).length := by
  induction pre generalizing it with
  | nil =>
    cases block with
    | nil => exact absurd rfl hne
    | cons b block =>
      rw [List.nil_append, List.cons_append, BindManager.scanInsertPos,
        if_pos (hblock b (List.mem_cons_self _ _)),
        BindManager.scanInsertPos_found c block post (it + 1)
          (fun x hx => hblock x (List.mem_cons_of_mem _ hx)) hpost, List.length_cons]
      omega
  | cons e pre ih =>
    rw [List.cons_append, List.cons_append, BindManager.scanInsertPos,
      if_neg (by simp [hpre e (List.mem_cons_self _ _)])]
    simp only [Bool.false_eq_true, if_false]
    rw [ih (it + 1) (fun x hx => hpre x (List.mem_cons_of_mem _ hx)), List.length_cons]
    omega

theorem insertAt_append {α : Type} (l1 l2 : List α) (x : α) :
    insertAt (l1 ++ l2) l1.length x = l1 ++ x :: l2 := by
  unfold insertAt
  rw [List.take_left, List.drop_left]

/-- The category list of `addCategory` for a category that is not in it. -/
theorem BindManager.addCategory_absent (s : BindManager) (c : Category)
    (h : c ∉ s.m_categories) :
    (s.addCategory c).m_categories =
      insertAt
        (match c.getParent with
          | some parent => (s.addCategory parent).m_categories
          | none => s.m_categories)
        (BindManager.scanInsertPos c
          (match c.getParent with
            | some parent => (s.addCategory parent).m_categories
            | none => s.m_categories) false 0) c := by
  rw [BindManager.addCategory_eq, if_pos h]
  cases hp : c.getParent with
  | none => rfl
  | some parent =>
    simp only
    have : s.stopAllRepeats.addCategory parent = s.addCategory parent :=
      BindManager.addCategoryAux_stopAllRepeats _ s parent
    rw [this]

/-- C23, counterexample: `Play` is not in the list `[Global]`, has no parent,
and no entry of the list is below it; `addCategory` puts it at the end of the
list, not at the front. -/
theorem C23_addCategory_not_at_front :
    (BindManager.empty.addCategory Category.GLOBAL).m_categories = [Category.GLOBAL] ∧
    Category.PLAY.getParent = none ∧
    (∀ e ∈ (BindManager.empty.addCategory Category.GLOBAL).m_categories,
      e.hasParent Category.PLAY = false) ∧
    ((BindManager.empty.addCategory Category.GLOBAL).addCategory Category.PLAY).m_categories
      = [Category.GLOBAL, Category.PLAY] := by
  decide

/-- C23, amended: `addCategory(cat)` leaves the category list unchanged when
`cat` is in it. For an absent `cat`, let `l` be the list once the parent of
`cat` has been added (the list itself when `cat` has no parent): `cat` is
inserted into `l` immediately after the first contiguous block of entries `e`
with `e.hasParent(cat)`; and `cat` is put at the end of the list when no such
entry exists and `cat` has no parent. The entries already in the list keep
their relative order. -/
theorem C23_addCategory_position (s : BindManager) (cat : Category) :
    (cat ∈ s.m_categories → (s.addCategory cat).m_categories = s.m_categories) ∧
    (cat ∉ s.m_categories →
      ∀ l : List Category,
        l = (match cat.getParent with
              | some parent => (s.addCategory parent).m_categories
              | none => s.m_categories) →
        ∀ pre block post : List Category, l = pre ++ block ++ post →
          (∀ e ∈ pre, e.hasParent cat = false) → block ≠ [] →
          (∀ e ∈ block, e.hasParent cat = true) →
          (∀ e, post.head? = some e → e.hasParent cat = false) →
          (s.addCategory cat).m_categories = pre ++ block ++ cat :: post) ∧
    (cat ∉ s.m_categories → cat.getParent = none →
      (∀ e ∈ s.m_categories, e.hasParent cat = false) →
      (s.addCategory cat).m_categories = s.m_categories ++ [cat]) ∧
    List.Sublist s.m_categories (s.addCategory cat).m_categories := by
  refine ⟨?_, ?_, ?_, BindManager.addCategoryAux_sublist _ s cat⟩
  · intro h
    rw [BindManager.addCategory_eq, if_neg (not_not.2 h)]
    rfl
  · intro h l hl pre block post hsplit hpre hne hblock hpost
    have hins := BindManager.addCategory_absent s cat h
    rw [← hl] at hins
    rw [hins, hsplit, BindManager.scanInsertPos_block cat pre block post 0 hpre hne hblock hpost,
      Nat.zero_add]
    exact insertAt_append (pre ++ block) post cat
  · intro h hp hnone
    have hins := BindManager.addCategory_absent s cat h
    rw [hp] at hins
    simp only at hins
    rw [hins, BindManager.scanInsertPos_none cat s.m_categories 0 hnone, Nat.zero_add]
    have := insertAt_append s.m_categories [] cat
    rw [List.append_nil] at this
    exact this

/-- Witness of C23: on a fresh manager, with the categories `Global`, `Play`
and `Editor`, the new category `Extra` goes to the end of the list, and so
does the new category `Edit`, right after the block `Editor` of the one entry
whose path starts with `Edit`. -/
theorem C23_addCategory_position_witness :
    ((BindManager.new sampleKeyCodes).addCategory ⟨"Extra".toList⟩).m_categories =
      (BindManager.new sampleKeyCodes).m_categories ++ [⟨"Extra".toList⟩] ∧
    ((BindManager.new sampleKeyCodes).addCategory ⟨"Edit".toList⟩).m_categories =
      [Category.GLOBAL, Category.PLAY] ++ [Category.EDITOR] ++ ⟨"Edit".toList⟩ :: [] :=
  ⟨(C23_addCategory_position (BindManager.new sampleKeyCodes) ⟨"Extra".toList⟩).2.2.1
      (by decide) (by decide) (by decide),
    (C23_addCategory_position (BindManager.new sampleKeyCodes) ⟨"Edit".toList⟩).2.1 (by decide)
      [Category.GLOBAL, Category.PLAY, Category.EDITOR] (by decide)
      [Category.GLOBAL, Category.PLAY] [Category.EDITOR] [] (by decide) (by decide) (by decide)
      (by decide) (by decide)⟩

/-! ## Repeat entries of a dispatch -/

theorem BindManager.repeat_repeating (s : BindManager) (a : Str) :
    (s.repeat a).m_repeating = s.m_repeating ++ (s.repeatEntry a).toList ∧
    (s.repeat a).m_actions = s.m_actions := by
  unfold BindManager.repeat BindManager.repeatEntry
  cases s.getRepeatOptionsFor a with
  | none => simp
  | some options =>
    simp only
    split <;> simp

theorem BindManager.repeatEntry_congr (s t : BindManager) (h : t.m_actions = s.m_actions) :
    t.repeatEntry = s.repeatEntry := by
  funext a
  simp only [BindManager.repeatEntry, BindManager.getRepeatOptionsFor, h]

theorem BindManager.dispatchLoop_down_repeating (post : InvokeBindEvent → ListenerResult)
    (l : List Str) (s : BindManager) :
    (BindManager.dispatchLoop post true s l).2.1.m_repeating =
      s.m_repeating ++
        ((BindManager.dispatchLoop post true s l).2.2.map (fun e => e.m_id)).filterMap
          s.repeatEntry := by
  induction l generalizing s with
  | nil => simp [BindManager.dispatchLoop]
  | cons a l ih =>
    obtain ⟨h1, h2⟩ := BindManager.repeat_repeating s a
    rw [BindManager.dispatchLoop]
    simp only [if_true]
    split
    · rw [h1]
      cases h : s.repeatEntry a <;> simp [h]
    · simp only [List.map_cons, List.filterMap_cons]
      rw [ih (s.repeat a), h1, BindManager.repeatEntry_congr s (s.repeat a) h2]
      cases s.repeatEntry a <;> simp

theorem BindManager.dispatchLoop_up_repeating (post : InvokeBindEvent → ListenerResult)
    (l : List Str) (s : BindManager) :
    (BindManager.dispatchLoop post false s l).2.1.m_repeating =
      s.m_repeating.filter (fun p =>
        decide (p.1 ∉ (BindManager.dispatchLoop post false s l).2.2.map (fun e => e.m_id))) := by
  induction l generalizing s with
  | nil => simp [BindManager.dispatchLoop]
  | cons a l ih =>
    rw [BindManager.dispatchLoop]
    simp only [Bool.false_eq_true, if_false]
    split
    · simp only [BindManager.unrepeat, List.map_cons, List.map_nil, List.mem_singleton]
      apply List.filter_congr
      intro p _
      simp [strEq]
    · simp only [List.map_cons]
      rw [ih (s.unrepeat a)]
      simp only [BindManager.unrepeat, List.filter_filter]
      apply List.filter_congr
      intro p _
      rw [Bool.eq_iff_iff]
      simp [strEq, and_comm]

theorem BindManager.dispatchLoop_single_events (post : InvokeBindEvent → ListenerResult)
    (down : Bool) (s : BindManager) (A : Str) :
    (BindManager.dispatchLoop post down s [A]).2.2 = [⟨A, down⟩] := by
  rw [BindManager.dispatchLoop, BindManager.dispatchLoop]
  simp only
  split <;> rfl

theorem BindManager.onDispatch_single_events (post : InvokeBindEvent → ListenerResult)
    (down : Bool) (s : BindManager) (b : Bind) (A : Str)
    (hbind : mapFind Bind.isEqual s.m_binds b = some [A]) :
    (s.onDispatch post ⟨b, down⟩).2.2 = [⟨A, down⟩] := by
  unfold BindManager.onDispatch
  simp only [PressBindEvent.getBind, PressBindEvent.isDown]
  rw [if_pos (mapContains_of_mapFind _ _ _ _ hbind), hbind]
  exact BindManager.dispatchLoop_single_events post down s A

theorem BindManager.onDispatch_repeating (post : InvokeBindEvent → ListenerResult)
    (s : BindManager) (b : Bind) :
    (s.onDispatch post ⟨b, true⟩).2.1.m_repeating =
      s.m_repeating ++
        ((s.onDispatch post ⟨b, true⟩).2.2.map (fun e => e.m_id)).filterMap s.repeatEntry ∧
    (s.onDispatch post ⟨b, false⟩).2.1.m_repeating =
      s.m_repeating.filter (fun p =>
        decide (p.1 ∉ (s.onDispatch post ⟨b, false⟩).2.2.map (fun e => e.m_id))) := by
  unfold BindManager.onDispatch
  simp only [PressBindEvent.getBind, PressBindEvent.isDown]
  split
  · exact ⟨BindManager.dispatchLoop_down_repeating post _ s,
      BindManager.dispatchLoop_up_repeating post _ s⟩
  · simp

/-- C24, counterexample: the chord `A` is assigned to the repeatable action
`hold`, whose repeat options are enabled. After a key-down of `A` the
repeating list has one entry; after a second key-down with no key-up in
between it has two entries of `hold`. -/
theorem C24_second_down_adds_second_entry :
    mapFind Bind.isEqual managerHolding.m_binds bindA = some ["hold".toList] ∧
    managerHolding.getRepeatOptionsFor "hold".toList = some {} ∧
    ((managerHolding.onDispatch noSubscriberStops ⟨bindA, true⟩).2.1.m_repeating.filter
      (fun p => strEq p.1 "hold".toList)).length = 1 ∧
    (((managerHolding.onDispatch noSubscriberStops ⟨bindA, true⟩).2.1.onDispatch
      noSubscriberStops ⟨bindA, true⟩).2.1.m_repeating.filter
        (fun p => strEq p.1 "hold".toList)).length = 2 := by
  decide

/-- C24, amended: dispatching a down event appends to the repeating list, in
the order of the invoke events it emits, one entry with the remaining time
`delay / 1000` for every action that receives the invoke event, is repeatable
and has repeat enabled; entries that are in the list stay, so an action that
is repeating gets a further entry. Dispatching an up event removes the
entries of the actions that receive the invoke event and no others. For a
bind assigned to the one action `A`: a down event appends the entry
`(A, delay / 1000)` when `A` is repeatable with repeat enabled and leaves the
list as it is when `A` is not repeatable or has repeat disabled; an up event
leaves no entry of `A`. -/
theorem C24_dispatch_repeat_entries (post : InvokeBindEvent → ListenerResult) (s : BindManager)
    (b : Bind) :
    (s.onDispatch post ⟨b, true⟩).2.1.m_repeating =
      s.m_repeating ++
        ((s.onDispatch post ⟨b, true⟩).2.2.map (fun e => e.m_id)).filterMap s.repeatEntry ∧
    (s.onDispatch post ⟨b, false⟩).2.1.m_repeating =
      s.m_repeating.filter (fun p =>
        decide (p.1 ∉ (s.onDispatch post ⟨b, false⟩).2.2.map (fun e => e.m_id))) ∧
    (∀ A : Str, mapFind Bind.isEqual s.m_binds b = some [A] →
      (∀ opts : RepeatOptions, s.getRepeatOptionsFor A = some opts → opts.enabled = true →
        (s.onDispatch post ⟨b, true⟩).2.1.m_repeating =
          s.m_repeating ++ [(A, (opts.delay : Rat) / 1000)]) ∧
      ((s.getRepeatOptionsFor A = none ∨
          ∃ opts : RepeatOptions, s.getRepeatOptionsFor A = some opts ∧ opts.enabled = false) →
        (s.onDispatch post ⟨b, true⟩).2.1.m_repeating = s.m_repeating) ∧
      (s.onDispatch post ⟨b, false⟩).2.1.m_repeating =
        s.m_repeating.filter (fun p => !(strEq p.1 A)) ∧
      (∀ p ∈ (s.onDispatch post ⟨b, false⟩).2.1.m_repeating, p.1 ≠ A)) := by
  obtain ⟨hdown, hup⟩ := BindManager.onDispatch_repeating post s b
  refine ⟨hdown, hup, ?_⟩
  intro A hbind
  have hevd := BindManager.onDispatch_single_events post true s b A hbind
  have hevu := BindManager.onDispatch_single_events post false s b A hbind
  have hup2 : (s.onDispatch post ⟨b, false⟩).2.1.m_repeating =
      s.m_repeating.filter (fun p => !(strEq p.1 A)) := by
    rw [hup, hevu]
    apply List.filter_congr
    intro p _
    simp [strEq]
  refine ⟨?_, ?_, hup2, ?_⟩
  · intro opts hopts hen
    rw [hdown, hevd]
    simp [BindManager.repeatEntry, hopts, hen]
  · intro h
    rw [hdown, hevd]
    rcases h with h | ⟨opts, hopts, hen⟩
    · simp [BindManager.repeatEntry, h]
    · simp [BindManager.repeatEntry, hopts, hen]
  · intro p hp
    rw [hup2, List.mem_filter] at hp
    simpa [strEq] using hp.2

/-- Witness of C24: a key-down of the chord `A` of `managerHolding`, where
nothing is repeating, and a key-up after it. -/
theorem C24_dispatch_repeat_entries_witness :
    (managerHolding.onDispatch noSubscriberStops ⟨bindA, true⟩).2.1.m_repeating =
      managerHolding.m_repeating ++ [("hold".toList, (({} : RepeatOptions).delay : Rat) / 1000)] ∧
    (∀ p ∈ (managerHoldingDown.onDispatch noSubscriberStops ⟨bindA, false⟩).2.1.m_repeating,
      p.1 ≠ "hold".toList) :=
  ⟨((C24_dispatch_repeat_entries noSubscriberStops managerHolding bindA).2.2 "hold".toList
      (by decide)).1 {} (by decide) rfl,
    ((C24_dispatch_repeat_entries noSubscriberStops managerHoldingDown bindA).2.2 "hold".toList
      (by decide)).2.2.2⟩

/-! ## A repeat tick -/

theorem filterMap_eq_filter_map {α β : Type} (f : α → Option β) (g : α → Bool) (h : α → β)
    (l : List α) (hfg : ∀ x ∈ l, f x = if g x = true then some (h x) else none) :
    l.filterMap f = (l.filter g).map h := by
  induction l with
  | nil => rfl
  | cons x l ih =>
    have hx := hfg x (List.mem_cons_self _ _)
    have hl := ih (fun y hy => hfg y (List.mem_cons_of_mem _ hy))
    cases hg : g x with
    | true =>
      rw [hg, if_pos rfl] at hx
      rw [List.filterMap_cons, hx, List.filter_cons, hg, if_pos rfl, List.map_cons, hl]
    | false =>
      rw [hg, if_neg (by decide)] at hx
      rw [List.filterMap_cons, hx, List.filter_cons, hg, if_neg (by decide), hl]

/-- One pass of the loop of `onRepeat`, by cases. -/
theorem BindManager.tickEntry_eq (s : BindManager) (dt : Rat) (p : Str × Rat) :
    (s.tickEntry dt p).1 =
      (match s.getRepeatOptionsFor p.1 with
        | some options =>
          if p.2 < dt then (p.1, p.2 - dt + (options.rate : Rat) / 1000) else (p.1, p.2 - dt)
        | none => p) ∧
    (s.tickEntry dt p).2 =
      (if ((s.getRepeatOptionsFor p.1).isSome && decide (p.2 < dt)) = true
        then some ⟨p.1, true⟩ else none) := by
  unfold BindManager.tickEntry
  cases s.getRepeatOptionsFor p.1 with
  | none => simp
  | some options =>
    simp only [Option.isSome_some, Bool.true_and, decide_eq_true_eq]
    by_cases h : p.2 < dt
    · have h2 : p.2 - dt < 0 := sub_neg.2 h
      simp only [h, h2, if_true, and_self]
    · have h2 : ¬ (p.2 - dt < 0) := fun h3 => h (sub_neg.1 h3)
      simp only [h, h2, if_false, and_self]

/-- C25, counterexample: the entry of `hold` has 500 ms left and the repeat
rate of `hold` is 300 ms. A tick of 2 s emits the invoke and leaves the entry
at `-6/5` s, which is `1/2 - 2 + 3/10`, not at the rate `3/10` s. -/
theorem C25_fired_entry_not_reset_to_rate :
    managerHoldingDown.m_repeating = [("hold".toList, (500 : Rat) / 1000)] ∧
    managerHoldingDown.getRepeatOptionsFor "hold".toList
      = some { enabled := true, rate := 300, delay := 500 } ∧
    (managerHoldingDown.onRepeat 2).2 = [⟨"hold".toList, true⟩] ∧
    (managerHoldingDown.onRepeat 2).1.m_repeating = [("hold".toList, (-6 : Rat) / 5)] ∧
    (managerHoldingDown.onRepeat 2).1.m_repeating ≠ [("hold".toList, (300 : Rat) / 1000)] := by
  obtain ⟨hrep, hopts⟩ := managerHoldingDown_repeating
  have t := BindManager.onRepeat_single managerHoldingDown "hold".toList _ 2 {} hrep hopts
  have hval : (managerHoldingDown.onRepeat 2).1.m_repeating = [("hold".toList, (-6 : Rat) / 5)] := by
    rw [t.1]
    norm_num
  refine ⟨hrep, hopts, ?_, hval, ?_⟩
  · rw [t.2.1]
    norm_num
  · rw [hval]
    norm_num

/-- C25, amended: on a repeat tick with elapsed time `dt`, the entries keep
their order and their actions; the remaining time of every entry whose action
has repeat options (it is registered and repeatable) is decreased by `dt`,
and an entry of an action without repeat options is left as it is. An entry
emits one synthetic down invoke for its action exactly when its action has
repeat options and its remaining time has dropped below zero, that is when
less than `dt` was left, the invokes coming in the order of the entries; the
repeat rate in seconds (`rate / 1000`) is then added to its remaining time,
which so becomes `remaining - dt + rate / 1000`, less than the rate. Entries
that do not fire emit nothing. -/
theorem C25_onRepeat_tick (s : BindManager) (dt : Rat) :
    (s.onRepeat dt).1.m_repeating =
      s.m_repeating.map (fun p =>
        match s.getRepeatOptionsFor p.1 with
        | some options =>
          if p.2 < dt then (p.1, p.2 - dt + (options.rate : Rat) / 1000) else (p.1, p.2 - dt)
        | none => p) ∧
    (s.onRepeat dt).2 =
      (s.m_repeating.filter (fun p =>
        (s.getRepeatOptionsFor p.1).isSome && decide (p.2 < dt))).map
          (fun p => (⟨p.1, true⟩ : InvokeBindEvent)) ∧
    (∀ (A : Str) (x : Rat) (opts : RepeatOptions),
      s.m_repeating = [(A, x)] → s.getRepeatOptionsFor A = some opts →
      (x < dt →
        (s.onRepeat dt).2 = [⟨A, true⟩] ∧
        (s.onRepeat dt).1.m_repeating = [(A, x - dt + (opts.rate : Rat) / 1000)] ∧
        x - dt + (opts.rate : Rat) / 1000 < (opts.rate : Rat) / 1000) ∧
      (dt ≤ x →
        (s.onRepeat dt).2 = [] ∧ (s.onRepeat dt).1.m_repeating = [(A, x - dt)])) := by
  have h1 : (s.onRepeat dt).1.m_repeating =
      s.m_repeating.map (fun p =>
        match s.getRepeatOptionsFor p.1 with
        | some options =>
          if p.2 < dt then (p.1, p.2 - dt + (options.rate : Rat) / 1000) else (p.1, p.2 - dt)
        | none => p) := by
    show s.m_repeating.map (fun p => (s.tickEntry dt p).1) = _
    exact List.map_congr_left (fun p _ => (BindManager.tickEntry_eq s dt p).1)
  have h2 : (s.onRepeat dt).2 =
      (s.m_repeating.filter (fun p =>
        (s.getRepeatOptionsFor p.1).isSome && decide (p.2 < dt))).map
          (fun p => (⟨p.1, true⟩ : InvokeBindEvent)) := by
    show s.m_repeating.filterMap (fun p => (s.tickEntry dt p).2) = _
    exact filterMap_eq_filter_map _ _ _ _ (fun p _ => (BindManager.tickEntry_eq s dt p).2)
  refine ⟨h1, h2, ?_⟩
  intro A x opts hrep hopts
  constructor
  · intro hlt
    refine ⟨?_, ?_, ?_⟩
    · rw [h2, hrep]
      simp [hopts, hlt]
    · rw [h1, hrep]
      simp [hopts, hlt]
    · linarith
  · intro hle
    have hnot : ¬ (x < dt) := not_lt.2 hle
    constructor
    · rw [h2, hrep]
      simp [hopts, hnot]
    · rw [h1, hrep]
      simp [hopts, hnot]

/-- Witness of C25: ticks of 2 s and of 100 ms on `managerHoldingDown`, where
the entry of `hold` has 500 ms left. -/
theorem C25_onRepeat_tick_witness :
    ((managerHoldingDown.onRepeat 2).2 = [⟨"hold".toList, true⟩] ∧
      (managerHoldingDown.onRepeat 2).1.m_repeating =
        [("hold".toList, (500 : Rat) / 1000 - 2 + ((({} : RepeatOptions).rate : Nat) : Rat) / 1000)] ∧
      (500 : Rat) / 1000 - 2 + ((({} : RepeatOptions).rate : Nat) : Rat) / 1000
        < ((({} : RepeatOptions).rate : Nat) : Rat) / 1000) ∧
    ((managerHoldingDown.onRepeat ((100 : Rat) / 1000)).2 = [] ∧
      (managerHoldingDown.onRepeat ((100 : Rat) / 1000)).1.m_repeating =
        [("hold".toList, (500 : Rat) / 1000 - (100 : Rat) / 1000)]) :=
  ⟨((C25_onRepeat_tick managerHoldingDown 2).2.2 "hold".toList ((500 : Rat) / 1000) {}
      managerHoldingDown_repeating.1 managerHoldingDown_repeating.2).1 (by norm_num),
    ((C25_onRepeat_tick managerHoldingDown ((100 : Rat) / 1000)).2.2 "hold".toList
      ((500 : Rat) / 1000) {} managerHoldingDown_repeating.1 managerHoldingDown_repeating.2).2
      (by norm_num)⟩

/-! ## What `removeCategory` leaves alone -/

theorem foldl_preserves_mem {σ α : Type} (P : σ → Prop) (f : σ → α → σ) (l : List α) (s : σ)
    (hf : ∀ s x, x ∈ l → P s → P (f s x)) (hs : P s) : P (l.foldl f s) := by
  induction l generalizing s with
  | nil => exact hs
  | cons x l ih =>
    exact ih (f s x) (fun t y hy ht => hf t y (List.mem_cons_of_mem _ hy) ht)
      (hf s x (List.mem_cons_self _ _) hs)

/-- The action list after a run of `removeBindable` calls. -/
theorem BindManager.foldl_removeBindable_actions (L : List BindableAction) (s : BindManager) :
    (L.foldl (fun (s : BindManager) (b : BindableAction) => s.removeBindable b.getID) s).m_actions
      = s.m_actions.filter (fun e => decide (e.1 ∉ L.map BindableAction.getID)) := by
  induction L generalizing s with
  | nil => simp
  | cons b L ih =>
    rw [List.foldl_cons, ih (s.removeBindable b.getID)]
    show (s.m_actions.filter (fun e => !(strEq e.1 b.getID))).filter _ = _
    rw [List.filter_filter]
    apply List.filter_congr
    intro e _
    rw [Bool.eq_iff_iff]
    simp [strEq, and_comm]

/-- The binds of an action that a run of `removeBindable` calls does not
remove. -/
theorem BindManager.foldl_removeBindable_getBindsFor (L : List BindableAction) (s : BindManager)
    (A : Str) (hA : A ∉ L.map BindableAction.getID) :
    (L.foldl (fun (s : BindManager) (b : BindableAction) => s.removeBindable b.getID)
      s).getBindsFor A = s.getBindsFor A := by
  refine foldl_preserves_mem (fun t => t.getBindsFor A = s.getBindsFor A)
    (fun (s : BindManager) (b : BindableAction) => s.removeBindable b.getID) L s ?_ rfl
  intro t b hb ht
  have hne : A ≠ b.getID := by
    intro hc
    exact hA (hc ▸ List.mem_map_of_mem _ hb)
  have := BindManager.getBindsFor_removeAllBindsFrom_other t.stopAllRepeats b.getID A hne
  exact this.trans ht

/-- With the action entries stored under their ids and no id stored twice, the
ids of the actions in the subtree of `cat` are the keys of the entries whose
category is in that subtree. -/
theorem BindManager.mem_getBindablesIn_ids (s : BindManager) (cat : Category)
    (hkeyed : s.actionsKeyed) (hdistinct : s.actionsDistinct) (e : Str × ActionData)
    (he : e ∈ s.m_actions) :
    e.1 ∈ (s.getBindablesIn cat true).map BindableAction.getID ↔
      e.2.definition.getCategory.hasParent cat = true := by
  simp only [BindManager.getBindablesIn, if_true, List.mem_map, List.mem_filter]
  constructor
  · rintro ⟨a, ⟨e2, ⟨he2, hc⟩, rfl⟩, hid⟩
    have hk : e2.1 = e.1 := (hkeyed e2 he2).trans hid
    have : e2 = e := List.inj_on_of_nodup_map hdistinct he2 he hk
    rw [← this]
    exact hc
  · intro hc
    exact ⟨e.2.definition, ⟨e, ⟨he, hc⟩, rfl⟩, (hkeyed e he).symm⟩

theorem BindManager.keys_of_actionsKeyed (s : BindManager) (h : s.actionsKeyed) :
    s.m_actions.map Prod.fst = s.getAllBindables.map BindableAction.getID := by
  simp only [BindManager.getAllBindables, List.map_map]
  apply List.map_congr_left
  intro e he
  exact h e he

theorem BindManager.actionsDistinct_new (kc : KeyCodes) :
    (BindManager.new kc).actionsDistinct := by
  unfold BindManager.actionsDistinct
  have : (BindManager.new kc).m_actions = [] := rfl
  rw [this]
  exact List.nodup_nil

theorem BindManager.actionsDistinct_removeBindable (s : BindManager) (A : Str)
    (h : s.actionsDistinct) : (s.removeBindable A).actionsDistinct := by
  unfold BindManager.actionsDistinct
  have : (s.removeBindable A).m_actions = s.m_actions.filter (fun e => !(strEq e.1 A)) := rfl
  rw [this]
  exact List.Nodup.sublist (List.Sublist.map _ (List.filter_sublist _)) h

theorem BindManager.actionsDistinct_registerBindable (saved : Str → Option Json)
    (s : BindManager) (action : BindableAction) (after : Str) (hk : s.actionsKeyed)
    (hd : s.actionsDistinct) : (s.registerBindable saved action after).2.actionsDistinct := by
  by_cases hnew : ∀ e ∈ s.m_actions, e.1 ≠ action.getID
  · unfold BindManager.actionsDistinct
    rw [BindManager.keys_of_actionsKeyed _
      (BindManager.actionsKeyed_registerBindable saved s action after hk),
      BindManager.registerBindable_bindables saved s action after hnew]
    have hd2 : (s.getAllBindables.map BindableAction.getID).Nodup := by
      rw [← BindManager.keys_of_actionsKeyed s hk]
      exact hd
    have hnot : action.getID ∉ s.getAllBindables.map BindableAction.getID := by
      rw [← BindManager.keys_of_actionsKeyed s hk]
      intro hc
      obtain ⟨e, he, hid⟩ := List.mem_map.1 hc
      exact hnew e he hid
    have hcons : ((action :: s.getAllBindables).map BindableAction.getID).Nodup := by
      rw [List.map_cons]
      exact List.nodup_cons.2 ⟨hnot, hd2⟩
    cases indexOf (fun a : Str × ActionData => strEq a.1 after) s.m_actions with
    | some ix =>
      simp only
      have hperm : List.Perm (insertAt s.getAllBindables (ix + 1) action)
          (action :: s.getAllBindables) := by
        unfold insertAt
        have : List.Perm
            (s.getAllBindables.take (ix + 1) ++ action :: s.getAllBindables.drop (ix + 1))
            (action :: (s.getAllBindables.take (ix + 1) ++ s.getAllBindables.drop (ix + 1))) :=
          List.perm_middle
        rw [List.take_append_drop] at this
        exact this
      exact ((hperm.map BindableAction.getID).nodup_iff).2 hcons
    | none =>
      simp only
      have hperm : List.Perm (s.getAllBindables ++ [action]) (action :: s.getAllBindables) :=
        List.perm_append_singleton _ _
      exact ((hperm.map BindableAction.getID).nodup_iff).2 hcons
  · have hany : s.stopAllRepeats.m_actions.any (fun act => strEq act.1 action.getID) = true := by
      rw [List.any_eq_true]
      simp only [not_forall, not_not] at hnew
      obtain ⟨e, he, hid⟩ := hnew
      exact ⟨e, he, (strEq_iff _ _).2 hid⟩
    unfold BindManager.registerBindable
    rw [if_pos hany]
    exact hd

/-- C27, at the failing input: the category `Editor2` is neither `Editor`
nor a path below `Editor`, and the action `place` of category `Editor2` is
bound to the chord `A`; `removeCategory("Editor")` removes the category
`Editor2`, the action `place` and its bind. -/
theorem C27_removeCategory_takes_prefix_named_category :
    (⟨"Editor2".toList⟩ : Category) ∈ managerWithEditor2.m_categories ∧
    (⟨"Editor2".toList⟩ : Category) ≠ Category.EDITOR ∧
    ("Editor/".toList).isPrefixOf "Editor2".toList = false ∧
    (managerWithEditor2.getBindable "place".toList).map BindableAction.getCategory
      = some ⟨"Editor2".toList⟩ ∧
    managerWithEditor2.getBindsFor "place".toList = [bindA] ∧
    (⟨"Editor2".toList⟩ : Category) ∉
      (managerWithEditor2.removeCategory Category.EDITOR).m_categories ∧
    ((managerWithEditor2.removeCategory Category.EDITOR).getBindable "place".toList).isSome
      = false ∧
    (managerWithEditor2.removeCategory Category.EDITOR).getBindsFor "place".toList = [] := by
  decide

/-- What `removeCategory(cat)` leaves alone, in terms of the test
`hasParent` that it uses, which holds for every path that has the path of
`cat` as a string prefix. On a manager whose action entries are stored under
their ids, no id twice: the category list afterwards is the old list without
the categories that pass the test, in the old order; the action list
afterwards is the old list without the actions of such a category, in the
old order; and every action of another category is still registered, with
its entry and its binds unchanged. -/
theorem BindManager.removeCategory_frame (s : BindManager) (cat : Category) (hkeyed : s.actionsKeyed)
    (hdistinct : s.actionsDistinct) :
    (∀ c : Category, c.hasParent cat = true ↔ ∃ t : Str, c.m_value = cat.m_value ++ t) ∧
    (s.removeCategory cat).m_categories = s.m_categories.filter (fun c => !(c.hasParent cat)) ∧
    (s.removeCategory cat).m_actions =
      s.m_actions.filter (fun e => !(e.2.definition.getCategory.hasParent cat)) ∧
    (s.removeCategory cat).getAllBindables =
      s.getAllBindables.filter (fun a => !(a.getCategory.hasParent cat)) ∧
    (∀ e ∈ s.m_actions, e.2.definition.getCategory.hasParent cat = false →
      e ∈ (s.removeCategory cat).m_actions ∧
      (s.removeCategory cat).getBindsFor e.1 = s.getBindsFor e.1) := by
  have hcats : (s.removeCategory cat).m_categories =
      s.m_categories.filter (fun c => !(c.hasParent cat)) := by
    show ((s.stopAllRepeats.getBindablesIn cat true).foldl
      (fun (s : BindManager) (b : BindableAction) => s.removeBindable b.getID)
      s.stopAllRepeats).m_categories.filter _ = _
    rw [(BindManager.foldl_removeBindable _ _).2.2]
    rfl
  have hacts : (s.removeCategory cat).m_actions =
      s.m_actions.filter (fun e => !(e.2.definition.getCategory.hasParent cat)) := by
    show ((s.stopAllRepeats.getBindablesIn cat true).foldl
      (fun (s : BindManager) (b : BindableAction) => s.removeBindable b.getID)
      s.stopAllRepeats).m_actions = _
    rw [BindManager.foldl_removeBindable_actions]
    show s.m_actions.filter _ = _
    apply List.filter_congr
    intro e he
    have := BindManager.mem_getBindablesIn_ids s cat hkeyed hdistinct e he
    rw [Bool.eq_iff_iff]
    simp only [decide_eq_true_eq, Bool.not_eq_true', ← Bool.not_eq_true]
    exact not_congr this
  refine ⟨?_, hcats, hacts, ?_, ?_⟩
  · intro c
    unfold Category.hasParent
    rw [List.isPrefixOf_iff_prefix]
    constructor
    · rintro ⟨t, ht⟩
      exact ⟨t, ht.symm⟩
    · rintro ⟨t, ht⟩
      exact ⟨t, ht.symm⟩
  · simp only [BindManager.getAllBindables, hacts, List.filter_map]
    rfl
  · intro e he hc
    constructor
    · rw [hacts, List.mem_filter]
      exact ⟨he, by simp [hc]⟩
    · have hA : e.1 ∉ (s.stopAllRepeats.getBindablesIn cat true).map BindableAction.getID := by
        intro hmem
        have := (BindManager.mem_getBindablesIn_ids s cat hkeyed hdistinct e he).1 hmem
        rw [hc] at this
        exact absurd this (by decide)
      exact BindManager.foldl_removeBindable_getBindsFor _ s.stopAllRepeats e.1 hA

/-! ## The repeat scenario -/

end keybinds
